import Mathlib

/-!
Verification of LIBLR (a Python LR parser generator) against its
natural-language specification.  The Lean definitions below are shallow
embeddings of the functions in `LIBLR.py`; each definition's doc comment
names the Python class/method it embeds.  Theorems near the end of the
file settle the spec claims.
-/

set_option maxRecDepth 4000

namespace LIBLR

/-! ### Actions and the conflict solver (`ActionName`, `Action`, `ConflictSolver`) -/

/-- `ActionName` (IntEnum): SHIFT, REDUCE, ACCEPT, ERROR. -/
inductive ActionName where
  | SHIFT
  | REDUCE
  | ACCEPT
  | ERROR
deriving DecidableEq, Repr

/-- The fields of a `Production` that the conflict solver consults:
its `index` and its optional `precedence` tag (a symbol name). -/
structure CRule where
  index : Nat
  precedence : Option String
deriving DecidableEq, Repr

/-- `Action`: a tagged table entry.  `target` is the destination state
for SHIFT or the production index for REDUCE; `rule` is the originating
production kept for diagnostics and precedence comparison. -/
structure CAction where
  name : ActionName
  target : Nat
  rule : CRule
deriving DecidableEq, Repr

/-- The part of `Grammar` used in conflict resolution: the
name → precedence-level map and the name → associativity map. -/
structure CGrammar where
  precedence : List (String × Nat)
  assoc : List (String × String)
deriving Repr

def CGrammar.precLookup (g : CGrammar) (n : String) : Option Nat :=
  (g.precedence.find? (fun p => p.1 = n)).map (·.2)

def CGrammar.assocLookup (g : CGrammar) (n : String) : Option String :=
  (g.assoc.find? (fun p => p.1 = n)).map (·.2)

/-- The warnings the conflict solver can log (`warning_conflict`,
`warning_rule` calls inside `_pick_shift`/`_pick_reduce`/`_compare_rule`).
We record which warning fired rather than the literal message text. -/
inductive CWarn where
  | conflict (a1 a2 : CAction)
  | discard (r : CRule)
  | precUndefined (n : String)
deriving DecidableEq, Repr

/-- `ConflictSolver._pick_shift`: keep the shift action of the pair
(falling back to `action1`), optionally warning about the discarded rule. -/
def pickShift (a1 a2 : CAction) (warning : Bool) : CAction × List CWarn :=
  if a1.name = ActionName.SHIFT then
    (a1, if warning then [CWarn.discard a2.rule] else [])
  else if a2.name = ActionName.SHIFT then
    (a2, if warning then [CWarn.discard a2.rule] else [])
  else
    (a1, [])

/-- `ConflictSolver._pick_reduce`. -/
def pickReduce (a1 a2 : CAction) (warning : Bool) : CAction × List CWarn :=
  if a1.name = ActionName.REDUCE then
    (a1, if warning then [CWarn.discard a2.rule] else [])
  else if a2.name = ActionName.REDUCE then
    (a2, if warning then [CWarn.discard a2.rule] else [])
  else
    (a1, [])

/-- `ConflictSolver._compare_rule`: resolve a pair of conflicting actions
using the precedence tags of their originating productions. -/
def compareRule (g : CGrammar) (a1 a2 : CAction) : CAction × List CWarn :=
  match a1.rule.precedence, a2.rule.precedence with
  | none, none =>
      let (r, w) := pickShift a1 a2 true
      (r, CWarn.conflict a1 a2 :: w)
  | none, some _ =>
      (a2, [CWarn.conflict a1 a2])
  | some _, none =>
      (a1, [CWarn.conflict a1 a2])
  | some n1, some n2 =>
      match g.precLookup n1 with
      | none => (a1, [CWarn.precUndefined n1])
      | some p1 =>
        match g.precLookup n2 with
        | none => (a1, [CWarn.precUndefined n2])
        | some p2 =>
          if p1 > p2 then (a1, [])
          else if p1 < p2 then (a2, [])
          else
            match g.assocLookup n1 with
            | some a =>
              if a = "left" then pickReduce a1 a2 false
              else if a = "right" then pickShift a1 a2 false
              else (a1, [])
            | none => (a1, [])

/-- The left fold of `ConflictSolver._solve_conflict` over the cell's
actions, accumulating the warnings emitted along the way. -/
def solveFold (g : CGrammar) (final : CAction) (rest : List CAction)
    (ws : List CWarn) : CAction × List CWarn :=
  match rest with
  | [] => (final, ws)
  | a :: tl =>
      let (f', w') := compareRule g final a
      solveFold g f' tl (ws ++ w')

/-- `ConflictSolver._solve_conflict`: collapse a multi-action cell to a
single action.  The input list records the iteration order of the
Python action set; cells with at most one action are left unchanged. -/
def solveConflict (g : CGrammar) (cell : List CAction) :
    List CAction × List CWarn :=
  match cell with
  | [] => ([], [])
  | [a] => ([a], [])
  | a :: tl =>
      let (f, ws) := solveFold g a tl []
      ([f], ws)

/-- The inner loop of `ConflictSolver.process` over one row's cells:
cells with at most one action are skipped, the rest are collapsed. -/
def solveRow (g : CGrammar) :
    List (String × List CAction) → List (String × List CAction) × List CWarn
  | [] => ([], [])
  | (key, cell) :: tl =>
      let here :=
        if cell.length ≤ 1 then (cell, ([] : List CWarn))
        else solveConflict g cell
      let rest := solveRow g tl
      ((key, here.1) :: rest.1, here.2 ++ rest.2)

/-- `ConflictSolver.process`: collapse every multi-action cell of the
table, accumulating the warnings in traversal order. -/
def solveTable (g : CGrammar) :
    List (List (String × List CAction)) →
      List (List (String × List CAction)) × List CWarn
  | [] => ([], [])
  | row :: tl =>
      let r := solveRow g row
      let rest := solveTable g tl
      (r.1 :: rest.1, r.2 ++ rest.2)

/-! ### Semantic values, tokens, productions (`Node`, `Token`, `Production`) -/

/-- Semantic values flowing through the PDA: Python `None`, token strings,
and default `Node(name, children)` trees. -/
inductive PValue where
  | null
  | str (s : String)
  | node (name : String) (children : List PValue)

/-- `Token`: a name, a value and an optional source position. -/
structure LToken where
  name : String
  value : PValue
  line : Option Nat
  column : Option Nat

/-- The fields of `Production` used by the PDA driver and the mid-rule
action lifting: head name, body (symbol names; `Vector` strips ε on
construction so ε never occurs in a body), the semantic-action map
`pos → [(tag, stack-offset)]` in dict insertion order (the Python value
`None` is the empty list), the precedence tag, and the `parent`
attribute set by the lifting (an index into the production list). -/
structure AProd where
  head : String
  body : List String
  action : List (Nat × List (String × Nat))
  precedence : Option String
  parent : Option Nat
deriving DecidableEq, Repr

/-- `pos in rule.action` (Python dict key membership). -/
def actHasKey (action : List (Nat × List (String × Nat))) (k : Nat) : Bool :=
  action.any (fun e => e.1 = k)

/-- `rule.action[pos]` (defaulting to the empty list when absent). -/
def actGet (action : List (Nat × List (String × Nat))) (k : Nat) :
    List (String × Nat) :=
  ((action.find? (fun e => e.1 = k)).map (fun e => e.2)).getD []

/-! ### Mid-rule action lifting (`GrammarAnalyzer.__argument_semantic_action`) -/

/-- The body loop of `__argument_semantic_action`, recursion-ified: `pos`
is the position in the original body, `off` the length of the rewritten
body built so far (Python's `len(body)`, recorded as the marker's
stack-offset), `nid` the running marker counter `name_id`, and `rlen` the
index the rewritten parent will occupy (`len(rules)` at child-creation
time, stored in `child.parent`).  Returns the new counter, the rewritten
body, and the marker productions in creation order. -/
def liftBody (action : List (Nat × List (String × Nat))) (rlen : Nat) :
    Nat → Nat → Nat → List String → Nat × List String × List AProd
  | nid, _, _, [] => (nid, [], [])
  | nid, pos, off, s :: tl =>
    if actHasKey action pos then
      let mh := "M@" ++ toString nid
      let child : AProd :=
        { head := mh, body := [],
          action := [(0, (actGet action pos).map (fun a => (a.1, off)))],
          precedence := none, parent := some rlen }
      let r := liftBody action rlen (nid + 1) (pos + 1) (off + 2) tl
      (r.1, mh :: s :: r.2.1, child :: r.2.2)
    else
      let r := liftBody action rlen nid (pos + 1) (off + 1) tl
      (r.1, s :: r.2.1, r.2.2)

/-- The end-of-body part of `__argument_semantic_action`: all action
entries at keys `≥ |body|` (sorted ascending) are merged under the single
key `stack_pos = |new body|`, each payload re-tagged with that offset. -/
def liftEndAction (action : List (Nat × List (String × Nat)))
    (bodyLen stackPos : Nat) : List (Nat × List (String × Nat)) :=
  let keys := ((action.map (fun e => e.1)).filter (fun k => bodyLen ≤ k)).mergeSort (fun a b => a ≤ b)
  let acts := keys.flatMap (fun k => (actGet action k).map (fun a => (a.1, stackPos)))
  if acts.isEmpty then [] else [(stackPos, acts)]

/-- One iteration of the production loop of `__argument_semantic_action`:
rewrite a single production, returning the updated `name_id` and the
emitted productions (the rewritten parent followed by its marker
children); a production with no mid-rule action is passed through. -/
def liftRule (nid rlen : Nat) (rule : AProd) : Nat × List AProd :=
  if rule.action.isEmpty then (nid, [rule])
  else if ((rule.action.filter (fun e => e.1 < rule.body.length)).length = 0) then
    (nid, [rule])
  else
    let r := liftBody rule.action rlen nid 0 0 rule.body
    let newBody := r.2.1
    let root : AProd :=
      { head := rule.head, body := newBody,
        action := liftEndAction rule.action rule.body.length newBody.length,
        precedence := rule.precedence, parent := none }
    (r.1, root :: r.2.2)

/-- `__argument_semantic_action` over the whole production list, starting
from `name_id = 1` at the top-level call.  `rlen` threads the length of
the output list built so far. -/
def liftProds : Nat → Nat → List AProd → Nat × List AProd
  | nid, _, [] => (nid, [])
  | nid, rlen, rule :: tl =>
    let r := liftRule nid rlen rule
    let rest := liftProds r.1 (rlen + r.2.length) tl
    (rest.1, r.2 ++ rest.2)

/-- Number of mid-rule action sites among the `n` positions
`pos, pos+1, …, pos+n-1`; `sitesIn action 0 p` counts the sites strictly
before position `p`. -/
def sitesIn (action : List (Nat × List (String × Nat))) : Nat → Nat → Nat
  | _, 0 => 0
  | pos, n + 1 =>
    (if actHasKey action pos then 1 else 0) + sitesIn action (pos + 1) n

/-! ### Semantic-action execution (`PDA.__execute_action`, `PDA.__rule_eval`) -/

/-- The installed semantic-action object: its attribute names
(`hasattr`) and the bound methods (`getattr`), each taking the production
and the collected argument window. -/
structure SemBag where
  attrs : List String
  call : String → AProd → Option (List PValue) → PValue

def braceL : Char := Char.ofNat 123

def braceR : Char := Char.ofNat 125

/-- Python `str.strip()`-style whitespace. -/
def isStripChar (c : Char) : Bool :=
  c = ' ' ∨ c = Char.ofNat 9 ∨ c = Char.ofNat 10 ∨ c = Char.ofNat 13

/-- `str.strip()` on the character list of a string. -/
def trimChars (cs : List Char) : List Char :=
  ((cs.dropWhile isStripChar).reverse.dropWhile isStripChar).reverse

/-- Strip the surrounding braces of an action tag
(`name[1:-1].strip()` guarded by `startswith`/`endswith`), as
`__execute_action` does before the `hasattr` lookup. -/
def stripTag (name : String) : String :=
  match name.data with
  | [] => name
  | c :: cs =>
    if c = braceL ∧ cs.getLast? = some braceR then ⟨trimChars cs.dropLast⟩
    else name

/-- `PDA.__generate_args`: the window of `size+1` values ending at the
value-stack top (stacks are modelled with the head as the top, so the
window is the reversed `size+1`-prefix); `None` when the state stack is
not deep enough. -/
def generateArgs (stateStack : List Nat) (valueStack : List PValue)
    (size : Nat) : Option (List PValue) :=
  if stateStack.length ≤ size then none
  else some ((valueStack.take (size + 1)).reverse)

/-- `PDA.__execute_action`: look the (brace-stripped) tag up on the
semantic-action object; raise `KeyError` when it is missing; otherwise
call it.  Returns Python's `(hr, value)` pair. -/
def executeAction (sem : Option SemBag) (stateStack : List Nat)
    (valueStack : List PValue) (rule : AProd) (actname : String)
    (actsize : Nat) : Except String (Nat × PValue) :=
  let args := generateArgs stateStack valueStack actsize
  match sem with
  | none => Except.ok (0, PValue.null)
  | some bag =>
    let name := stripTag actname
    if bag.attrs.contains name then
      Except.ok (1, bag.call name rule args)
    else
      Except.error ("action " ++ actname ++ " is not defined")

/-- The inner loop of `PDA.__rule_eval` over one entry's action list,
threading `(value, executed)`. -/
def ruleEvalActs (sem : Option SemBag) (stateStack : List Nat)
    (valueStack : List PValue) (parent : AProd) (size : Nat) :
    List (String × Nat) → PValue × Nat → Except String (PValue × Nat)
  | [], acc => Except.ok acc
  | a :: tl, acc =>
    match executeAction sem stateStack valueStack parent a.1 a.2 with
    | Except.error e => Except.error e
    | Except.ok (hr, vv) =>
      if hr > 0 then ruleEvalActs sem stateStack valueStack parent size tl (vv, acc.2 + 1)
      else ruleEvalActs sem stateStack valueStack parent size tl acc

/-- The outer loop of `PDA.__rule_eval` over the action dict's entries;
entries whose position is not the body length are skipped (the code logs
`invalid action pos` and continues). -/
def ruleEvalLoop (sem : Option SemBag) (stateStack : List Nat)
    (valueStack : List PValue) (parent : AProd) (size : Nat) :
    List (Nat × List (String × Nat)) → PValue × Nat → Except String (PValue × Nat)
  | [], acc => Except.ok acc
  | e :: tl, acc =>
    if e.1 ≠ size then ruleEvalLoop sem stateStack valueStack parent size tl acc
    else
      match ruleEvalActs sem stateStack valueStack parent size e.2 acc with
      | Except.error err => Except.error err
      | Except.ok acc' => ruleEvalLoop sem stateStack valueStack parent size tl acc'

/-- `PDA.__rule_eval`: evaluate the end-of-rule actions of `rule`; when
none executed, synthesize the default `Node(rule.head, args[1:])`.
`prods` resolves the `parent` attribute left by the lifting. -/
def ruleEval (prods : List AProd) (sem : Option SemBag)
    (stateStack : List Nat) (valueStack : List PValue) (rule : AProd) :
    Except String PValue :=
  let parent := match rule.parent with
    | some i => (prods.get? i).getD rule
    | none => rule
  let size := rule.body.length
  if stateStack.length ≤ size then
    Except.error "stack size is not enough"
  else
    match ruleEvalLoop sem stateStack valueStack parent size rule.action (PValue.null, 0) with
    | Except.error e => Except.error e
    | Except.ok (value, executed) =>
      if executed = 0 then
        match generateArgs stateStack valueStack size with
        | some args => Except.ok (PValue.node rule.head (args.drop 1))
        | none => Except.error "stack size is not enough"
      else Except.ok value

/-! ### The PDA step (`PDA.open`, `PDA.step`, `PDA.__proceed_reduce`) -/

/-- A resolved table entry as the PDA reads it: the `Action` fields it
consults (`name` and `target`). -/
structure PAction where
  name : ActionName
  target : Nat
deriving DecidableEq, Repr

/-- A table row: symbol name → action set (a singleton list after
conflict resolution; `list(data)[0]` takes the first element). -/
def PRow := List (String × List PAction)

/-- `tab.rows[state].get(name, None)`. -/
def rowGet (row : PRow) (name : String) : Option (List PAction) :=
  ((row.find? (fun e => e.1 = name)).map (fun e => e.2))

/-- The PDA configuration: the three parallel stacks (head = top), the
lookahead, the remaining token input, and the result/measurement fields. -/
structure PDAState where
  stateStack : List Nat
  symbolStack : List String
  valueStack : List PValue
  current : Option LToken
  inputRest : List LToken
  accepted : Bool
  error : Option String
  result : Option PValue

/-- `PushDownInput.read` on the already-tokenized stream (the lexer has
appended the trailing `$` token). -/
def inputRead (rest : List LToken) : Option LToken × List LToken :=
  match rest with
  | [] => (none, [])
  | t :: tl => (some t, tl)

/-- `PDA.open`: reset the stacks to `(0, $, None)` and read the first
lookahead. -/
def pdaOpen (tokens : List LToken) : PDAState :=
  let r := inputRead tokens
  { stateStack := [0], symbolStack := ["$"], valueStack := [PValue.null],
    current := r.1, inputRest := r.2,
    accepted := false, error := none, result := none }

/-- `PDA.__proceed_reduce`: evaluate the rule, pop `|body|` entries from
the three stacks, and shift on GOTO of the head.  A failed internal
assertion or an out-of-range production index is a crash (`Except.error`);
driver-level errors are recorded in `st.error` as the code does. -/
def proceedReduce (prods : List AProd) (tab : List PRow)
    (sem : Option SemBag) (st : PDAState) (target : Nat) :
    Except String PDAState :=
  match prods.get? target with
  | none => Except.error "production index out of range"
  | some rule =>
    let size := rule.body.length
    match ruleEval prods sem st.stateStack st.valueStack rule with
    | Except.error e => Except.error e
    | Except.ok value =>
      let stateStack := st.stateStack.drop size
      let symbolStack := st.symbolStack.drop size
      let valueStack := st.valueStack.drop size
      if stateStack.isEmpty then Except.error "assert state_stack nonempty"
      else
        match stateStack.head? with
        | none => Except.error "assert state_stack nonempty"
        | some state =>
          if tab.length ≤ state then Except.error "assert state in tab"
          else
            match (tab.get? state).bind (fun row => rowGet row rule.head) with
            | none =>
              Except.ok { st with error := some "reduction state mismatch" }
            | some data =>
              match data.head? with
              | none =>
                Except.ok { st with error := some "reduction state mismatch" }
              | some action =>
                if action.name ≠ ActionName.SHIFT then
                  Except.ok { st with error := some "invalid action name" }
                else
                  Except.ok { st with
                    stateStack := action.target :: stateStack,
                    symbolStack := rule.head :: symbolStack,
                    valueStack := value :: valueStack }

/-- `PDA.step`: one transition of the driver.  Failed `assert`s and
uncaught exceptions are modelled as `Except.error`; recoverable driver
errors set the `error` field as the code does. -/
def pdaStep (prods : List AProd) (tab : List PRow) (sem : Option SemBag)
    (st : PDAState) : Except String PDAState :=
  if st.accepted then Except.ok st
  else if st.error.isSome then Except.ok st
  else
    match st.stateStack.head? with
    | none => Except.error "PDA fatal error"
    | some state =>
      if tab.length ≤ state then Except.error "assert state in tab"
      else
        match st.current with
        | none => Except.error "lookahead is None"
        | some lookahead =>
          match (tab.get? state).bind (fun row => rowGet row lookahead.name) with
          | none => Except.ok { st with error := some "unexpected token" }
          | some data =>
            if data.isEmpty then
              Except.ok { st with error := some "unexpected token" }
            else if data.length ≠ 1 then
              Except.error "assert len(data) == 1"
            else
              match data.head? with
              | none => Except.error "assert len(data) == 1"
              | some action =>
                match action.name with
                | ActionName.SHIFT =>
                  let r := inputRead st.inputRest
                  Except.ok { st with
                    stateStack := action.target :: st.stateStack,
                    symbolStack := lookahead.name :: st.symbolStack,
                    valueStack := lookahead.value :: st.valueStack,
                    current := r.1, inputRest := r.2 }
                | ActionName.REDUCE =>
                  proceedReduce prods tab sem st action.target
                | ActionName.ACCEPT =>
                  if st.stateStack.length ≠ 2 then
                    Except.error "assert len(state_stack) == 2"
                  else
                    Except.ok { st with
                      accepted := true,
                      result := st.valueStack.head? }
                | ActionName.ERROR =>
                  Except.ok { st with error := some "syntax error" }

/-! ### Lexer literal interception (`cstring`, `Lexer`) -/

def quoteChar : Char := Char.ofNat 39

def dquoteChar : Char := Char.ofNat 34

/-- `cstring.string_is_quoted`: at least two characters, the first a
quote mark, the last equal to the first. -/
def stringIsQuoted (text : String) : Bool :=
  match text.data with
  | [] => false
  | c :: cs =>
    if cs.isEmpty then false
    else if c ≠ quoteChar ∧ c ≠ dquoteChar then false
    else decide (cs.getLast? = some c)

/-- `hex(cc)[2:]` right-justified with zeros to width `w`. -/
def hexPad (cc w : Nat) : List Char :=
  let ds := Nat.toDigits 16 cc
  List.replicate (w - ds.length) '0' ++ ds

/-- `cstring.string_quote`: wrap `text` in single quotes, escaping the
single quote itself, control characters, and (when `escapeUnicode`)
non-ASCII characters. -/
def stringQuote (text : String) (escapeUnicode : Bool) : String :=
  let escape := fun (ch : Char) =>
    let cc := ch.toNat
    if ch = quoteChar then ['\\', quoteChar]
    else if cc ≥ 256 ∧ escapeUnicode then '\\' :: 'u' :: hexPad cc 4
    else if (cc ≥ 128 ∧ escapeUnicode) ∨ cc < 32 then '\\' :: 'x' :: hexPad cc 2
    else [ch]
  ⟨quoteChar :: (text.data.flatMap escape) ++ [quoteChar]⟩

/-- `Lexer.push_literal`: register a literal text under its single-quoted
form (`self.literal[literal] = cstring.string_quote(literal)`).  A dict
update: replace an existing binding, else append. -/
def pushLiteral (lit : List (String × String)) (text : String) :
    List (String × String) :=
  if lit.any (fun e => e.1 = text) then
    lit.map (fun e => if e.1 = text then (text, stringQuote text false) else e)
  else lit ++ [(text, stringQuote text false)]

/-- `text in self.literal` / `self.literal[text]`. -/
def litLookup (lit : List (String × String)) (text : String) : Option String :=
  (lit.find? (fun e => e.1 = text)).map (fun e => e.2)

/-- `Lexer.__convert_to_literal`: rewrite a token whose value is a string
registered as a literal to carry the quoted name. -/
def convertToLiteral (lit : List (String × String)) (token : LToken) : LToken :=
  if stringIsQuoted token.name then token
  else
    match token.value with
    | PValue.str name =>
      match litLookup lit name with
      | none => token
      | some quoted =>
        { name := quoted, value := PValue.str name,
          line := token.line, column := token.column }
    | _ => token

/-- The per-token rewriting inside `Lexer.tokenize`'s loop (the low-level
regex scan that produces the incoming token is the out-of-scope
collaborator; this is the literal-interception filter applied to each
token it yields). -/
def tokenizeStep (lit : List (String × String)) (interceptLiteral : Bool)
    (token : LToken) : LToken :=
  match token.value with
  | PValue.str v =>
    if ¬ stringIsQuoted token.name ∧ (litLookup lit v).isSome ∧ interceptLiteral then
      convertToLiteral lit token
    else token
  | _ => token

/-- `Lexer.tokenize` as the interception filter mapped over the scanned
token stream. -/
def lexerTokenize (lit : List (String × String)) (interceptLiteral : Bool)
    (tokens : List LToken) : List LToken :=
  tokens.map (tokenizeStep lit interceptLiteral)

/-- `PushDownInput.__open_lexer`'s literal registration: push every
(unquoted) literal terminal text of the grammar into the lexer. -/
def openLexerLiterals (texts : List String) : List (String × String) :=
  texts.foldl pushLiteral []

/-! ### The analysis grammar and the FIRST / nullable fixpoints
(`Grammar.update`, `GrammarAnalyzer.__update_first_set`,
`GrammarAnalyzer.__update_epsilon`) -/

/-- The fields of `Production` consulted by the analyzer's fixpoints:
head name and body symbol names (`Vector` strips ε on construction, so
an ε-production has the empty body). -/
structure NProd where
  head : String
  body : List String
deriving DecidableEq, Repr

/-- The grammar as the analyzer sees it after `update`: the production
list and the terminal registry (a symbol's `term` bit is membership in
it). -/
structure NGrammar where
  prods : List NProd
  terminals : List String
deriving DecidableEq, Repr

/-- Ordered-dict helpers (Python 3.7+ dicts preserve insertion order). -/
def alGet {α : Type} (l : List (String × α)) (k : String) : Option α :=
  (l.find? (fun e => e.1 = k)).map (fun e => e.2)

def alSet {α : Type} (l : List (String × α)) (k : String) (v : α) :
    List (String × α) :=
  if l.any (fun e => e.1 = k) then
    l.map (fun e => if e.1 = k then (k, v) else e)
  else l ++ [(k, v)]

/-- Insert a symbol name on first sight (`Grammar.update`'s
`if name not in self.symbol`). -/
def addSym (l : List String) (s : String) : List String :=
  if l.contains s then l else l ++ [s]

/-- `g.symbol` in registration order: heads first, then body symbols,
production by production. -/
def symbolsOf (g : NGrammar) : List String :=
  g.prods.foldl (fun acc p => p.body.foldl addSym (addSym acc p.head)) []

/-- `symbol.term` after `update`. -/
def isTermN (g : NGrammar) (s : String) : Bool :=
  g.terminals.contains s

/-- The analyzer's `self.nonterminal` iteration order. -/
def nonterminalsOf (g : NGrammar) : List String :=
  (symbolsOf g).filter (fun n => ¬ isTermN g n)

/-- `g.rule[n]` (every nonterminal gets an entry, possibly empty). -/
def rulesOf (g : NGrammar) (n : String) : List NProd :=
  g.prods.filter (fun p => p.head = n)

/-- The name of the ε symbol. -/
def epsName : String := ""

/-- The FIRST map: symbol name → set of names (kept duplicate-free by
the guarded adds, insertion-ordered like a Python set's contents). -/
def FirstSt := List (String × List String)

def fsGet (st : FirstSt) (n : String) : List String :=
  (alGet st n).getD []

/-- `__update_first_set`'s initialization: `{t}` for terminals, `∅` for
nonterminals, then `FIRST[$] = {$}` and `FIRST[#] = {#}`. -/
def initFirst (g : NGrammar) : FirstSt :=
  alSet (alSet ((symbolsOf g).map
    (fun n => (n, if isTermN g n then [n] else ([] : List String))))
    "$" ["$"]) "#" ["#"]

/-- `GrammarAnalyzer.__calculate_first_set` on a body: walk the vector,
collecting FIRST of each prefix symbol, stopping at the first terminal
or non-ε-deriving nonterminal; append ε when the whole body is passed. -/
def calcFirst (g : NGrammar) (st : FirstSt) : List String → List String
  | [] => [epsName]
  | s :: tl =>
    if isTermN g s then [s]
    else
      let fs := fsGet st s
      let out := fs.filter (fun m => ¬ m = epsName)
      if fs.contains epsName then out ++ calcFirst g st tl else out

/-- The guarded adds of `__update_first_set`'s inner loop, counting the
changes. -/
def addFirstItems (st : FirstSt) (n : String) :
    List String → FirstSt × Nat
  | [] => (st, 0)
  | m :: tl =>
    if (fsGet st n).contains m then addFirstItems st n tl
    else
      let st' := alSet st n (fsGet st n ++ [m])
      let r := addFirstItems st' n tl
      (r.1, r.2 + 1)

/-- One nonterminal's rules within a FIRST pass. -/
def firstPassRules (g : NGrammar) (n : String) :
    FirstSt → List NProd → FirstSt × Nat
  | st, [] => (st, 0)
  | st, r :: tl =>
    let a := addFirstItems st n (calcFirst g st r.body)
    let b := firstPassRules g n a.1 tl
    (b.1, a.2 + b.2)

/-- One full FIRST pass over the nonterminals. -/
def firstPassSyms (g : NGrammar) :
    FirstSt → List String → FirstSt × Nat
  | st, [] => (st, 0)
  | st, n :: tl =>
    let a := firstPassRules g n st (rulesOf g n)
    let b := firstPassSyms g a.1 tl
    (b.1, a.2 + b.2)

def firstPass (g : NGrammar) (st : FirstSt) : FirstSt × Nat :=
  firstPassSyms g st (nonterminalsOf g)

/-- The `while 1 / if not changes: break` loop of
`__update_first_set`, fuelled: `none` when the fuel runs out before the
fixpoint pass. -/
def firstLoopO (g : NGrammar) : Nat → FirstSt → Option FirstSt
  | 0, _ => none
  | fuel + 1, st =>
    let r := firstPass g st
    if r.2 = 0 then some r.1 else firstLoopO g fuel r.1

def runFirst (g : NGrammar) (fuel : Nat) : Option FirstSt :=
  firstLoopO g fuel (initFirst g)

/-- The tri-state ε flags (`None` / `False` / `True`):
`(is_epsilon, has_epsilon)` for each production (by position) and each
symbol (by name). -/
structure EpsSt where
  prodFlags : List (Option Bool × Option Bool)
  symFlags : List (String × (Option Bool × Option Bool))
deriving DecidableEq, Repr

def sfGet (sf : List (String × (Option Bool × Option Bool))) (n : String) :
    Option Bool × Option Bool :=
  (alGet sf n).getD (none, none)

/-- The first phase of `__update_epsilon`: terminals and rule-less
symbols are classified `False/False` immediately; the rest start
unresolved (the count-based checks are vacuous on a fresh grammar whose
production flags are all `None`). -/
def initEpsSym (g : NGrammar) :
    List (String × (Option Bool × Option Bool)) :=
  (symbolsOf g).map (fun n =>
    if isTermN g n ∨ (rulesOf g n).isEmpty then (n, (some false, some false))
    else (n, (none, none)))

def initEps (g : NGrammar) : EpsSt :=
  { prodFlags := List.replicate g.prods.length (none, none),
    symFlags := initEpsSym g }

/-- `GrammarAnalyzer.__update_epsilon_production`. -/
def updProdFlag (g : NGrammar)
    (sf : List (String × (Option Bool × Option Bool))) (p : NProd)
    (f : Option Bool × Option Bool) :
    (Option Bool × Option Bool) × Nat :=
  if f.1 ≠ none ∧ f.2 ≠ none then (f, 0)
  else if p.body.any (fun s => isTermN g s) then
    let r1 : Option Bool × Nat :=
      if f.1 = none then (some false, 1) else (f.1, 0)
    let r2 : Option Bool × Nat :=
      if f.2 = none then (some false, 1) else (f.2, 0)
    ((r1.1, r2.1), r1.2 + r2.2)
  else
    let ic := (p.body.filter (fun s => (sfGet sf s).1 = some true)).length
    let inc := (p.body.filter (fun s => (sfGet sf s).1 = some false)).length
    let hc := (p.body.filter (fun s => (sfGet sf s).2 = some true)).length
    let hnc := (p.body.filter (fun s => (sfGet sf s).2 = some false)).length
    let s1 : (Option Bool × Option Bool) × Nat :=
      if f.1 = none then
        if p.body.length ≤ ic then ((some true, some true), 1)
        else if 0 < inc then ((some false, f.2), 1)
        else (f, 0)
      else (f, 0)
    if s1.1.2 = none then
      if p.body.length ≤ hc then ((s1.1.1, some true), s1.2 + 1)
      else if 0 < hnc then ((s1.1.1, some false), s1.2 + 1)
      else s1
    else s1

/-- The `(is, has)` flags of the rules of `n`, by production position. -/
def rulesFlagsOf (g : NGrammar)
    (pf : List (Option Bool × Option Bool)) (n : String) :
    List (Option Bool × Option Bool) :=
  ((g.prods.zip pf).filter (fun e => e.1.head = n)).map (fun e => e.2)

/-- `GrammarAnalyzer.__update_epsilon_symbol`. -/
def updSymFlag (g : NGrammar)
    (pf : List (Option Bool × Option Bool)) (n : String)
    (f : Option Bool × Option Bool) :
    (Option Bool × Option Bool) × Nat :=
  if isTermN g n then (f, 0)
  else if f.1 ≠ none ∧ f.2 ≠ none then (f, 0)
  else
    let rf := rulesFlagsOf g pf n
    let ic := (rf.filter (fun e => e.1 = some true)).length
    let inc := (rf.filter (fun e => e.1 = some false)).length
    let hc := (rf.filter (fun e => e.2 = some true)).length
    let hnc := (rf.filter (fun e => e.2 = some false)).length
    let s1 : (Option Bool × Option Bool) × Nat :=
      if f.1 = none then
        if rf.length ≤ ic then ((some true, some true), 1)
        else if rf.length ≤ inc then ((some false, some false), 1)
        else (f, 0)
      else (f, 0)
    if s1.1.2 = none then
      if 0 < hc then ((s1.1.1, some true), s1.2 + 1)
      else if rf.length ≤ hnc then ((s1.1.1, some false), s1.2 + 1)
      else s1
    else s1

/-- The production loop of one `__update_epsilon` iteration. -/
def epsPassProds (g : NGrammar)
    (sf : List (String × (Option Bool × Option Bool))) :
    List NProd → List (Option Bool × Option Bool) →
      List (Option Bool × Option Bool) × Nat
  | [], _ => ([], 0)
  | _ :: _, [] => ([], 0)
  | p :: pt, f :: ft =>
    let r := updProdFlag g sf p f
    let rest := epsPassProds g sf pt ft
    (r.1 :: rest.1, r.2 + rest.2)

/-- The symbol loop of one `__update_epsilon` iteration. -/
def epsPassSyms (g : NGrammar)
    (pf : List (Option Bool × Option Bool)) :
    List (String × (Option Bool × Option Bool)) →
      List (String × (Option Bool × Option Bool)) × Nat
  | [] => ([], 0)
  | (n, f) :: tl =>
    let r := updSymFlag g pf n f
    let rest := epsPassSyms g pf tl
    ((n, r.1) :: rest.1, r.2 + rest.2)

/-- One iteration of `__update_epsilon`'s fixpoint loop: all
productions, then all symbols, with the change count. -/
def epsPass (g : NGrammar) (st : EpsSt) : EpsSt × Nat :=
  let pr := epsPassProds g st.symFlags g.prods st.prodFlags
  let sr := epsPassSyms g pr.1 st.symFlags
  ({ prodFlags := pr.1, symFlags := sr.1 }, pr.2 + sr.2)

/-- The fuelled `while True / if not count: break` loop of
`__update_epsilon`. -/
def epsLoopO (g : NGrammar) : Nat → EpsSt → Option EpsSt
  | 0, _ => none
  | fuel + 1, st =>
    let r := epsPass g st
    if r.2 = 0 then some r.1 else epsLoopO g fuel r.1

def runEps (g : NGrammar) (fuel : Nat) : Option EpsSt :=
  epsLoopO g fuel (initEps g)

/-- The reference notion of nullability: `n` (a nonterminal) derives ε
via one of its productions whose body symbols all derive ε.  This is the
semantics the `has_epsilon` flag and `ε ∈ FIRST` are both checked
against. -/
inductive HasEps (g : NGrammar) : String → Prop where
  | intro (n : String) (p : NProd) :
      isTermN g n = false → p ∈ g.prods → p.head = n →
      (∀ s ∈ p.body, HasEps g s) → HasEps g n

/-- The semantics of the `is_epsilon` flag: every production of `n`
derives only ε. -/
inductive IsEps (g : NGrammar) : String → Prop where
  | intro (n : String) :
      isTermN g n = false → rulesOf g n ≠ [] →
      (∀ p ∈ rulesOf g n, ∀ s ∈ p.body, IsEps g s) → IsEps g n

/-- Basic well-formedness of the in-memory grammar, guaranteed by the
loader: the ε name is neither a terminal nor a head nor a body symbol
(`Vector` strips ε from bodies on construction). -/
def WfG (g : NGrammar) : Prop :=
  epsName ∉ g.terminals ∧
    ∀ p ∈ g.prods, p.head ≠ epsName ∧ epsName ∉ p.body

/-- Soundness of one symbol's ε flags with respect to `IsEps`/`HasEps`,
plus the bookkeeping fact that only nonterminals with rules stay
unresolved. -/
def symFlagOk (g : NGrammar) (n : String)
    (f : Option Bool × Option Bool) : Prop :=
  (f.1 = some true → IsEps g n) ∧
  (f.1 = some false → ¬ HasEps g n) ∧
  (f.2 = some true → HasEps g n) ∧
  (f.2 = some false → ¬ HasEps g n) ∧
  ((f.1 = none ∨ f.2 = none) → isTermN g n = false ∧ rulesOf g n ≠ [])

/-- Soundness of one production's ε flags. -/
def prodFlagOk (g : NGrammar) (p : NProd)
    (f : Option Bool × Option Bool) : Prop :=
  (f.1 = some true → ∀ s ∈ p.body, IsEps g s) ∧
  (f.1 = some false → ¬ ∀ s ∈ p.body, HasEps g s) ∧
  (f.2 = some true → ∀ s ∈ p.body, HasEps g s) ∧
  (f.2 = some false → ¬ ∀ s ∈ p.body, HasEps g s)

def SymInv (g : NGrammar)
    (sf : List (String × (Option Bool × Option Bool))) : Prop :=
  ∀ e ∈ sf, symFlagOk g e.1 e.2

def ProdInv (g : NGrammar)
    (pf : List (Option Bool × Option Bool)) : Prop :=
  ∀ e ∈ g.prods.zip pf, prodFlagOk g e.1 e.2

/-- Structural well-formedness of the ε-flag state. -/
def EStWf (g : NGrammar) (st : EpsSt) : Prop :=
  st.symFlags.map (fun e => e.1) = symbolsOf g ∧
    st.prodFlags.length = g.prods.length

/-- Soundness invariant of the FIRST fixpoint with respect to ε: the ε
name is only ever recorded in the FIRST set of a nullable symbol. -/
def FInv (g : NGrammar) (st : FirstSt) : Prop :=
  ∀ n, epsName ∈ fsGet st n → HasEps g n

/-- A small concrete grammar with a nullable nonterminal:
`S → A 't' | A`, `A → ε`. -/
def gC8 : NGrammar :=
  { prods := [⟨"S", ["A", "t"]⟩, ⟨"S", ["A"]⟩, ⟨"A", []⟩],
    terminals := ["t"] }

/-- Its FIRST fixpoint (fuel 10 reaches the zero-change pass). -/
def fC8 : FirstSt := (runFirst gC8 10).getD []

/-- Its ε-flag fixpoint. -/
def eC8 : EpsSt := (runEps gC8 10).getD (initEps gC8)

/-! ### LR items, item sets and the state constructions
(`RulePtr`, `LRItemSet`, `LR1Analyzer`, `LALRAnalyzer`) -/

/-- `RulePtr`: a dotted production with an optional lookahead.
`RulePtr.__eq__` compares the production content (`Production.__eq__`
is head and body), the dot index and the lookahead — exactly structural
equality of this record. -/
structure LItem where
  head : String
  body : List String
  dot : Nat
  la : Option String
deriving DecidableEq, Repr

/-- `RulePtr.next`. -/
def itemNext (it : LItem) : Option String := it.body.get? it.dot

/-- `RulePtr.advance`. -/
def itemAdvance (it : LItem) : Option LItem :=
  if it.body.length ≤ it.dot then none
  else some { it with dot := it.dot + 1 }

/-- `RulePtr.satisfied` (`len(rule)` is `len(rule.body)`). -/
def itemSatisfied (it : LItem) : Bool := it.body.length ≤ it.dot

/-- An `LRItemSet`: the kernel and the computed `closure` list (kernel
items first, then the generated items; the `checked` dict keeps the
list duplicate-free).  Python additionally sorts the kernel, but only
its set of items ever matters: state identity is by `create_name`,
whose text is injective in the sorted kernel. -/
structure LState where
  kernel : List LItem
  closure : List LItem
deriving DecidableEq, Repr

/-- `create_name` equality: two (duplicate-free) kernels get the same
name exactly when they hold the same items. -/
def kernelEq (k1 k2 : List LItem) : Bool :=
  k1.length == k2.length && k1.all (fun it => it ∈ k2) &&
    k2.all (fun it => it ∈ k1)

/-- A guarded `LRItemSet.append` (the `checked` membership test). -/
def addItem (cc : List LItem) (it : LItem) : List LItem :=
  if it ∈ cc then cc else cc ++ [it]

/-- `LR1Analyzer.closure`'s worklist.  The `top` cursor never rewinds,
so the two nested Python loops process each list position exactly once
(the outer `changes` test only re-enters the inner loop until `top`
catches up with the growing list); hence a single fuelled loop.  For an
item `[A → α·Bβ, a]` and every production `B → γ` it appends the items
`[B → ·γ, b]`, `b ∈ FIRST(βa)`, guarded by membership.  A nonterminal
without rules raises `GrammarError` (`none` here, as is running out of
fuel). -/
def lr1ClosureLoop (g : NGrammar) (F : FirstSt) :
    Nat → List LItem → Nat → Option (List LItem)
  | 0, _, _ => none
  | fuel + 1, cc, top =>
    match cc.get? top with
    | none => some cc
    | some A =>
      match itemNext A with
      | none => lr1ClosureLoop g F fuel cc (top + 1)
      | some B =>
        if isTermN g B then lr1ClosureLoop g F fuel cc (top + 1)
        else if (rulesOf g B).isEmpty then none
        else
          lr1ClosureLoop g F fuel
            (((rulesOf g B).flatMap (fun r =>
              (calcFirst g F (A.body.drop (A.dot + 1) ++ A.la.toList)).map
                (fun t => LItem.mk r.head r.body 0 (some t)))).foldl
              addItem cc)
            (top + 1)

/-- `LR1Analyzer.closure`: seed the closure list with the (deduped)
kernel, then run the worklist. -/
def lr1Closure (g : NGrammar) (F : FirstSt) (fuel : Nat)
    (kernel : List LItem) : Option (List LItem) :=
  lr1ClosureLoop g F fuel (kernel.foldl addItem []) 0

/-- `LALRAnalyzer._LR0_closure`: the same worklist without lookaheads
(new items are `[B → ·γ]`, one per production of `B`). -/
def lr0ClosureLoop (g : NGrammar) :
    Nat → List LItem → Nat → Option (List LItem)
  | 0, _, _ => none
  | fuel + 1, cc, top =>
    match cc.get? top with
    | none => some cc
    | some A =>
      match itemNext A with
      | none => lr0ClosureLoop g fuel cc (top + 1)
      | some B =>
        if isTermN g B then lr0ClosureLoop g fuel cc (top + 1)
        else if (rulesOf g B).isEmpty then none
        else
          lr0ClosureLoop g fuel
            (((rulesOf g B).map (fun r =>
              LItem.mk r.head r.body 0 none)).foldl addItem cc)
            (top + 1)

/-- `_LR0_closure` seeds the closure list with the kernel unguarded
(kernels are duplicate-free). -/
def lr0Closure (g : NGrammar) (fuel : Nat) (kernel : List LItem) :
    Option (List LItem) :=
  lr0ClosureLoop g fuel kernel 0

/-- `__try_goto` (textually identical in both builders): the advanced
kernel of the transition on `X`. -/
def tryGoto (cc : List LItem) (X : String) : List LItem :=
  cc.filterMap (fun it =>
    match itemNext it with
    | none => none
    | some b => if b = X then itemAdvance it else none)

/-- `LRItemSet.find_expecting_symbol`: the dot-following symbols in
first-appearance order. -/
def findExpecting (cc : List LItem) : List String :=
  (cc.filterMap itemNext).foldl
    (fun acc b => if b ∈ acc then acc else acc ++ [b]) []

/-- The analyzer's growing machine: `state` by uuid (list position),
the `link` transition map keyed by `(state, symbol)`, and the BFS
`pending` deque of uuids. -/
structure BuildSt where
  states : List LState
  links : List (Nat × String × Nat)
  pending : List Nat
deriving DecidableEq, Repr

def linkGet (links : List (Nat × String × Nat)) (u : Nat) (X : String) :
    Option Nat :=
  (links.find? (fun e => e.1 == u && e.2.1 == X)).map (fun e => e.2.2)

/-- `__create_link` (the write-only `backlink` mirror is omitted; a
second link on the same key is dropped, as in the source). -/
def createLink (st : BuildSt) (u : Nat) (X : String) (v : Nat) : BuildSt :=
  if (linkGet st.links u X).isSome then st
  else { st with links := st.links ++ [(u, X, v)] }

/-- The `name in self.names` lookup: find a state with the same kernel
name (= kernel set, `kernelEq`). -/
def stateFind (states : List LState) (kernel : List LItem) : Option Nat :=
  states.findIdx? (fun s => kernelEq s.kernel kernel)

/-- The body of the `__update_state` loop for one expecting symbol:
compute the goto kernel, link to the existing state of that name or
close and append a fresh one. -/
def gotoStep (close : List LItem → Option (List LItem)) (u : Nat)
    (s : LState) (acc : BuildSt) (X : String) : Option BuildSt :=
  let kernel := tryGoto s.closure X
  if kernel.isEmpty then some acc
  else
    match stateFind acc.states kernel with
    | some v => some (createLink acc u X v)
    | none =>
      match close kernel with
      | none => none
      | some cls =>
        some (createLink
          { acc with
            states := acc.states ++ [(⟨kernel, cls⟩ : LState)],
            pending := acc.pending ++ [acc.states.length] }
          u X acc.states.length)

/-- `__update_state` / `__LR0_update_state` (textually identical up to
the closure routine, passed here as `close`). -/
def updateState (close : List LItem → Option (List LItem))
    (st : BuildSt) (u : Nat) : Option BuildSt :=
  match st.states.get? u with
  | none => none
  | some s => (findExpecting s.closure).foldlM (gotoStep close u s) st

/-- The BFS loop of `__build_states` / `__LR0_build_states`. -/
def bfsLoop (close : List LItem → Option (List LItem)) :
    Nat → BuildSt → Option BuildSt
  | 0, _ => none
  | fuel + 1, st =>
    match st.pending with
    | [] => some st
    | u :: rest =>
      match updateState close { st with pending := rest } u with
      | none => none
      | some st' => bfsLoop close fuel st'

/-- `LR1Analyzer.__build_states`: requires the augmented start `S^`
with its single production, seeds `[S^ → ·start, $]`, closes it and
runs the BFS. -/
def lr1BuildStates (g : NGrammar) (F : FirstSt) (fuel : Nat) :
    Option BuildSt :=
  match rulesOf g "S^" with
  | [r0] =>
    match lr1Closure g F fuel [LItem.mk r0.head r0.body 0 (some "$")] with
    | none => none
    | some cls =>
      bfsLoop (lr1Closure g F fuel) fuel
        { states := [⟨[LItem.mk r0.head r0.body 0 (some "$")], cls⟩],
          links := [], pending := [0] }
  | _ => none

/-- `LALRAnalyzer.__LR0_build_states`: the same skeleton on the
lookahead-free item `[S^ → ·start]`. -/
def lr0BuildStates (g : NGrammar) (fuel : Nat) : Option BuildSt :=
  match rulesOf g "S^" with
  | [r0] =>
    match lr0Closure g fuel [LItem.mk r0.head r0.body 0 none] with
    | none => none
    | some cls =>
      bfsLoop (lr0Closure g fuel) fuel
        { states := [⟨[LItem.mk r0.head r0.body 0 none], cls⟩],
          links := [], pending := [0] }
  | _ => none

/-- `Action`: the fields table behavior depends on (`REDUCE` carries
the production, `SHIFT` the target state, `ACCEPT` is `Action(ACCEPT,
0)`). -/
inductive TAct where
  | shift (target : Nat)
  | reduce (head : String) (body : List String)
  | accept
deriving DecidableEq, Repr

/-- `__build_table`: one pass over every state's closure in uuid order,
emitting the `LRTable.add` cell writes in order.  A satisfied `S^` item
with a one-symbol body adds `Accept` under its lookahead; any other
satisfied item adds `Reduce`; an unsatisfied item adds `Shift`/goto to
the linked state (the log-only `error link` branch adds nothing). -/
def tableEntry (links : List (Nat × String × Nat)) (u : Nat)
    (rp : LItem) : Option (Nat × String × TAct) :=
  if itemSatisfied rp then
    if rp.head = "S^" then
      if rp.body.length = 1 then
        some (u, rp.la.getD "", TAct.accept)
      else none
    else some (u, rp.la.getD "", TAct.reduce rp.head rp.body)
  else
    match itemNext rp with
    | none => none
    | some nx =>
      match linkGet links u nx with
      | some t => some (u, nx, TAct.shift t)
      | none => none

def buildTable (st : BuildSt) : List (Nat × String × TAct) :=
  (List.range st.states.length).flatMap (fun u =>
    match st.states.get? u with
    | none => []
    | some s => s.closure.filterMap (tableEntry st.links u))

/-- The `Accept` writes of a table. -/
def acceptsOf (tab : List (Nat × String × TAct)) :
    List (Nat × String × TAct) :=
  tab.filter (fun e => e.2.2 == TAct.accept)

/-! #### The LALR lookahead machinery (`_LALR_propagate_state`,
`__build_propagate_route`, `__build_lookahead`, `__build_LR1_state`) -/

/-- Read `state[u].lookahead[j]`. -/
def lookGet (L : List (List (List String))) (u j : Nat) : List String :=
  (((L.get? u).getD []).get? j).getD []

/-- `state[u].lookahead[j].add(sym)` (a guarded set add). -/
def lookAdd (L : List (List (List String))) (u j : Nat) (sym : String) :
    List (List (List String)) :=
  if sym ∈ lookGet L u j then L
  else L.set u (((L.get? u).getD []).set j (lookGet L u j ++ [sym]))

/-- The lookahead tables and the propagation `route` list of the LALR
builder (`route[u][key]` is kept flattened, in append order). -/
structure PropSt where
  look : List (List (List String))
  routes : List ((Nat × Nat) × (Nat × Nat))
deriving DecidableEq, Repr

/-- The closure scan inside `_LALR_propagate_state`: each unsatisfied
closure item of `closure([kernel item, #])` either posts a propagation
route (`#` lookahead) or adds its lookahead spontaneously to the
matching kernel position of the goto successor.  The source asserts
that the link and the advanced kernel item exist (`none` here). -/
def propagateOne (bst : BuildSt) (u key : Nat) (acc : PropSt)
    (rp : LItem) : Option PropSt :=
  if itemSatisfied rp then some acc
  else
    match itemNext rp with
    | none => none
    | some ex =>
      match linkGet bst.links u ex with
      | none => none
      | some ns =>
        match itemAdvance rp with
        | none => none
        | some adv0 =>
          match bst.states.get? ns with
          | none => none
          | some nsSt =>
            match nsSt.kernel.findIdx?
                (fun nk => nk == { adv0 with la := none }) with
            | none => none
            | some j =>
              match rp.la with
              | none => none
              | some l =>
                if l = "#" then
                  some { acc with
                    routes := acc.routes ++ [((u, key), (ns, j))] }
                else
                  some { acc with look := lookAdd acc.look ns j l }

def propagateItems (bst : BuildSt) (u key : Nat) (items : List LItem)
    (ps : PropSt) : Option PropSt :=
  items.foldlM (propagateOne bst u key) ps

/-- `_LALR_propagate_state` for LR(0) state `u`; afterwards state 0
seeds `$` on its first kernel item (the augmented start item). -/
def propagateState (g : NGrammar) (F : FirstSt) (fuel : Nat)
    (bst : BuildSt) (ps : PropSt) (u : Nat) : Option PropSt :=
  match bst.states.get? u with
  | none => none
  | some s =>
    ((List.range s.kernel.length).foldlM (fun acc key =>
      match s.kernel.get? key with
      | none => none
      | some k =>
        match lr1Closure g F fuel [{ k with la := some "#" }] with
        | none => none
        | some cls => propagateItems bst u key cls acc) ps).map
      (fun ps2 : PropSt =>
        if u = 0 then { ps2 with look := lookAdd ps2.look 0 0 "$" }
        else ps2)

/-- `__build_propagate_route`: run the propagation scan over every
LR(0) state, starting from empty lookahead sets. -/
def buildRoutes (g : NGrammar) (F : FirstSt) (fuel : Nat)
    (bst : BuildSt) : Option PropSt :=
  (List.range bst.states.length).foldlM
    (propagateState g F fuel bst)
    { look := bst.states.map (fun s => s.kernel.map (fun _ => [])),
      routes := [] }

/-- The guarded add with a change count, for the fixpoint loop. -/
def lookAddC (L : List (List (List String))) (u j : Nat) (sym : String) :
    List (List (List String)) × Nat :=
  if sym ∈ lookGet L u j then (L, 0)
  else (L.set u (((L.get? u).getD []).set j (lookGet L u j ++ [sym])), 1)

/-- `__propagate_state` in the fixpoint phase: push state `u`'s kernel
lookaheads along its routes, counting additions. -/
def pushState (routes : List ((Nat × Nat) × (Nat × Nat)))
    (kLens : List Nat) (look : List (List (List String))) (u : Nat) :
    List (List (List String)) × Nat :=
  (List.range ((kLens.get? u).getD 0)).foldl (fun acc key =>
    (routes.filter (fun r => r.1 == (u, key))).foldl (fun acc2 r =>
      (lookGet acc2.1 u key).foldl (fun acc3 sym =>
        let a := lookAddC acc3.1 r.2.1 r.2.2 sym
        (a.1, acc3.2 + a.2)) acc2) acc) (look, 0)

/-- `__build_lookahead`: sweep all states until a sweep adds nothing.
The source drives the sweeps through a `dirty` set as an optimization
(its own `if 0:` branch is exactly this full sweep); both terminate at
the same least fixpoint of the monotone propagation. -/
def lalrRounds (routes : List ((Nat × Nat) × (Nat × Nat)))
    (kLens : List Nat) :
    Nat → List (List (List String)) → Option (List (List (List String)))
  | 0, _ => none
  | fuel + 1, look =>
    let r := (List.range kLens.length).foldl (fun acc u =>
      let p := pushState routes kLens acc.1 u
      (p.1, acc.2 + p.2)) (look, 0)
    if r.2 = 0 then some r.1 else lalrRounds routes kLens fuel r.1

/-- `__build_LR1_state`: one LR(1)-style state per LR(0) state, kernel
items paired with each of their propagated lookaheads, closed with the
LR(1) closure and appended to the LR(1) analyzer, whose `append`
raises on a duplicate name. -/
def materializeKernel (s : LState) (look : List (List (List String)))
    (u : Nat) : List LItem :=
  (List.range s.kernel.length).flatMap (fun key =>
    match s.kernel.get? key with
    | none => []
    | some k => (lookGet look u key).map
        (fun sym => { k with la := some sym }))

def materializeStep (g : NGrammar) (F : FirstSt) (fuel : Nat)
    (bst0 : BuildSt) (look : List (List (List String)))
    (acc : List LState) (u : Nat) : Option (List LState) :=
  match bst0.states.get? u with
  | none => none
  | some s =>
    let kl := materializeKernel s look u
    match lr1Closure g F fuel kl with
    | none => none
    | some cls =>
      if (stateFind acc kl).isSome then none
      else some (acc ++ [(⟨kl, cls⟩ : LState)])

def materialize (g : NGrammar) (F : FirstSt) (fuel : Nat)
    (bst0 : BuildSt) (look : List (List (List String))) :
    Option (List LState) :=
  (List.range bst0.states.length).foldlM
    (materializeStep g F fuel bst0 look) []

/-- `LALRAnalyzer.process` from `__LR0_build_states` on: LR(0) states,
propagation routes, the lookahead fixpoint, materialization; the final
machine keeps the LR(0) `link` (`self.la.link = self.link`) and its
table is then built by the shared `__build_table`. -/
def lalrProcess (g : NGrammar) (F : FirstSt) (fuel : Nat) :
    Option BuildSt :=
  match lr0BuildStates g fuel with
  | none => none
  | some bst0 =>
    match buildRoutes g F fuel bst0 with
    | none => none
    | some ps =>
      match lalrRounds ps.routes
          (bst0.states.map (fun s => s.kernel.length)) fuel ps.look with
      | none => none
      | some look =>
        match materialize g F fuel bst0 look with
        | none => none
        | some sts =>
          some { states := sts, links := bst0.links, pending := [] }

/-- An (augmented) grammar with an unproductive nonterminal `C`:
`S^ → S`, `S → 's' | A C`, `A → 'x'`, `C → C`.  `FIRST(C) = ∅`, so the
LR(1) closure generates no `[A → ·x, b]` items in state 0 (there is no
`b` in `FIRST(C$)`), while the LR(0) closure keeps `A → ·x` and grows
an extra state on `x`. -/
def g9 : NGrammar :=
  { prods := [⟨"S^", ["S"]⟩, ⟨"S", ["s"]⟩, ⟨"S", ["A", "C"]⟩,
              ⟨"A", ["x"]⟩, ⟨"C", ["C"]⟩],
    terminals := ["s", "x"] }

/-- Its FIRST fixpoint. -/
def f9 : FirstSt := (runFirst g9 30).getD []

/-- Its LALR machine. -/
def b9L : BuildSt := (lalrProcess g9 f9 60).getD ⟨[], [], []⟩

/-- Its LR(0) skeleton machine. -/
def b90 : BuildSt := (lr0BuildStates g9 60).getD ⟨[], [], []⟩

/-- Its canonical LR(1) machine. -/
def b91 : BuildSt := (lr1BuildStates g9 f9 60).getD ⟨[], [], []⟩

/-- The two possible `S^` items of an augmented grammar with start
symbol `start` under a fixed lookahead: `[S^ → ·start]` and
`[S^ → start·]`. -/
def mkSI (start : String) (l0 : Option String) (d : Nat) : LItem :=
  ⟨"S^", [start], d, l0⟩

/-- What both closure routines guarantee (given that `S^` occurs in no
production body): every output item is a kernel item or a generated
item, generated items never have head `S^` nor `S^` in their body, the
output is duplicate-free and contains the kernel. -/
def CloseSpec (close : List LItem → Option (List LItem)) : Prop :=
  ∀ kernel out, close kernel = some out →
    (∀ it ∈ kernel, "S^" ∉ it.body) → kernel.Nodup →
    (∀ it ∈ out, it ∈ kernel ∨ ("S^" ∉ it.body ∧ it.head ≠ "S^")) ∧
    out.Nodup ∧ (∀ it ∈ kernel, it ∈ out)

/-- The BFS invariant giving Accept uniqueness.  `st0`: state 0's
kernel is exactly the seeded start item.  `states_ok`: per-state
closure structure.  `kernels1`: goto kernels hold only advanced items,
whose only possible `S^` member is `[S^ → start·]`.  `i1_kernel`: a
kernel holding `[S^ → start·]` is the goto-on-`start` kernel of state
0.  `i1_link` / `link_i1` / `none_no_i1`: the states whose closure
holds `[S^ → start·]` are exactly the target of `link[0][start]`.
`link_tgt`: state 0 is never a goto target. -/
structure GInv (start : String) (l0 : Option String) (st : BuildSt) :
    Prop where
  st0 : ∃ c0, st.states.get? 0 = some ⟨[mkSI start l0 0], c0⟩
  states_ok : ∀ s ∈ st.states,
    (∀ it ∈ s.closure, it ∈ s.kernel ∨ ("S^" ∉ it.body ∧ it.head ≠ "S^")) ∧
    s.closure.Nodup ∧ (∀ it ∈ s.kernel, it ∈ s.closure) ∧
    (∀ it ∈ s.kernel, "S^" ∉ it.body) ∧ s.kernel.Nodup
  kernels1 : ∀ i s, st.states.get? i = some s → i ≠ 0 →
    ∀ it ∈ s.kernel, 1 ≤ it.dot ∧ (it.head = "S^" → it = mkSI start l0 1)
  i1_kernel : ∀ i s c0, st.states.get? i = some s →
    mkSI start l0 1 ∈ s.kernel →
    st.states.get? 0 = some ⟨[mkSI start l0 0], c0⟩ →
    kernelEq s.kernel (tryGoto c0 start) = true
  i1_link : ∀ i s, st.states.get? i = some s →
    mkSI start l0 1 ∈ s.closure → linkGet st.links 0 start = some i
  link_i1 : ∀ t, linkGet st.links 0 start = some t →
    ∃ s, st.states.get? t = some s ∧ mkSI start l0 1 ∈ s.closure
  none_no_i1 : linkGet st.links 0 start = none →
    ∀ s ∈ st.states, mkSI start l0 1 ∉ s.closure
  link_tgt : ∀ e ∈ st.links, e.2.2 ≠ 0

/-- `(u, j)` names a kernel position of the LR(0) machine holding an
`S^`-headed item. -/
def SPos (bst0 : BuildSt) (u j : Nat) : Prop :=
  ∃ s0 it, bst0.states.get? u = some s0 ∧ s0.kernel.get? j = some it ∧
    it.head = "S^"

/-- A propagation route into an `S^` kernel position comes from an `S^`
kernel position (with both endpoints denoting real kernel positions). -/
def RouteOk (bst0 : BuildSt) (r : (Nat × Nat) × (Nat × Nat)) : Prop :=
  ∃ s0 it2, bst0.states.get? r.2.1 = some s0 ∧
    s0.kernel.get? r.2.2 = some it2 ∧
    (it2.head = "S^" → SPos bst0 r.1.1 r.1.2)

/-- `(u, j)` names a kernel position of the LR(0) machine holding an
item whose head is not `S^`. -/
def NonSPos (bst0 : BuildSt) (u j : Nat) : Prop :=
  ∃ s0 it2, bst0.states.get? u = some s0 ∧ s0.kernel.get? j = some it2 ∧
    it2.head ≠ "S^"

/-- The lookahead-table invariant of the LALR phases: every lookahead
collected at an `S^`-headed kernel position is `$`. -/
def PaProp (bst0 : BuildSt) (L : List (List (List String))) : Prop :=
  ∀ u j x, x ∈ lookGet L u j → x = "$" ∨ NonSPos bst0 u j

/-- The propagation fixpoint reached by `__build_lookahead`: every
in-range route's source lookaheads are present at its target. -/
def PropFix (routes : List ((Nat × Nat) × (Nat × Nat)))
    (kLens : List Nat) (L : List (List (List String))) : Prop :=
  ∀ r ∈ routes, r.1.1 < kLens.length →
    r.1.2 < (kLens.get? r.1.1).getD 0 →
    ∀ sym ∈ lookGet L r.1.1 r.1.2, sym ∈ lookGet L r.2.1 r.2.2

/-! ### Accessors and concrete instances used by the claim theorems -/

/-- The `accepted` flag of a step outcome (`false` on a crash). -/
def pdaAccepted (e : Except String PDAState) : Bool :=
  match e with
  | Except.ok st => st.accepted
  | Except.error _ => false

/-- The `result` field of a step outcome (`none` on a crash). -/
def pdaResult (e : Except String PDAState) : Option PValue :=
  match e with
  | Except.ok st => st.result
  | Except.error _ => none

/-- A shift action over a production with no precedence tag. -/
def cShiftNoPrec : CAction :=
  { name := ActionName.SHIFT, target := 7, rule := { index := 3, precedence := none } }

/-- A shift action whose production's precedence tag is `q`. -/
def cShiftQ : CAction :=
  { name := ActionName.SHIFT, target := 7, rule := { index := 3, precedence := some "q" } }

/-- A reduce action whose production (index 2) carries precedence tag `p`. -/
def cReduceP : CAction :=
  { name := ActionName.REDUCE, target := 2, rule := { index := 2, precedence := some "p" } }

/-- A reduce action whose production (index 0) has no precedence tag. -/
def cReduceNoPrec : CAction :=
  { name := ActionName.REDUCE, target := 0, rule := { index := 0, precedence := none } }

/-- A reduce action whose production (index 1) carries precedence tag `p`. -/
def cReduce1P : CAction :=
  { name := ActionName.REDUCE, target := 1, rule := { index := 1, precedence := some "p" } }

/-- A grammar fragment declaring `%left q` (level 1) then `%left p`
(level 2) and nothing else; the lookahead column `x` of `tableC1` below
has no declared precedence. -/
def cGrammarPQ : CGrammar :=
  { precedence := [("q", 1), ("p", 2)], assoc := [("q", "left"), ("p", "left")] }

/-- A one-row table whose only cell, in the column of the lookahead
terminal `x`, holds a reduce action (production precedence `p`) and a
shift action (production precedence `q`). -/
def tableC1 : List (List (String × List CAction)) :=
  [[("x", [cReduceP, cShiftQ])]]

/-- A one-useful-row table whose state 1 holds `Accept` under `$`. -/
def tabC4 : List PRow :=
  [[], [("$", [{ name := ActionName.ACCEPT, target := 0 }])]]

/-- A PDA configuration about to execute `Accept`: the initial
`(0, $, None)` entry is below, the start symbol's value `v` on top. -/
def stC4 : PDAState :=
  { stateStack := [1, 0], symbolStack := ["E", "$"],
    valueStack := [PValue.str "v", PValue.null],
    current := some { name := "$", value := PValue.null, line := none, column := none },
    inputRest := [], accepted := false, error := none, result := none }

/-- A production `A → x` carrying the end-position action tag `{f}`. -/
def ruleC5 : AProd :=
  { head := "A", body := ["x"], action := [(1, [("{f}", 1)])],
    precedence := none, parent := none }

/-- A semantic-action object defining only the method `g`. -/
def bagC5 : SemBag :=
  { attrs := ["g"], call := fun _ _ _ => PValue.null }

/-- A production `A → x y` with the mid-rule action `{t}` at position 1
(`A: x {t} y`), as in the spec's scenario 4. -/
def ruleC6 : AProd :=
  { head := "A", body := ["x", "y"], action := [(1, [("{t}", 1)])],
    precedence := none, parent := none }

/-- An already-lifted two-production grammar (`A → x M@1 y` with only an
end action, `M@1 → ε`). -/
def liftedProdsC7 : List AProd :=
  [ { head := "A", body := ["x", "M@1", "y"],
      action := [(3, [("{done}", 3)])], precedence := none, parent := none },
    { head := "M@1", body := [], action := [(0, [("{t}", 1)])],
      precedence := none, parent := some 0 } ]

/-! ## Theorems settling the claims -/

/-- C1, counterexample.  A table cell under the lookahead column `x` —
a terminal with no declared precedence — holds a reduce action and a
shift action.  The claim requires the solver to warn and collapse the
cell to the Shift action; the solver instead collapses it to the Reduce
action (the two production tags `p` and `q` are compared; the lookahead
terminal is never consulted) and emits no warning at all. -/
theorem claim_C1_counterexample :
    cGrammarPQ.precLookup "x" = none ∧
    cReduceP.name = ActionName.REDUCE ∧
    cShiftQ.name = ActionName.SHIFT ∧
    solveTable cGrammarPQ tableC1 = ([[("x", [cReduceP])]], []) ∧
    [cReduceP] ≠ [cShiftQ] := by
  refine ⟨rfl, rfl, rfl, rfl, ?_⟩
  decide

/-- C1, amended: in every cell holding a shift and a reduce action (in
either iteration order), if the *reducing production* has no precedence
tag then the solver emits at least one warning and collapses the cell to
the Shift action; the declared precedence of the lookahead terminal is
never consulted. -/
theorem claim_C1_amended (g : CGrammar) (s r : CAction)
    (cell : List CAction)
    (hs : s.name = ActionName.SHIFT) (hr : r.name = ActionName.REDUCE)
    (hcell : cell = [s, r] ∨ cell = [r, s])
    (hp : r.rule.precedence = none) :
    (solveConflict g cell).1 = [s] ∧ (solveConflict g cell).2 ≠ [] := by
  have hsne : s.name ≠ ActionName.REDUCE := by rw [hs]; decide
  have hrne : r.name ≠ ActionName.SHIFT := by rw [hr]; decide
  rcases hcell with h | h <;> subst h <;>
    rcases hq : s.rule.precedence with _ | q <;>
      simp [solveConflict, solveFold, compareRule, pickShift, hp, hq, hs, hrne]

/-- C1, witness for the amended theorem at a concrete cell. -/
theorem claim_C1_witness :
    (solveConflict cGrammarPQ [cReduceNoPrec, cShiftQ]).1 = [cShiftQ] ∧
    (solveConflict cGrammarPQ [cReduceNoPrec, cShiftQ]).2 ≠ [] :=
  claim_C1_amended cGrammarPQ cShiftQ cReduceNoPrec
    [cReduceNoPrec, cShiftQ] rfl rfl (Or.inr rfl) rfl

/-- C2, counterexample.  A cell holds two reduce actions; the first one's
production (index 0) has no precedence tag, the second one's production
(index 1) carries the declared tag `p`.  The claim requires the cell to
collapse to the action with the *lower* production index (index 0); the
solver instead keeps the action whose production has a tag — index 1. -/
theorem claim_C2_counterexample :
    cReduceNoPrec.rule.precedence = none ∧
    cReduceNoPrec.rule.index < cReduce1P.rule.index ∧
    (solveConflict cGrammarPQ [cReduceNoPrec, cReduce1P]).1 = [cReduce1P] ∧
    [cReduce1P] ≠ [cReduceNoPrec] := by
  refine ⟨rfl, by decide, rfl, ?_⟩
  decide

/-- C2, amended: in every cell holding two reduce actions of which at
least one production lacks a precedence tag, the solver warns; when
exactly one side lacks the tag the cell collapses to the action whose
production *has* the tag, and when both lack it the cell collapses to
the first action in the cell's iteration order. -/
theorem claim_C2_amended (g : CGrammar) (r1 r2 : CAction)
    (h1 : r1.name = ActionName.REDUCE) (h2 : r2.name = ActionName.REDUCE)
    (hp : r1.rule.precedence = none ∨ r2.rule.precedence = none) :
    (solveConflict g [r1, r2]).2 ≠ [] ∧
    (solveConflict g [r1, r2]).1 =
      (if r1.rule.precedence = none ∧ r2.rule.precedence ≠ none
       then [r2] else [r1]) := by
  have h1s : r1.name ≠ ActionName.SHIFT := by rw [h1]; decide
  have h2s : r2.name ≠ ActionName.SHIFT := by rw [h2]; decide
  rcases hq1 : r1.rule.precedence with _ | q1 <;>
    rcases hq2 : r2.rule.precedence with _ | q2 <;>
      simp [solveConflict, solveFold, compareRule, pickShift, hq1, hq2,
        h1s, h2s]
  · exact absurd (hp.resolve_left (by simp [hq1])) (by simp [hq2])

/-- C4, counterexample.  A configuration with the initial `(0, $, None)`
entry below the start symbol's value `v` executes `Accept`: the driver
terminates accepted with `result = v`, the value *at* the stack top —
not the value beneath the stack top (`None`), as the claim states. -/
theorem claim_C4_counterexample :
    pdaAccepted (pdaStep [] tabC4 none stC4) = true ∧
    pdaResult (pdaStep [] tabC4 none stC4) = some (PValue.str "v") ∧
    (stC4.valueStack.drop 1).head? = some PValue.null ∧
    pdaResult (pdaStep [] tabC4 none stC4) ≠ (stC4.valueStack.drop 1).head? := by
  refine ⟨rfl, rfl, rfl, ?_⟩
  intro h
  simp [pdaResult, pdaStep, tabC4, stC4, rowGet, proceedReduce] at h

/-- C4, amended: when the looked-up action is `Accept` (and the driver's
internal assertion `len(state_stack) == 2` holds), the step terminates in
the accepted state and the parse result is the value *at* the top of the
semantic-value stack. -/
theorem claim_C4_amended (prods : List AProd) (tab : List PRow)
    (sem : Option SemBag) (st : PDAState) (state : Nat) (la : LToken)
    (a : PAction)
    (hacc : st.accepted = false) (herr : st.error = none)
    (hhead : st.stateStack.head? = some state)
    (hlen : state < tab.length)
    (hcur : st.current = some la)
    (hdata : (tab.get? state).bind (fun row => rowGet row la.name) = some [a])
    (ha : a.name = ActionName.ACCEPT)
    (hstk : st.stateStack.length = 2) :
    pdaStep prods tab sem st =
      Except.ok { st with accepted := true, result := st.valueStack.head? } := by
  have hne : ¬ (tab.length ≤ state) := Nat.not_le.mpr hlen
  have hdata' : tab[state]?.bind (fun row => rowGet row la.name) = some [a] := by
    simpa using hdata
  simp [pdaStep, hacc, herr, hhead, hne, hcur, hdata', ha, hstk]

/-- C4, witness for the amended theorem at the concrete configuration. -/
theorem claim_C4_witness :
    pdaStep [] tabC4 none stC4 =
      Except.ok { stC4 with accepted := true, result := stC4.valueStack.head? } :=
  claim_C4_amended [] tabC4 none stC4 1
    { name := "$", value := PValue.null, line := none, column := none }
    { name := ActionName.ACCEPT, target := 0 }
    rfl rfl rfl (by decide) rfl rfl rfl rfl

/-- Helper for C5: when every tag of an action list is defined on the
installed semantic-action object, the inner loop succeeds. -/
theorem ruleEvalActs_all_ok (bag : SemBag) (ss : List Nat)
    (vs : List PValue) (parent : AProd) (size : Nat)
    (acts : List (String × Nat)) (acc : PValue × Nat)
    (h : ∀ a ∈ acts, bag.attrs.contains (stripTag a.1) = true) :
    ∃ acc', ruleEvalActs (some bag) ss vs parent size acts acc =
      Except.ok acc' := by
  induction acts generalizing acc with
  | nil => exact ⟨acc, rfl⟩
  | cons a tl ih =>
    have ha := h a (List.mem_cons_self a tl)
    have htl : ∀ b ∈ tl, bag.attrs.contains (stripTag b.1) = true :=
      fun b hb => h b (List.mem_cons_of_mem a hb)
    simp only [ruleEvalActs, executeAction, ha, if_pos]
    exact ih _ htl

/-- Helper for C5: when some tag of an action list is undefined on the
installed semantic-action object, the inner loop raises a `KeyError`
naming (one of) the undefined tag(s). -/
theorem ruleEvalActs_err (bag : SemBag) (ss : List Nat)
    (vs : List PValue) (parent : AProd) (size : Nat)
    (acts : List (String × Nat)) (acc : PValue × Nat)
    (h : ∃ a ∈ acts, bag.attrs.contains (stripTag a.1) = false) :
    ∃ a, (a ∈ acts ∧ bag.attrs.contains (stripTag a.1) = false) ∧
      ruleEvalActs (some bag) ss vs parent size acts acc =
        Except.error ("action " ++ a.1 ++ " is not defined") := by
  induction acts generalizing acc with
  | nil => simp at h
  | cons a tl ih =>
    by_cases hreg : bag.attrs.contains (stripTag a.1) = true
    · have htl : ∃ b ∈ tl, bag.attrs.contains (stripTag b.1) = false := by
        rcases h with ⟨b, hb, hbf⟩
        rcases List.mem_cons.mp hb with rfl | hb'
        · rw [hreg] at hbf; cases hbf
        · exact ⟨b, hb', hbf⟩
      simp only [ruleEvalActs, executeAction, hreg, if_pos]
      rcases ih _ htl with ⟨b, ⟨hb, hbf⟩, heq⟩
      exact ⟨b, ⟨List.mem_cons_of_mem a hb, hbf⟩, heq⟩
    · have hfa : bag.attrs.contains (stripTag a.1) = false :=
        Bool.eq_false_iff.mpr hreg
      refine ⟨a, ⟨List.mem_cons_self a tl, hfa⟩, ?_⟩
      simp only [ruleEvalActs, executeAction, hfa]
      rfl

/-- Helper for C5: lift the previous two lemmas through the outer loop
over the action dict entries. -/
theorem ruleEvalLoop_err (bag : SemBag) (ss : List Nat)
    (vs : List PValue) (parent : AProd) (size : Nat)
    (entries : List (Nat × List (String × Nat))) (acc : PValue × Nat)
    (h : ∃ e ∈ entries, e.1 = size ∧
      ∃ a ∈ e.2, bag.attrs.contains (stripTag a.1) = false) :
    ∃ a : String × Nat, bag.attrs.contains (stripTag a.1) = false ∧
      ruleEvalLoop (some bag) ss vs parent size entries acc =
        Except.error ("action " ++ a.1 ++ " is not defined") := by
  induction entries generalizing acc with
  | nil => simp at h
  | cons e tl ih =>
    by_cases hsz : e.1 = size
    · by_cases hbad : ∃ a ∈ e.2, bag.attrs.contains (stripTag a.1) = false
      · rcases ruleEvalActs_err bag ss vs parent size e.2 acc hbad with
          ⟨a, ⟨_, haf⟩, heq⟩
        refine ⟨a, haf, ?_⟩
        simp [ruleEvalLoop, hsz, heq]
      · have hall : ∀ a ∈ e.2, bag.attrs.contains (stripTag a.1) = true := by
          intro a haa
          by_contra hc
          exact hbad ⟨a, haa, Bool.eq_false_iff.mpr hc⟩
        rcases ruleEvalActs_all_ok bag ss vs parent size e.2 acc hall with
          ⟨acc', hok⟩
        have htl : ∃ e' ∈ tl, e'.1 = size ∧
            ∃ a ∈ e'.2, bag.attrs.contains (stripTag a.1) = false := by
          rcases h with ⟨e', he', hsz', a, haa, haf⟩
          rcases List.mem_cons.mp he' with rfl | he''
          · exact absurd ⟨a, haa, haf⟩ hbad
          · exact ⟨e', he'', hsz', a, haa, haf⟩
        rcases ih acc' htl with ⟨a, haf, heq⟩
        refine ⟨a, haf, ?_⟩
        simp [ruleEvalLoop, hsz, hok, heq]
    · have htl : ∃ e' ∈ tl, e'.1 = size ∧
          ∃ a ∈ e'.2, bag.attrs.contains (stripTag a.1) = false := by
        rcases h with ⟨e', he', hsz', rest⟩
        rcases List.mem_cons.mp he' with rfl | he''
        · exact absurd hsz' hsz
        · exact ⟨e', he'', hsz', rest⟩
      rcases ih acc htl with ⟨a, haf, heq⟩
      refine ⟨a, haf, ?_⟩
      simp [ruleEvalLoop, hsz, heq]

/-- C5, counterexample.  With *no* semantic-action object installed, a
reduction of `A → x` carrying the end-position tag `{f}` (for which, a
fortiori, no callback is registered) raises no error: the driver silently
synthesizes the default `Node` value, contradicting the claim. -/
theorem claim_C5_counterexample :
    ruleC5.action = [(1, [("{f}", 1)])] ∧
    ruleC5.body.length = 1 ∧
    ruleEval [] none [2, 0] [PValue.str "xv", PValue.null] ruleC5 =
      Except.ok (PValue.node "A" [PValue.str "xv"]) :=
  ⟨rfl, rfl, rfl⟩

/-- C5, amended: when a semantic-action object *is* installed, a
reduction whose end-position action list carries a tag that is not
defined on the object raises a hard `KeyError` naming the tag; with no
object installed the driver silently synthesizes the default node value
(see the counterexample). -/
theorem claim_C5_amended (prods : List AProd) (bag : SemBag)
    (ss : List Nat) (vs : List PValue) (rule : AProd)
    (hstack : rule.body.length < ss.length)
    (h : ∃ e ∈ rule.action, e.1 = rule.body.length ∧
      ∃ a ∈ e.2, bag.attrs.contains (stripTag a.1) = false) :
    ∃ tag, bag.attrs.contains (stripTag tag) = false ∧
      ruleEval prods (some bag) ss vs rule =
        Except.error ("action " ++ tag ++ " is not defined") := by
  have hne : ¬ (ss.length ≤ rule.body.length) := Nat.not_le.mpr hstack
  rcases ruleEvalLoop_err bag ss vs
      (match rule.parent with
        | some i => (prods.get? i).getD rule
        | none => rule)
      rule.body.length rule.action (PValue.null, 0) h with ⟨a, haf, heq⟩
  refine ⟨a.1, haf, ?_⟩
  simp only [List.get?_eq_getElem?] at heq
  simp [ruleEval, hne, heq]

/-- C5, witness for the amended theorem at a concrete reduction. -/
theorem claim_C5_witness :
    ruleC5.body.length < [2, 0].length ∧
    ∃ tag, bagC5.attrs.contains (stripTag tag) = false ∧
      ruleEval [] (some bagC5) [2, 0] [PValue.str "xv", PValue.null] ruleC5 =
        Except.error ("action " ++ tag ++ " is not defined") :=
  ⟨by decide,
   claim_C5_amended [] bagC5 [2, 0] [PValue.str "xv", PValue.null] ruleC5
    (by decide)
    ⟨(1, [("{f}", 1)]), by simp [ruleC5], rfl,
      ("{f}", 1), by simp, rfl⟩⟩

/-- C2, witness for the amended theorem at a concrete cell. -/
theorem claim_C2_witness :
    (solveConflict cGrammarPQ [cReduceNoPrec, cReduce1P]).2 ≠ [] ∧
    (solveConflict cGrammarPQ [cReduceNoPrec, cReduce1P]).1 =
      (if cReduceNoPrec.rule.precedence = none ∧
          cReduce1P.rule.precedence ≠ none
       then [cReduce1P] else [cReduceNoPrec]) :=
  claim_C2_amended cGrammarPQ cReduceNoPrec cReduce1P rfl rfl (Or.inl rfl)

/-- Helper for C10: every binding created by `push_literal` maps a text
to its single-quoted form. -/
theorem pushLiteral_inv (acc : List (String × String)) (t : String)
    (hacc : ∀ e ∈ acc, e.2 = stringQuote e.1 false) :
    ∀ e ∈ pushLiteral acc t, e.2 = stringQuote e.1 false := by
  intro e he
  unfold pushLiteral at he
  by_cases hany : acc.any (fun e => e.1 = t)
  · rw [if_pos hany] at he
    rcases List.mem_map.mp he with ⟨e', he', heq⟩
    by_cases ht : e'.1 = t
    · rw [if_pos ht] at heq
      rw [← heq]
    · rw [if_neg ht] at heq
      rw [← heq]; exact hacc e' he'
  · rw [if_neg hany] at he
    rcases List.mem_append.mp he with h | h
    · exact hacc e h
    · rcases List.mem_singleton.mp h with rfl
      rfl

/-- Helper for C10: a literal-dict lookup succeeds exactly when some
binding carries the key. -/
theorem litLookup_isSome (l : List (String × String)) (s : String) :
    (litLookup l s).isSome ↔ ∃ e ∈ l, e.1 = s := by
  rw [litLookup, Option.isSome_map', List.find?_isSome]
  simp

/-- Helper for C10: `push_literal` leaves a binding for the pushed text. -/
theorem pushLiteral_self (acc : List (String × String)) (t : String) :
    (litLookup (pushLiteral acc t) t).isSome := by
  rw [litLookup_isSome]
  unfold pushLiteral
  by_cases hany : acc.any (fun e => e.1 = t)
  · rw [if_pos hany]
    rcases List.any_eq_true.mp hany with ⟨e, he, ht⟩
    refine ⟨(t, stringQuote t false), List.mem_map.mpr ⟨e, he, ?_⟩, rfl⟩
    rw [if_pos (by simpa using ht)]
  · rw [if_neg hany]
    exact ⟨(t, stringQuote t false),
      List.mem_append_right _ (List.mem_singleton.mpr rfl), rfl⟩

/-- Helper for C10: `push_literal` never drops an existing binding. -/
theorem pushLiteral_mono (acc : List (String × String)) (t s : String)
    (h : (litLookup acc s).isSome) :
    (litLookup (pushLiteral acc t) s).isSome := by
  rw [litLookup_isSome] at h ⊢
  rcases h with ⟨e, he, hs⟩
  unfold pushLiteral
  by_cases hany : acc.any (fun e => e.1 = t)
  · rw [if_pos hany]
    refine ⟨if e.1 = t then (t, stringQuote t false) else e,
      List.mem_map.mpr ⟨e, he, rfl⟩, ?_⟩
    by_cases ht : e.1 = t
    · rw [if_pos ht]
      rw [ht] at hs
      exact hs
    · rw [if_neg ht]; exact hs
  · rw [if_neg hany]
    exact ⟨e, List.mem_append_left _ he, hs⟩

/-- Helper for C10: registering literals keeps and creates bindings. -/
theorem foldl_pushLiteral_isSome (texts : List String) :
    ∀ (acc : List (String × String)) (s : String),
      s ∈ texts ∨ (litLookup acc s).isSome →
        (litLookup (texts.foldl pushLiteral acc) s).isSome := by
  induction texts with
  | nil =>
    intro acc s h
    exact h.resolve_left (by simp)
  | cons t tl ih =>
    intro acc s h
    rw [List.foldl_cons]
    refine ih (pushLiteral acc t) s ?_
    rcases h with h | h
    · rcases List.mem_cons.mp h with rfl | h'
      · exact Or.inr (pushLiteral_self acc s)
      · exact Or.inl h'
    · exact Or.inr (pushLiteral_mono acc t s h)

/-- Helper for C10: after registering all literal texts, every registered
text has a binding. -/
theorem openLexerLiterals_isSome (texts : List String) (s : String)
    (hs : s ∈ texts) :
    (litLookup (openLexerLiterals texts) s).isSome :=
  foldl_pushLiteral_isSome texts [] s (Or.inl hs)

/-- Helper for C10: the binding invariant through the registration fold. -/
theorem foldl_pushLiteral_val (texts : List String) :
    ∀ (acc : List (String × String)),
      (∀ e ∈ acc, e.2 = stringQuote e.1 false) →
        ∀ e ∈ texts.foldl pushLiteral acc, e.2 = stringQuote e.1 false := by
  induction texts with
  | nil => intro acc hacc; simpa using hacc
  | cons t tl ih =>
    intro acc hacc
    rw [List.foldl_cons]
    exact ih (pushLiteral acc t) (pushLiteral_inv acc t hacc)

/-- Helper for C10: every binding of the literal dict built by
`__open_lexer` maps a text to its single-quoted form. -/
theorem openLexerLiterals_val (texts : List String) :
    ∀ e ∈ openLexerLiterals texts, e.2 = stringQuote e.1 false :=
  foldl_pushLiteral_val texts [] (by simp)

/-- C10, confirmed: any token whose name is not already quoted and whose
string value equals a registered literal text is emitted with its name
rewritten to the single-quoted form of that value (its value is kept) —
regardless of which scanner rule produced the token. -/
theorem claim_C10_intercept (texts : List String) (tok : LToken) (s : String)
    (hval : tok.value = PValue.str s)
    (hq : stringIsQuoted tok.name = false)
    (hs : s ∈ texts) :
    (tokenizeStep (openLexerLiterals texts) true tok).name =
      stringQuote s false ∧
    (tokenizeStep (openLexerLiterals texts) true tok).value = PValue.str s := by
  rcases Option.isSome_iff_exists.mp (openLexerLiterals_isSome texts s hs) with ⟨v, hv⟩
  have hveq : v = stringQuote s false := by
    rw [litLookup] at hv
    rcases Option.map_eq_some'.mp hv with ⟨e, he, h2⟩
    have hmem := List.mem_of_find?_eq_some he
    have hkey := List.find?_some he
    simp only [decide_eq_true_eq] at hkey
    rw [← h2, openLexerLiterals_val texts e hmem, hkey]
  subst hveq
  rw [tokenizeStep]
  simp only [hval, hq, hv]
  simp [convertToLiteral, hq, hval, hv]

/-- C10, witness: a token named `PLUS` (an ordinary named rule) with
value `+`, a registered literal, is renamed to `'+'`. -/
theorem claim_C10_witness :
    (tokenizeStep (openLexerLiterals ["+"]) true
        { name := "PLUS", value := PValue.str "+", line := none, column := none }).name =
      stringQuote "+" false ∧
    (tokenizeStep (openLexerLiterals ["+"]) true
        { name := "PLUS", value := PValue.str "+", line := none, column := none }).value =
      PValue.str "+" :=
  claim_C10_intercept ["+"]
    { name := "PLUS", value := PValue.str "+", line := none, column := none }
    "+" rfl rfl (by simp)

/-- C7, confirmed: mid-rule-action lifting is idempotent — on a grammar
in which no production carries an action at a position strictly before
the end of its body, `__argument_semantic_action` emits exactly the
original productions (and does not advance the marker counter). -/
theorem claim_C7_idempotent (prods : List AProd) (nid rlen : Nat)
    (h : ∀ p ∈ prods, ∀ e ∈ p.action, p.body.length ≤ e.1) :
    liftProds nid rlen prods = (nid, prods) := by
  induction prods generalizing nid rlen with
  | nil => rfl
  | cons p tl ih =>
    have hfil : p.action.filter (fun e => e.1 < p.body.length) = [] := by
      rw [List.filter_eq_nil_iff]
      intro e he
      simpa using Nat.not_lt.mpr (h p (List.mem_cons_self p tl) e he)
    have hrule : liftRule nid rlen p = (nid, [p]) := by
      rw [liftRule]
      by_cases he : p.action.isEmpty
      · rw [if_pos he]
      · rw [if_neg he, hfil]
        simp
    have htl : ∀ q ∈ tl, ∀ e ∈ q.action, q.body.length ≤ e.1 :=
      fun q hq => h q (List.mem_cons_of_mem p hq)
    rw [liftProds, hrule, ih _ _ htl]
    simp

/-- C7, witness: lifting an already-lifted two-production grammar is a
no-op. -/
theorem claim_C7_witness :
    liftProds 1 0 liftedProdsC7 = (1, liftedProdsC7) :=
  claim_C7_idempotent liftedProdsC7 1 0 (by decide)

/-- Unfolding equation of `sitesIn` at a site. -/
theorem sitesIn_succ_pos (action : List (Nat × List (String × Nat)))
    (pos n : Nat) (h : actHasKey action pos = true) :
    sitesIn action pos (n + 1) = 1 + sitesIn action (pos + 1) n := by
  simp [sitesIn, h]

/-- Unfolding equation of `sitesIn` at a non-site. -/
theorem sitesIn_succ_neg (action : List (Nat × List (String × Nat)))
    (pos n : Nat) (h : actHasKey action pos = false) :
    sitesIn action pos (n + 1) = sitesIn action (pos + 1) n := by
  simp [sitesIn, h]

/-- Unfolding equation of `liftBody` at an action site. -/
theorem liftBody_cons_pos (action : List (Nat × List (String × Nat)))
    (rlen nid pos off : Nat) (s : String) (tl : List String)
    (h : actHasKey action pos = true) :
    liftBody action rlen nid pos off (s :: tl) =
      ((liftBody action rlen (nid + 1) (pos + 1) (off + 2) tl).1,
       ("M@" ++ toString nid) :: s ::
         (liftBody action rlen (nid + 1) (pos + 1) (off + 2) tl).2.1,
       ({ head := "M@" ++ toString nid, body := [],
          action := [(0, (actGet action pos).map (fun a => (a.1, off)))],
          precedence := none, parent := some rlen } : AProd) ::
         (liftBody action rlen (nid + 1) (pos + 1) (off + 2) tl).2.2) := by
  simp [liftBody, h]

/-- Unfolding equation of `liftBody` away from action sites. -/
theorem liftBody_cons_neg (action : List (Nat × List (String × Nat)))
    (rlen nid pos off : Nat) (s : String) (tl : List String)
    (h : actHasKey action pos = false) :
    liftBody action rlen nid pos off (s :: tl) =
      ((liftBody action rlen nid (pos + 1) (off + 1) tl).1,
       s :: (liftBody action rlen nid (pos + 1) (off + 1) tl).2.1,
       (liftBody action rlen nid (pos + 1) (off + 1) tl).2.2) := by
  simp [liftBody, h]

/-- Helper for C6: the body loop advances `name_id` by one per action
site. -/
theorem liftBody_nid (action : List (Nat × List (String × Nat)))
    (rlen : Nat) :
    ∀ (syms : List String) (nid pos off : Nat),
      (liftBody action rlen nid pos off syms).1 =
        nid + sitesIn action pos syms.length := by
  intro syms
  induction syms with
  | nil => intro nid pos off; simp [liftBody, sitesIn]
  | cons s tl ih =>
    intro nid pos off
    rcases hk : actHasKey action pos with _ | _
    · rw [liftBody_cons_neg action rlen nid pos off s tl hk,
        List.length_cons, sitesIn_succ_neg action pos tl.length hk]
      exact ih nid (pos + 1) (off + 1)
    · rw [liftBody_cons_pos action rlen nid pos off s tl hk,
        List.length_cons, sitesIn_succ_pos action pos tl.length hk]
      rw [ih (nid + 1) (pos + 1) (off + 2)]
      omega

/-- Helper for C6: the rewritten body grows by one symbol per action
site. -/
theorem liftBody_len (action : List (Nat × List (String × Nat)))
    (rlen : Nat) :
    ∀ (syms : List String) (nid pos off : Nat),
      (liftBody action rlen nid pos off syms).2.1.length =
        syms.length + sitesIn action pos syms.length := by
  intro syms
  induction syms with
  | nil => intro nid pos off; simp [liftBody, sitesIn]
  | cons s tl ih =>
    intro nid pos off
    rcases hk : actHasKey action pos with _ | _
    · rw [liftBody_cons_neg action rlen nid pos off s tl hk,
        List.length_cons, List.length_cons,
        sitesIn_succ_neg action pos tl.length hk,
        ih nid (pos + 1) (off + 1)]
      omega
    · rw [liftBody_cons_pos action rlen nid pos off s tl hk]
      simp only [List.length_cons]
      rw [sitesIn_succ_pos action pos tl.length hk,
        ih (nid + 1) (pos + 1) (off + 2)]
      omega

/-- Helper for C6: the original symbol at position `q` sits at position
`q + (number of action sites at positions ≤ q)` of the rewritten body. -/
theorem liftBody_sym (action : List (Nat × List (String × Nat)))
    (rlen : Nat) :
    ∀ (syms : List String) (nid pos off q : Nat), q < syms.length →
      (liftBody action rlen nid pos off syms).2.1[q + sitesIn action pos (q+1)]? =
        syms[q]? := by
  intro syms
  induction syms with
  | nil => intro nid pos off q hq; simp at hq
  | cons s tl ih =>
    intro nid pos off q hq
    rcases hk : actHasKey action pos with _ | _
    · rw [liftBody_cons_neg action rlen nid pos off s tl hk]
      cases q with
      | zero =>
        have hidx : 0 + sitesIn action pos 1 = 0 := by
          rw [sitesIn_succ_neg action pos 0 hk]; rfl
        rw [hidx]
        simp
      | succ q' =>
        have hidx : (q' + 1) + sitesIn action pos (q' + 1 + 1) =
            (q' + sitesIn action (pos + 1) (q' + 1)) + 1 := by
          rw [sitesIn_succ_neg action pos (q' + 1) hk]
          omega
        rw [hidx, List.getElem?_cons_succ, List.getElem?_cons_succ]
        exact ih nid (pos + 1) (off + 1) q' (by simpa using hq)
    · rw [liftBody_cons_pos action rlen nid pos off s tl hk]
      cases q with
      | zero =>
        have hidx : 0 + sitesIn action pos 1 = 1 := by
          rw [sitesIn_succ_pos action pos 0 hk]; rfl
        rw [hidx]
        simp
      | succ q' =>
        have hidx : (q' + 1) + sitesIn action pos (q' + 1 + 1) =
            (q' + sitesIn action (pos + 1) (q' + 1)) + 1 + 1 := by
          rw [sitesIn_succ_pos action pos (q' + 1) hk]
          omega
        rw [hidx, List.getElem?_cons_succ, List.getElem?_cons_succ,
          List.getElem?_cons_succ]
        exact ih (nid + 1) (pos + 1) (off + 2) q' (by simpa using hq)

/-- Helper for C6: at each action site `q`, the fresh marker
`M@(name_id + number of earlier sites)` sits at position
`q + (number of earlier sites)` of the rewritten body. -/
theorem liftBody_marker (action : List (Nat × List (String × Nat)))
    (rlen : Nat) :
    ∀ (syms : List String) (nid pos off q : Nat), q < syms.length →
      actHasKey action (pos + q) = true →
      (liftBody action rlen nid pos off syms).2.1[q + sitesIn action pos q]? =
        some ("M@" ++ toString (nid + sitesIn action pos q)) := by
  intro syms
  induction syms with
  | nil => intro nid pos off q hq _; simp at hq
  | cons s tl ih =>
    intro nid pos off q hq hkq
    cases q with
    | zero =>
      have hk : actHasKey action pos = true := by simpa using hkq
      rw [liftBody_cons_pos action rlen nid pos off s tl hk]
      have hidx : (0 : Nat) + sitesIn action pos 0 = 0 := rfl
      rw [hidx]
      have hname : nid + sitesIn action pos 0 = nid := rfl
      rw [hname]
      rfl
    | succ q' =>
      have hk' : actHasKey action ((pos + 1) + q') = true := by
        have h : pos + (q' + 1) = (pos + 1) + q' := by omega
        rw [← h]; exact hkq
      rcases hk : actHasKey action pos with _ | _
      · rw [liftBody_cons_neg action rlen nid pos off s tl hk]
        have hidx : (q' + 1) + sitesIn action pos (q' + 1) =
            (q' + sitesIn action (pos + 1) q') + 1 := by
          rw [sitesIn_succ_neg action pos q' hk]
          omega
        have hname : nid + sitesIn action pos (q' + 1) =
            nid + sitesIn action (pos + 1) q' := by
          rw [sitesIn_succ_neg action pos q' hk]
        rw [hidx, hname, List.getElem?_cons_succ]
        exact ih nid (pos + 1) (off + 1) q' (by simpa using hq) hk'
      · rw [liftBody_cons_pos action rlen nid pos off s tl hk]
        have hidx : (q' + 1) + sitesIn action pos (q' + 1) =
            (q' + sitesIn action (pos + 1) q') + 1 + 1 := by
          rw [sitesIn_succ_pos action pos q' hk]
          omega
        have hname : nid + sitesIn action pos (q' + 1) =
            (nid + 1) + sitesIn action (pos + 1) q' := by
          rw [sitesIn_succ_pos action pos q' hk]
          omega
        rw [hidx, hname, List.getElem?_cons_succ, List.getElem?_cons_succ]
        exact ih (nid + 1) (pos + 1) (off + 2) q' (by simpa using hq) hk'

/-- Helper for C6: at each action site `q`, the loop emits the marker
production `M@k → ε` whose single position-0 action carries the original
payload re-tagged with the marker's position in the rewritten body. -/
theorem liftBody_child (action : List (Nat × List (String × Nat)))
    (rlen : Nat) :
    ∀ (syms : List String) (nid pos off q : Nat), q < syms.length →
      actHasKey action (pos + q) = true →
      ({ head := "M@" ++ toString (nid + sitesIn action pos q),
         body := [],
         action := [(0, (actGet action (pos + q)).map
           (fun a => (a.1, off + q + sitesIn action pos q)))],
         precedence := none, parent := some rlen } : AProd) ∈
        (liftBody action rlen nid pos off syms).2.2 := by
  intro syms
  induction syms with
  | nil => intro nid pos off q hq _; simp at hq
  | cons s tl ih =>
    intro nid pos off q hq hkq
    cases q with
    | zero =>
      have hk : actHasKey action pos = true := by simpa using hkq
      rw [liftBody_cons_pos action rlen nid pos off s tl hk]
      have h0 : sitesIn action pos 0 = 0 := rfl
      rw [h0]
      simp only [Nat.add_zero]
      exact List.mem_cons_self _ _
    | succ q' =>
      have hk' : actHasKey action ((pos + 1) + q') = true := by
        have h : pos + (q' + 1) = (pos + 1) + q' := by omega
        rw [← h]; exact hkq
      rcases hk : actHasKey action pos with _ | _
      · rw [liftBody_cons_neg action rlen nid pos off s tl hk]
        have hkey : pos + (q' + 1) = (pos + 1) + q' := by omega
        have hname : nid + sitesIn action pos (q' + 1) =
            nid + sitesIn action (pos + 1) q' := by
          rw [sitesIn_succ_neg action pos q' hk]
        have hoff : off + (q' + 1) + sitesIn action pos (q' + 1) =
            (off + 1) + q' + sitesIn action (pos + 1) q' := by
          rw [sitesIn_succ_neg action pos q' hk]; omega
        rw [hkey, hname, hoff]
        exact ih nid (pos + 1) (off + 1) q' (by simpa using hq) hk'
      · rw [liftBody_cons_pos action rlen nid pos off s tl hk]
        have hkey : pos + (q' + 1) = (pos + 1) + q' := by omega
        have hname : nid + sitesIn action pos (q' + 1) =
            (nid + 1) + sitesIn action (pos + 1) q' := by
          rw [sitesIn_succ_pos action pos q' hk]; omega
        have hoff : off + (q' + 1) + sitesIn action pos (q' + 1) =
            (off + 2) + q' + sitesIn action (pos + 1) q' := by
          rw [sitesIn_succ_pos action pos q' hk]; omega
        rw [hkey, hname, hoff]
        exact List.mem_cons_of_mem _
          (ih (nid + 1) (pos + 1) (off + 2) q' (by simpa using hq) hk')

/-- Helper for C6: the rewritten parent's actions all sit at the new
end position, with every payload's stack-offset equal to it. -/
theorem liftEndAction_pos (action : List (Nat × List (String × Nat)))
    (blen sp : Nat) :
    ∀ e ∈ liftEndAction action blen sp,
      e.1 = sp ∧ ∀ a ∈ e.2, a.2 = sp := by
  intro e he
  rw [liftEndAction] at he
  by_cases hemp : (((action.map (fun e => e.1)).filter
      (fun k => blen ≤ k)).mergeSort (fun a b => a ≤ b)).flatMap
      (fun k => (actGet action k).map (fun a => (a.1, sp))) = []
  · simp [hemp] at he
  · rw [if_neg (by simpa [List.isEmpty_iff] using hemp)] at he
    rcases List.mem_singleton.mp he with rfl
    refine ⟨rfl, ?_⟩
    intro a ha
    rcases List.mem_flatMap.mp ha with ⟨k, _, hma⟩
    rcases List.mem_map.mp hma with ⟨b, _, hb⟩
    rw [← hb]

/-- Helper for C6: the tags of the rewritten parent's end actions are
exactly the tags of the original end-position actions, in sorted key
order — the payloads are preserved. -/
theorem liftEndAction_payload (action : List (Nat × List (String × Nat)))
    (blen sp : Nat) :
    ((liftEndAction action blen sp).flatMap (fun e => e.2)).map Prod.fst =
      (((action.map (fun e => e.1)).filter
        (fun k => blen ≤ k)).mergeSort (fun a b => a ≤ b)).flatMap
        (fun k => (actGet action k).map Prod.fst) := by
  rw [liftEndAction]
  by_cases hemp : (((action.map (fun e => e.1)).filter
      (fun k => blen ≤ k)).mergeSort (fun a b => a ≤ b)).flatMap
      (fun k => (actGet action k).map (fun a => (a.1, sp))) = []
  · rw [if_pos (by simpa [List.isEmpty_iff] using hemp)]
    have := congrArg (List.map Prod.fst) hemp
    simpa [List.map_flatMap, Function.comp] using this.symm
  · rw [if_neg (by simpa [List.isEmpty_iff] using hemp)]
    simp only [List.flatMap_cons, List.flatMap_nil, List.append_nil,
      List.map_flatMap, List.map_map]
    rfl

/-- C6, confirmed: for a production with a mid-rule action at position
`p < |body|`, the rewrite emits (a) a fresh marker nonterminal `M@k`
with `k = name_id + (number of earlier sites)`, (b) a new production
`M@k → ε` whose single end-position (position-0) action carries the
original payload tags together with a stack-offset equal to the
position `i = p + (number of earlier sites)` of `M@k` in the rewritten
body, and (c) a rewritten parent with `M@k` at position `i`, the
original symbols shifted past the inserted markers, and its
end-position actions preserved at the new end position. -/
theorem claim_C6_midrule (rule : AProd) (nid rlen p : Nat)
    (hp : p < rule.body.length) (ha : actHasKey rule.action p = true) :
    ∃ root children,
      liftRule nid rlen rule =
        (nid + sitesIn rule.action 0 rule.body.length, root :: children) ∧
      root.head = rule.head ∧
      root.precedence = rule.precedence ∧
      root.body.length =
        rule.body.length + sitesIn rule.action 0 rule.body.length ∧
      ({ head := "M@" ++ toString (nid + sitesIn rule.action 0 p),
         body := [],
         action := [(0, (actGet rule.action p).map
           (fun a => (a.1, p + sitesIn rule.action 0 p)))],
         precedence := none, parent := some rlen } : AProd) ∈ children ∧
      root.body[p + sitesIn rule.action 0 p]? =
        some ("M@" ++ toString (nid + sitesIn rule.action 0 p)) ∧
      (∀ q, q < rule.body.length →
        root.body[q + sitesIn rule.action 0 (q + 1)]? = rule.body[q]?) ∧
      root.action = liftEndAction rule.action rule.body.length root.body.length ∧
      (∀ e ∈ root.action, e.1 = root.body.length ∧
        ∀ a ∈ e.2, a.2 = root.body.length) ∧
      ((root.action.flatMap (fun e => e.2)).map Prod.fst =
        (((rule.action.map (fun e => e.1)).filter
          (fun k => rule.body.length ≤ k)).mergeSort (fun a b => a ≤ b)).flatMap
          (fun k => (actGet rule.action k).map Prod.fst)) := by
  have hnemp : rule.action.isEmpty = false := by
    rcases List.any_eq_true.mp ha with ⟨e, he, _⟩
    cases hact : rule.action with
    | nil => rw [hact] at he; simp at he
    | cons x xs => simp
  have hfl : ¬ ((rule.action.filter (fun e => e.1 < rule.body.length)).length = 0) := by
    rcases List.any_eq_true.mp ha with ⟨e, he, hep⟩
    simp only [decide_eq_true_eq] at hep
    have hmem : e ∈ rule.action.filter (fun e => e.1 < rule.body.length) :=
      List.mem_filter.mpr ⟨he, by simp [hep, hp]⟩
    intro hzero
    rw [List.length_eq_zero] at hzero
    rw [hzero] at hmem
    simp at hmem
  have hlr : liftRule nid rlen rule =
      (nid + sitesIn rule.action 0 rule.body.length,
        ({ head := rule.head,
           body := (liftBody rule.action rlen nid 0 0 rule.body).2.1,
           action := liftEndAction rule.action rule.body.length
             (liftBody rule.action rlen nid 0 0 rule.body).2.1.length,
           precedence := rule.precedence, parent := none } : AProd) ::
          (liftBody rule.action rlen nid 0 0 rule.body).2.2) := by
    simp [liftRule, hnemp, hfl,
      liftBody_nid rule.action rlen rule.body nid 0 0]
  refine ⟨_, _, hlr, rfl, rfl, ?_, ?_, ?_, ?_, rfl, ?_, ?_⟩
  · exact liftBody_len rule.action rlen rule.body nid 0 0
  · have h := liftBody_child rule.action rlen rule.body nid 0 0 p hp
      (by simpa using ha)
    simpa using h
  · have h := liftBody_marker rule.action rlen rule.body nid 0 0 p hp
      (by simpa using ha)
    exact h
  · intro q hq
    exact liftBody_sym rule.action rlen rule.body nid 0 0 q hq
  · exact liftEndAction_pos rule.action rule.body.length _
  · exact liftEndAction_payload rule.action rule.body.length _

/-- C6, witness: the spec's scenario — `A: x {t} y` is rewritten to
`A: x M@1 y` plus `M@1 → ε` carrying `{t}` with stack-offset 1. -/
theorem claim_C6_witness :
    ruleC6.action = [(1, [("{t}", 1)])] ∧ (1 < ruleC6.body.length ∧
      actHasKey ruleC6.action 1 = true) ∧
    ∃ root children,
      liftRule 1 0 ruleC6 =
        (1 + sitesIn ruleC6.action 0 ruleC6.body.length, root :: children) ∧
      root.head = ruleC6.head ∧
      root.precedence = ruleC6.precedence ∧
      root.body.length =
        ruleC6.body.length + sitesIn ruleC6.action 0 ruleC6.body.length ∧
      ({ head := "M@" ++ toString (1 + sitesIn ruleC6.action 0 1),
         body := [],
         action := [(0, (actGet ruleC6.action 1).map
           (fun a => (a.1, 1 + sitesIn ruleC6.action 0 1)))],
         precedence := none, parent := some 0 } : AProd) ∈ children ∧
      root.body[1 + sitesIn ruleC6.action 0 1]? =
        some ("M@" ++ toString (1 + sitesIn ruleC6.action 0 1)) ∧
      (∀ q, q < ruleC6.body.length →
        root.body[q + sitesIn ruleC6.action 0 (q + 1)]? = ruleC6.body[q]?) ∧
      root.action = liftEndAction ruleC6.action ruleC6.body.length root.body.length ∧
      (∀ e ∈ root.action, e.1 = root.body.length ∧
        ∀ a ∈ e.2, a.2 = root.body.length) ∧
      ((root.action.flatMap (fun e => e.2)).map Prod.fst =
        (((ruleC6.action.map (fun e => e.1)).filter
          (fun k => ruleC6.body.length ≤ k)).mergeSort (fun a b => a ≤ b)).flatMap
          (fun k => (actGet ruleC6.action k).map Prod.fst)) :=
  ⟨rfl, ⟨by decide, rfl⟩, claim_C6_midrule ruleC6 1 0 1 (by decide) rfl⟩

/-! ### Utility lemmas for the analyzer fixpoints -/

theorem alGet_alSet_self {α : Type} (l : List (String × α)) (k : String)
    (v : α) : alGet (alSet l k v) k = some v := by
  rw [alSet]
  by_cases hany : l.any (fun e => e.1 = k)
  · rw [if_pos hany]
    induction l with
    | nil => simp at hany
    | cons e tl ih =>
      by_cases he : e.1 = k
      · simp [alGet, List.find?_cons, he]
      · have hany' : tl.any (fun e => e.1 = k) := by
          rcases List.any_eq_true.mp hany with ⟨x, hx, hk⟩
          rcases List.mem_cons.mp hx with rfl | hx'
          · simp [he] at hk
          · exact List.any_eq_true.mpr ⟨x, hx', hk⟩
        have := ih hany'
        simpa [alGet, List.find?_cons, he] using this
  · rw [if_neg hany]
    induction l with
    | nil => simp [alGet]
    | cons e tl ih =>
      have he : ¬ (e.1 = k) := by
        intro h
        exact hany (List.any_eq_true.mpr ⟨e, List.mem_cons_self e tl, by simp [h]⟩)
      have hany' : ¬ tl.any (fun e => e.1 = k) := by
        intro h
        rcases List.any_eq_true.mp h with ⟨x, hx, hk⟩
        exact hany (List.any_eq_true.mpr ⟨x, List.mem_cons_of_mem e hx, hk⟩)
      have := ih hany'
      simpa [alGet, List.find?_cons, he] using this

theorem alGet_map_update {α : Type} (l : List (String × α))
    (k k' : String) (v : α) (h : k' ≠ k) :
    alGet (l.map (fun e => if e.1 = k then (k, v) else e)) k' =
      alGet l k' := by
  induction l with
  | nil => rfl
  | cons e tl ih =>
    by_cases he : e.1 = k
    · have h1 : ¬ ((k : String) = k') := fun hh => h hh.symm
      have h2 : ¬ (e.1 = k') := by rw [he]; exact h1
      simpa [alGet, List.find?_cons, he, h1, h2] using ih
    · by_cases hek : e.1 = k'
      · simp [alGet, List.find?_cons, he, hek, h]
      · simpa [alGet, List.find?_cons, he, hek] using ih

theorem alGet_append_single {α : Type} (l : List (String × α))
    (k k' : String) (v : α) (h : k' ≠ k) :
    alGet (l ++ [(k, v)]) k' = alGet l k' := by
  induction l with
  | nil =>
    have h1 : ¬ ((k : String) = k') := fun hh => h hh.symm
    simp [alGet, h1]
  | cons e tl ih =>
    by_cases hek : e.1 = k'
    · simp [alGet, List.find?_cons, hek]
    · simpa [alGet, List.find?_cons, hek] using ih

theorem alGet_alSet_ne {α : Type} (l : List (String × α)) (k k' : String)
    (v : α) (h : k' ≠ k) : alGet (alSet l k v) k' = alGet l k' := by
  rw [alSet]
  by_cases hany : l.any (fun e => e.1 = k)
  · rw [if_pos hany]
    exact alGet_map_update l k k' v h
  · rw [if_neg hany]
    exact alGet_append_single l k k' v h

theorem mem_addSym (l : List String) (s x : String) :
    x ∈ addSym l s ↔ x ∈ l ∨ x = s := by
  rw [addSym]
  by_cases hc : l.contains s
  · rw [if_pos hc]
    constructor
    · exact Or.inl
    · intro h
      rcases h with h | rfl
      · exact h
      · simpa using hc
  · rw [if_neg hc]
    simp

theorem mem_foldl_addSym (body : List String) :
    ∀ (acc : List String) (x : String),
      x ∈ body.foldl addSym acc ↔ x ∈ acc ∨ x ∈ body := by
  induction body with
  | nil => intro acc x; simp
  | cons s tl ih =>
    intro acc x
    rw [List.foldl_cons, ih (addSym acc s) x, mem_addSym]
    constructor
    · rintro ((h | rfl) | h)
      · exact Or.inl h
      · exact Or.inr (List.mem_cons_self _ _)
      · exact Or.inr (List.mem_cons_of_mem _ h)
    · rintro (h | h)
      · exact Or.inl (Or.inl h)
      · rcases List.mem_cons.mp h with rfl | h'
        · exact Or.inl (Or.inr rfl)
        · exact Or.inr h'

theorem mem_symbolsOf (g : NGrammar) (x : String) :
    x ∈ symbolsOf g ↔ ∃ p ∈ g.prods, x = p.head ∨ x ∈ p.body := by
  rw [symbolsOf]
  suffices h : ∀ (acc : List String),
      x ∈ g.prods.foldl (fun acc p => p.body.foldl addSym (addSym acc p.head)) acc ↔
        x ∈ acc ∨ ∃ p ∈ g.prods, x = p.head ∨ x ∈ p.body by
    rw [h []]
    simp
  generalize g.prods = ps
  induction ps with
  | nil => intro acc; simp
  | cons p tl ih =>
    intro acc
    rw [List.foldl_cons, ih, mem_foldl_addSym, mem_addSym]
    constructor
    · rintro (((h | rfl) | h) | ⟨q, hq, hx⟩)
      · exact Or.inl h
      · exact Or.inr ⟨p, List.mem_cons_self _ _, Or.inl rfl⟩
      · exact Or.inr ⟨p, List.mem_cons_self _ _, Or.inr h⟩
      · exact Or.inr ⟨q, List.mem_cons_of_mem _ hq, hx⟩
    · rintro (h | ⟨q, hq, hx⟩)
      · exact Or.inl (Or.inl (Or.inl h))
      · rcases List.mem_cons.mp hq with rfl | hq'
        · rcases hx with rfl | hx
          · exact Or.inl (Or.inl (Or.inr rfl))
          · exact Or.inl (Or.inr hx)
        · exact Or.inr ⟨q, hq', hx⟩

theorem head_mem_symbolsOf (g : NGrammar) (p : NProd) (hp : p ∈ g.prods) :
    p.head ∈ symbolsOf g :=
  (mem_symbolsOf g p.head).mpr ⟨p, hp, Or.inl rfl⟩

theorem body_mem_symbolsOf (g : NGrammar) (p : NProd) (s : String)
    (hp : p ∈ g.prods) (hs : s ∈ p.body) : s ∈ symbolsOf g :=
  (mem_symbolsOf g s).mpr ⟨p, hp, Or.inr hs⟩

theorem epsName_not_mem_symbolsOf (g : NGrammar) (hwf : WfG g) :
    epsName ∉ symbolsOf g := by
  intro h
  rcases (mem_symbolsOf g epsName).mp h with ⟨p, hp, h | h⟩
  · exact (hwf.2 p hp).1 h.symm
  · exact (hwf.2 p hp).2 h

/-- A terminal symbol never derives ε. -/
theorem not_hasEps_of_term (g : NGrammar) (n : String)
    (h : isTermN g n = true) : ¬ HasEps g n := by
  intro hh
  cases hh with
  | intro n p ht _ _ _ => rw [h] at ht; cases ht

/-- A rule-less symbol never derives ε. -/
theorem not_hasEps_of_no_rules (g : NGrammar) (n : String)
    (h : rulesOf g n = []) : ¬ HasEps g n := by
  intro hh
  cases hh with
  | intro n p _ hp hh _ =>
    have : p ∈ rulesOf g n := List.mem_filter.mpr ⟨hp, by simp [hh]⟩
    rw [h] at this
    simp at this

/-- Every symbol all of whose productions derive only ε derives ε. -/
theorem hasEps_of_isEps (g : NGrammar) (n : String) (h : IsEps g n) :
    HasEps g n := by
  induction h with
  | intro n hterm hne _ ih =>
    rcases List.exists_mem_of_ne_nil _ hne with ⟨p, hp⟩
    have hp' := List.mem_filter.mp hp
    exact HasEps.intro n p hterm hp'.1 (by simpa using hp'.2)
      (fun s hs => ih p hp s hs)

theorem sfGet_fst_eq_some
    (sf : List (String × (Option Bool × Option Bool))) (s : String)
    (b : Bool) (h : (sfGet sf s).1 = some b) :
    ∃ f, (s, f) ∈ sf ∧ f.1 = some b := by
  rw [sfGet] at h
  rcases halg : alGet sf s with _ | f
  · rw [halg] at h; cases h
  · rw [halg] at h
    rw [alGet] at halg
    rcases Option.map_eq_some'.mp halg with ⟨e, he, h2⟩
    have hmem := List.mem_of_find?_eq_some he
    have hkey := List.find?_some he
    simp only [decide_eq_true_eq] at hkey
    refine ⟨f, ?_, h⟩
    rw [← h2, ← hkey]
    exact hmem

theorem sfGet_snd_eq_some
    (sf : List (String × (Option Bool × Option Bool))) (s : String)
    (b : Bool) (h : (sfGet sf s).2 = some b) :
    ∃ f, (s, f) ∈ sf ∧ f.2 = some b := by
  rw [sfGet] at h
  rcases halg : alGet sf s with _ | f
  · rw [halg] at h; cases h
  · rw [halg] at h
    rw [alGet] at halg
    rcases Option.map_eq_some'.mp halg with ⟨e, he, h2⟩
    have hmem := List.mem_of_find?_eq_some he
    have hkey := List.find?_some he
    simp only [decide_eq_true_eq] at hkey
    refine ⟨f, ?_, h⟩
    rw [← h2, ← hkey]
    exact hmem

theorem exists_zip_of_mem {α β : Type} :
    ∀ (l : List α) (l' : List β), l.length = l'.length →
      ∀ x ∈ l, ∃ y, (x, y) ∈ l.zip l' := by
  intro l
  induction l with
  | nil => intro l' _ x hx; simp at hx
  | cons a tl ih =>
    intro l' hlen x hx
    cases l' with
    | nil => simp at hlen
    | cons b tl' =>
      rcases List.mem_cons.mp hx with rfl | hx'
      · exact ⟨b, List.mem_cons_self _ _⟩
      · rcases ih tl' (by simpa using hlen) x hx' with ⟨y, hy⟩
        exact ⟨y, List.mem_cons_of_mem _ hy⟩

theorem rulesFlagsOf_mem (g : NGrammar)
    (pf : List (Option Bool × Option Bool)) (n : String)
    (fl : Option Bool × Option Bool) (h : fl ∈ rulesFlagsOf g pf n) :
    ∃ p, (p, fl) ∈ g.prods.zip pf ∧ p.head = n := by
  rw [rulesFlagsOf] at h
  rcases List.mem_map.mp h with ⟨e, he, h2⟩
  rcases List.mem_filter.mp he with ⟨hz, hh⟩
  simp only [decide_eq_true_eq] at hh
  exact ⟨e.1, by rw [← h2]; exact hz, hh⟩

theorem rulesFlagsOf_complete (g : NGrammar)
    (pf : List (Option Bool × Option Bool)) (n : String) (p : NProd)
    (hp : p ∈ rulesOf g n) (hlen : pf.length = g.prods.length) :
    ∃ fl, (p, fl) ∈ g.prods.zip pf ∧ fl ∈ rulesFlagsOf g pf n := by
  rcases List.mem_filter.mp hp with ⟨hmem, hh⟩
  simp only [decide_eq_true_eq] at hh
  rcases exists_zip_of_mem g.prods pf hlen.symm p hmem with ⟨fl, hz⟩
  refine ⟨fl, hz, ?_⟩
  rw [rulesFlagsOf]
  exact List.mem_map.mpr ⟨(p, fl),
    List.mem_filter.mpr ⟨hz, by simpa using hh⟩, rfl⟩

/-- A full is-true count over a body yields `IsEps` of every symbol. -/
theorem bodyIs_all (g : NGrammar)
    (sf : List (String × (Option Bool × Option Bool)))
    (hs : SymInv g sf) (body : List String)
    (h : body.length ≤
      (body.filter (fun s => (sfGet sf s).1 = some true)).length) :
    ∀ s ∈ body, IsEps g s := by
  have hlen : (body.filter (fun s => (sfGet sf s).1 = some true)).length =
      body.length :=
    le_antisymm (List.length_filter_le _ _) h
  intro s hsm
  have := List.filter_length_eq_length.mp hlen s hsm
  simp only [decide_eq_true_eq] at this
  rcases sfGet_fst_eq_some sf s true this with ⟨f, hmem, hft⟩
  exact (hs (s, f) hmem).1 hft

theorem bodyIsNot_ex (g : NGrammar)
    (sf : List (String × (Option Bool × Option Bool)))
    (hs : SymInv g sf) (body : List String)
    (h : 0 < (body.filter (fun s => (sfGet sf s).1 = some false)).length) :
    ¬ ∀ s ∈ body, HasEps g s := by
  rcases List.exists_mem_of_ne_nil _
      (List.ne_nil_of_length_pos h) with ⟨s, hsf⟩
  rcases List.mem_filter.mp hsf with ⟨hsm, hflag⟩
  simp only [decide_eq_true_eq] at hflag
  rcases sfGet_fst_eq_some sf s false hflag with ⟨f, hmem, hff⟩
  intro hall
  exact (hs (s, f) hmem).2.1 hff (hall s hsm)

theorem bodyHas_all (g : NGrammar)
    (sf : List (String × (Option Bool × Option Bool)))
    (hs : SymInv g sf) (body : List String)
    (h : body.length ≤
      (body.filter (fun s => (sfGet sf s).2 = some true)).length) :
    ∀ s ∈ body, HasEps g s := by
  have hlen : (body.filter (fun s => (sfGet sf s).2 = some true)).length =
      body.length :=
    le_antisymm (List.length_filter_le _ _) h
  intro s hsm
  have := List.filter_length_eq_length.mp hlen s hsm
  simp only [decide_eq_true_eq] at this
  rcases sfGet_snd_eq_some sf s true this with ⟨f, hmem, hft⟩
  exact (hs (s, f) hmem).2.2.1 hft

theorem bodyHasNot_ex (g : NGrammar)
    (sf : List (String × (Option Bool × Option Bool)))
    (hs : SymInv g sf) (body : List String)
    (h : 0 < (body.filter (fun s => (sfGet sf s).2 = some false)).length) :
    ¬ ∀ s ∈ body, HasEps g s := by
  rcases List.exists_mem_of_ne_nil _
      (List.ne_nil_of_length_pos h) with ⟨s, hsf⟩
  rcases List.mem_filter.mp hsf with ⟨hsm, hflag⟩
  simp only [decide_eq_true_eq] at hflag
  rcases sfGet_snd_eq_some sf s false hflag with ⟨f, hmem, hff⟩
  intro hall
  exact (hs (s, f) hmem).2.2.2.1 hff (hall s hsm)

/-- Soundness of one `__update_epsilon_production` step. -/
theorem updProdFlag_ok (g : NGrammar)
    (sf : List (String × (Option Bool × Option Bool))) (p : NProd)
    (f : Option Bool × Option Bool)
    (hs : SymInv g sf) (hf : prodFlagOk g p f) :
    prodFlagOk g p (updProdFlag g sf p f).1 := by
  rcases hf with ⟨hf1, hf2, hf3, hf4⟩
  by_cases hb : f.1 ≠ none ∧ f.2 ≠ none
  · have hout : (updProdFlag g sf p f).1 = f := by
      simp [updProdFlag, hb]
    rw [hout]
    exact ⟨hf1, hf2, hf3, hf4⟩
  · by_cases ht : p.body.any (fun s => isTermN g s)
    · rcases List.any_eq_true.mp ht with ⟨s, hsm, hster⟩
      have hnt : ¬ ∀ x ∈ p.body, HasEps g x := fun hall =>
        not_hasEps_of_term g s (by simpa using hster) (hall s hsm)
      rcases hf1eq : f.1 with _ | b1 <;> rcases hf2eq : f.2 with _ | b2
      · have hout : (updProdFlag g sf p f).1 = (some false, some false) := by
          simp [updProdFlag, hb, ht, hf1eq, hf2eq]
        rw [hout]
        exact ⟨fun h => by simp at h, fun _ => hnt,
          fun h => by simp at h, fun _ => hnt⟩
      · have hout : (updProdFlag g sf p f).1 = (some false, some b2) := by
          simp [updProdFlag, hb, ht, hf1eq, hf2eq]
        rw [hout]
        exact ⟨fun h => by simp at h, fun _ => hnt,
          fun h => hf3 (hf2eq.trans h), fun h => hf4 (hf2eq.trans h)⟩
      · have hout : (updProdFlag g sf p f).1 = (some b1, some false) := by
          simp [updProdFlag, hb, ht, hf1eq, hf2eq]
        rw [hout]
        exact ⟨fun h => hf1 (hf1eq.trans h), fun h => hf2 (hf1eq.trans h),
          fun h => by simp at h, fun _ => hnt⟩
      · exact absurd ⟨by simp [hf1eq], by simp [hf2eq]⟩ hb
    · have hIC := bodyIs_all g sf hs p.body
      have hINC := bodyIsNot_ex g sf hs p.body
      have hHC := bodyHas_all g sf hs p.body
      have hHNC := bodyHasNot_ex g sf hs p.body
      by_cases h1 : f.1 = none
      · by_cases hic : p.body.length ≤
            (p.body.filter (fun s => (sfGet sf s).1 = some true)).length
        · have hIs := hIC hic
          have hHas : ∀ s ∈ p.body, HasEps g s :=
            fun s hsm => hasEps_of_isEps g s (hIs s hsm)
          have hout : (updProdFlag g sf p f).1 = (some true, some true) := by
            simp [updProdFlag, hb, ht, h1, hic]
          rw [hout]
          exact ⟨fun _ => hIs, fun h => by simp at h,
            fun _ => hHas, fun h => by simp at h⟩
        · by_cases hinc : 0 <
              (p.body.filter (fun s => (sfGet sf s).1 = some false)).length
          · have hnall := hINC hinc
            rcases hf2eq : f.2 with _ | b2
            · by_cases hhc : p.body.length ≤
                  (p.body.filter (fun s => (sfGet sf s).2 = some true)).length
              · have hout : (updProdFlag g sf p f).1 =
                    (some false, some true) := by
                  simp [updProdFlag, hb, ht, h1, hic, hinc, hf2eq, hhc]
                rw [hout]
                exact ⟨fun h => by simp at h, fun _ => hnall,
                  fun _ => hHC hhc, fun h => by simp at h⟩
              · by_cases hhnc : 0 <
                    (p.body.filter (fun s => (sfGet sf s).2 = some false)).length
                · have hout : (updProdFlag g sf p f).1 =
                      (some false, some false) := by
                    simp [updProdFlag, hb, ht, h1, hic, hinc, hf2eq, hhc, hhnc]
                  rw [hout]
                  exact ⟨fun h => by simp at h, fun _ => hnall,
                    fun h => by simp at h, fun _ => hHNC hhnc⟩
                · have hout : (updProdFlag g sf p f).1 = (some false, none) := by
                    simp [updProdFlag, hb, ht, h1, hic, hinc, hf2eq, hhc, hhnc]
                  rw [hout]
                  exact ⟨fun h => by simp at h, fun _ => hnall,
                    fun h => by simp at h, fun h => by simp at h⟩
            · have hout : (updProdFlag g sf p f).1 = (some false, some b2) := by
                simp [updProdFlag, hb, ht, h1, hic, hinc, hf2eq]
              rw [hout]
              exact ⟨fun h => by simp at h, fun _ => hnall,
                fun h => hf3 (hf2eq.trans h), fun h => hf4 (hf2eq.trans h)⟩
          · rcases hf2eq : f.2 with _ | b2
            · by_cases hhc : p.body.length ≤
                  (p.body.filter (fun s => (sfGet sf s).2 = some true)).length
              · have hout : (updProdFlag g sf p f).1 = (none, some true) := by
                  simp [updProdFlag, hb, ht, h1, hic, hinc, hf2eq, hhc]
                rw [hout]
                exact ⟨fun h => by simp at h, fun h => by simp at h,
                  fun _ => hHC hhc, fun h => by simp at h⟩
              · by_cases hhnc : 0 <
                    (p.body.filter (fun s => (sfGet sf s).2 = some false)).length
                · have hout : (updProdFlag g sf p f).1 = (none, some false) := by
                    simp [updProdFlag, hb, ht, h1, hic, hinc, hf2eq, hhc, hhnc]
                  rw [hout]
                  exact ⟨fun h => by simp at h, fun h => by simp at h,
                    fun h => by simp at h, fun _ => hHNC hhnc⟩
                · have hout : (updProdFlag g sf p f).1 = (none, none) := by
                    simp [updProdFlag, hb, ht, h1, hic, hinc, hf2eq, hhc, hhnc,
                      Prod.ext_iff]
                  rw [hout]
                  exact ⟨fun h => by simp at h, fun h => by simp at h,
                    fun h => by simp at h, fun h => by simp at h⟩
            · have hout : (updProdFlag g sf p f).1 = (none, some b2) := by
                simp [updProdFlag, hb, ht, h1, hic, hinc, hf2eq, Prod.ext_iff]
              rw [hout]
              exact ⟨fun h => by simp at h, fun h => by simp at h,
                fun h => hf3 (hf2eq.trans h), fun h => hf4 (hf2eq.trans h)⟩
      · rcases hf1eq : f.1 with _ | b1
        · exact absurd hf1eq h1
        · rcases hf2eq : f.2 with _ | b2
          · by_cases hhc : p.body.length ≤
                (p.body.filter (fun s => (sfGet sf s).2 = some true)).length
            · have hout : (updProdFlag g sf p f).1 = (some b1, some true) := by
                simp [updProdFlag, hb, ht, hf1eq, hf2eq, hhc]
              rw [hout]
              exact ⟨fun h => hf1 (hf1eq.trans h), fun h => hf2 (hf1eq.trans h),
                fun _ => hHC hhc, fun h => by simp at h⟩
            · by_cases hhnc : 0 <
                  (p.body.filter (fun s => (sfGet sf s).2 = some false)).length
              · have hout : (updProdFlag g sf p f).1 =
                    (some b1, some false) := by
                  simp [updProdFlag, hb, ht, hf1eq, hf2eq, hhc, hhnc]
                rw [hout]
                exact ⟨fun h => hf1 (hf1eq.trans h), fun h => hf2 (hf1eq.trans h),
                  fun h => by simp at h, fun _ => hHNC hhnc⟩
              · have hout : (updProdFlag g sf p f).1 = (some b1, none) := by
                  simp [updProdFlag, hb, ht, hf1eq, hf2eq, hhc, hhnc,
                    Prod.ext_iff]
                rw [hout]
                exact ⟨fun h => hf1 (hf1eq.trans h), fun h => hf2 (hf1eq.trans h),
                  fun h => by simp at h, fun h => by simp at h⟩
          · exact absurd ⟨by simp [hf1eq], by simp [hf2eq]⟩ hb

theorem alGet_mem {α : Type} (l : List (String × α)) (n : String) (f : α)
    (h : alGet l n = some f) : (n, f) ∈ l := by
  rw [alGet] at h
  rcases Option.map_eq_some'.mp h with ⟨e, he, h2⟩
  have hmem := List.mem_of_find?_eq_some he
  have hkey := List.find?_some he
  simp only [decide_eq_true_eq] at hkey
  rw [← h2, ← hkey]
  exact hmem

theorem alGet_isSome_of_key_mem {α : Type} (l : List (String × α))
    (n : String) (h : n ∈ l.map (fun e => e.1)) :
    ∃ f, alGet l n = some f := by
  rcases List.mem_map.mp h with ⟨e, he, hk⟩
  rw [alGet]
  rcases hf : l.find? (fun e => e.1 = n) with _ | e'
  · have := List.find?_eq_none.mp hf e he
    simp [hk] at this
  · exact ⟨e'.2, by simp [alGet, hf]⟩

/-- All rules' `is` flags true gives `IsEps` bodies everywhere. -/
theorem rulesIs_all (g : NGrammar) (pf : List (Option Bool × Option Bool))
    (n : String) (hp : ProdInv g pf) (hlen : pf.length = g.prods.length)
    (h : (rulesFlagsOf g pf n).length ≤
      ((rulesFlagsOf g pf n).filter (fun e => e.1 = some true)).length) :
    ∀ p ∈ rulesOf g n, ∀ s ∈ p.body, IsEps g s := by
  have hlen2 : ((rulesFlagsOf g pf n).filter
      (fun e => e.1 = some true)).length = (rulesFlagsOf g pf n).length :=
    le_antisymm (List.length_filter_le _ _) h
  intro p hpr
  rcases rulesFlagsOf_complete g pf n p hpr hlen with ⟨fl, hz, hfl⟩
  have := List.filter_length_eq_length.mp hlen2 fl hfl
  simp only [decide_eq_true_eq] at this
  exact (hp (p, fl) hz).1 this

/-- All rules' `is` flags false refutes `HasEps`. -/
theorem rulesNotNull_isnot (g : NGrammar)
    (pf : List (Option Bool × Option Bool)) (n : String)
    (hp : ProdInv g pf) (hlen : pf.length = g.prods.length)
    (h : (rulesFlagsOf g pf n).length ≤
      ((rulesFlagsOf g pf n).filter (fun e => e.1 = some false)).length) :
    ¬ HasEps g n := by
  have hlen2 : ((rulesFlagsOf g pf n).filter
      (fun e => e.1 = some false)).length = (rulesFlagsOf g pf n).length :=
    le_antisymm (List.length_filter_le _ _) h
  intro hne
  cases hne with
  | intro n p hterm hmem hhead hall =>
    have hpr : p ∈ rulesOf g n :=
      List.mem_filter.mpr ⟨hmem, by simp [hhead]⟩
    rcases rulesFlagsOf_complete g pf n p hpr hlen with ⟨fl, hz, hfl⟩
    have := List.filter_length_eq_length.mp hlen2 fl hfl
    simp only [decide_eq_true_eq] at this
    exact (hp (p, fl) hz).2.1 this hall

/-- All rules' `has` flags false refutes `HasEps`. -/
theorem rulesNotNull_hasnot (g : NGrammar)
    (pf : List (Option Bool × Option Bool)) (n : String)
    (hp : ProdInv g pf) (hlen : pf.length = g.prods.length)
    (h : (rulesFlagsOf g pf n).length ≤
      ((rulesFlagsOf g pf n).filter (fun e => e.2 = some false)).length) :
    ¬ HasEps g n := by
  have hlen2 : ((rulesFlagsOf g pf n).filter
      (fun e => e.2 = some false)).length = (rulesFlagsOf g pf n).length :=
    le_antisymm (List.length_filter_le _ _) h
  intro hne
  cases hne with
  | intro n p hterm hmem hhead hall =>
    have hpr : p ∈ rulesOf g n :=
      List.mem_filter.mpr ⟨hmem, by simp [hhead]⟩
    rcases rulesFlagsOf_complete g pf n p hpr hlen with ⟨fl, hz, hfl⟩
    have := List.filter_length_eq_length.mp hlen2 fl hfl
    simp only [decide_eq_true_eq] at this
    exact (hp (p, fl) hz).2.2.2 this hall

/-- Some rule's `has` flag true yields `HasEps`. -/
theorem rulesHas_ex (g : NGrammar)
    (pf : List (Option Bool × Option Bool)) (n : String)
    (hp : ProdInv g pf) (hterm : isTermN g n = false)
    (h : 0 < ((rulesFlagsOf g pf n).filter
      (fun e => e.2 = some true)).length) :
    HasEps g n := by
  rcases List.exists_mem_of_ne_nil _
      (List.ne_nil_of_length_pos h) with ⟨fl, hflf⟩
  rcases List.mem_filter.mp hflf with ⟨hfl, hflag⟩
  simp only [decide_eq_true_eq] at hflag
  rcases rulesFlagsOf_mem g pf n fl hfl with ⟨p, hz, hhead⟩
  have hmem : p ∈ g.prods := (List.of_mem_zip hz).1
  exact HasEps.intro n p hterm hmem hhead ((hp (p, fl) hz).2.2.1 hflag)

/-- Soundness of one `__update_epsilon_symbol` step. -/
theorem updSymFlag_ok (g : NGrammar)
    (pf : List (Option Bool × Option Bool)) (n : String)
    (f : Option Bool × Option Bool)
    (hp : ProdInv g pf) (hlen : pf.length = g.prods.length)
    (hf : symFlagOk g n f) :
    symFlagOk g n (updSymFlag g pf n f).1 := by
  rcases hf with ⟨hf1, hf2, hf3, hf4, hf5⟩
  by_cases hterm : isTermN g n
  · have hout : (updSymFlag g pf n f).1 = f := by
      simp [updSymFlag, hterm]
    rw [hout]
    exact ⟨hf1, hf2, hf3, hf4, hf5⟩
  · by_cases hb : f.1 ≠ none ∧ f.2 ≠ none
    · have hout : (updSymFlag g pf n f).1 = f := by
        simp [updSymFlag, hterm, hb]
      rw [hout]
      exact ⟨hf1, hf2, hf3, hf4, hf5⟩
    · have hni : isTermN g n = false ∧ rulesOf g n ≠ [] := by
        refine hf5 ?_
        by_cases h1 : f.1 = none
        · exact Or.inl h1
        · exact Or.inr (by
            by_contra h2
            exact hb ⟨h1, h2⟩)
      by_cases h1 : f.1 = none
      · by_cases hic : (rulesFlagsOf g pf n).length ≤
            ((rulesFlagsOf g pf n).filter (fun e => e.1 = some true)).length
        · have hIs : IsEps g n :=
            IsEps.intro n hni.1 hni.2 (rulesIs_all g pf n hp hlen hic)
          have hout : (updSymFlag g pf n f).1 = (some true, some true) := by
            simp [updSymFlag, hterm, hb, h1, hic]
          rw [hout]
          exact ⟨fun _ => hIs, fun h => by simp at h,
            fun _ => hasEps_of_isEps g n hIs, fun h => by simp at h,
            fun h => by simp at h⟩
        · by_cases hinc : (rulesFlagsOf g pf n).length ≤
              ((rulesFlagsOf g pf n).filter (fun e => e.1 = some false)).length
          · have hnn := rulesNotNull_isnot g pf n hp hlen hinc
            have hout : (updSymFlag g pf n f).1 = (some false, some false) := by
              simp [updSymFlag, hterm, hb, h1, hic, hinc]
            rw [hout]
            exact ⟨fun h => by simp at h, fun _ => hnn,
              fun h => by simp at h, fun _ => hnn, fun h => by simp at h⟩
          · rcases hf2eq : f.2 with _ | b2
            · by_cases hhc : 0 < ((rulesFlagsOf g pf n).filter
                  (fun e => e.2 = some true)).length
              · have hout : (updSymFlag g pf n f).1 = (none, some true) := by
                  simp [updSymFlag, hterm, hb, h1, hic, hinc, hf2eq, hhc]
                rw [hout]
                exact ⟨fun h => by simp at h, fun h => by simp at h,
                  fun _ => rulesHas_ex g pf n hp hni.1 hhc,
                  fun h => by simp at h, fun _ => hni⟩
              · by_cases hhnc : (rulesFlagsOf g pf n).length ≤
                    ((rulesFlagsOf g pf n).filter
                      (fun e => e.2 = some false)).length
                · have hout : (updSymFlag g pf n f).1 = (none, some false) := by
                    simp [updSymFlag, hterm, hb, h1, hic, hinc, hf2eq, hhc, hhnc]
                  rw [hout]
                  exact ⟨fun h => by simp at h, fun h => by simp at h,
                    fun h => by simp at h,
                    fun _ => rulesNotNull_hasnot g pf n hp hlen hhnc,
                    fun _ => hni⟩
                · have hout : (updSymFlag g pf n f).1 = (none, none) := by
                    simp [updSymFlag, hterm, hb, h1, hic, hinc, hf2eq, hhc, hhnc,
                      Prod.ext_iff]
                  rw [hout]
                  exact ⟨fun h => by simp at h, fun h => by simp at h,
                    fun h => by simp at h, fun h => by simp at h, fun _ => hni⟩
            · have hout : (updSymFlag g pf n f).1 = (none, some b2) := by
                simp [updSymFlag, hterm, hb, h1, hic, hinc, hf2eq, Prod.ext_iff]
              rw [hout]
              exact ⟨fun h => by simp at h, fun h => by simp at h,
                fun h => hf3 (hf2eq.trans h), fun h => hf4 (hf2eq.trans h),
                fun _ => hni⟩
      · rcases hf1eq : f.1 with _ | b1
        · exact absurd hf1eq h1
        · rcases hf2eq : f.2 with _ | b2
          · by_cases hhc : 0 < ((rulesFlagsOf g pf n).filter
                (fun e => e.2 = some true)).length
            · have hout : (updSymFlag g pf n f).1 = (some b1, some true) := by
                simp [updSymFlag, hterm, hb, hf1eq, hf2eq, hhc]
              rw [hout]
              exact ⟨fun h => hf1 (hf1eq.trans h), fun h => hf2 (hf1eq.trans h),
                fun _ => rulesHas_ex g pf n hp hni.1 hhc,
                fun h => by simp at h, fun h => by simp at h⟩
            · by_cases hhnc : (rulesFlagsOf g pf n).length ≤
                  ((rulesFlagsOf g pf n).filter
                    (fun e => e.2 = some false)).length
              · have hout : (updSymFlag g pf n f).1 = (some b1, some false) := by
                  simp [updSymFlag, hterm, hb, hf1eq, hf2eq, hhc, hhnc]
                rw [hout]
                exact ⟨fun h => hf1 (hf1eq.trans h), fun h => hf2 (hf1eq.trans h),
                  fun h => by simp at h,
                  fun _ => rulesNotNull_hasnot g pf n hp hlen hhnc,
                  fun h => by simp at h⟩
              · have hout : (updSymFlag g pf n f).1 = (some b1, none) := by
                  simp [updSymFlag, hterm, hb, hf1eq, hf2eq, hhc, hhnc,
                    Prod.ext_iff]
                rw [hout]
                exact ⟨fun h => hf1 (hf1eq.trans h), fun h => hf2 (hf1eq.trans h),
                  fun h => by simp at h, fun h => by simp at h, fun _ => hni⟩
          · exact absurd ⟨by simp [hf1eq], by simp [hf2eq]⟩ hb

/-- A zero change count from `__update_epsilon_production` means the
flags were left untouched. -/
theorem updProdFlag_zero (g : NGrammar)
    (sf : List (String × (Option Bool × Option Bool))) (p : NProd)
    (f : Option Bool × Option Bool)
    (h : (updProdFlag g sf p f).2 = 0) :
    (updProdFlag g sf p f).1 = f := by
  by_cases hb : f.1 ≠ none ∧ f.2 ≠ none
  · simp [updProdFlag, hb]
  · by_cases ht : p.body.any (fun s => isTermN g s)
    · rcases hf1 : f.1 with _ | b1 <;> rcases hf2 : f.2 with _ | b2
      · simp [updProdFlag, hb, ht, hf1, hf2] at h
      · simp [updProdFlag, hb, ht, hf1, hf2] at h
      · simp [updProdFlag, hb, ht, hf1, hf2] at h
      · exact absurd ⟨by simp [hf1], by simp [hf2]⟩ hb
    · by_cases h1 : f.1 = none
      · by_cases hic : p.body.length ≤
            (p.body.filter (fun s => (sfGet sf s).1 = some true)).length
        · simp [updProdFlag, hb, ht, h1, hic] at h
        · by_cases hinc : 0 <
              (p.body.filter (fun s => (sfGet sf s).1 = some false)).length
          · rcases hf2 : f.2 with _ | b2
            · by_cases hhc : p.body.length ≤
                  (p.body.filter (fun s => (sfGet sf s).2 = some true)).length
              · simp [updProdFlag, hb, ht, h1, hic, hinc, hf2, hhc] at h
              · by_cases hhnc : 0 < (p.body.filter
                    (fun s => (sfGet sf s).2 = some false)).length
                · simp [updProdFlag, hb, ht, h1, hic, hinc, hf2, hhc, hhnc] at h
                · simp [updProdFlag, hb, ht, h1, hic, hinc, hf2, hhc, hhnc] at h
            · simp [updProdFlag, hb, ht, h1, hic, hinc, hf2] at h
          · rcases hf2 : f.2 with _ | b2
            · by_cases hhc : p.body.length ≤
                  (p.body.filter (fun s => (sfGet sf s).2 = some true)).length
              · simp [updProdFlag, hb, ht, h1, hic, hinc, hf2, hhc] at h
              · by_cases hhnc : 0 < (p.body.filter
                    (fun s => (sfGet sf s).2 = some false)).length
                · simp [updProdFlag, hb, ht, h1, hic, hinc, hf2, hhc, hhnc] at h
                · simp [updProdFlag, hb, ht, h1, hic, hinc, hf2, hhc, hhnc,
                    Prod.ext_iff]
            · simp [updProdFlag, hb, ht, h1, hic, hinc, hf2, Prod.ext_iff]
      · rcases hf2 : f.2 with _ | b2
        · by_cases hhc : p.body.length ≤
              (p.body.filter (fun s => (sfGet sf s).2 = some true)).length
          · simp [updProdFlag, hb, ht, h1, hf2, hhc] at h
          · by_cases hhnc : 0 < (p.body.filter
                (fun s => (sfGet sf s).2 = some false)).length
            · simp [updProdFlag, hb, ht, h1, hf2, hhc, hhnc] at h
            · simp [updProdFlag, hb, ht, h1, hf2, hhc, hhnc, Prod.ext_iff]
        · rcases hf1 : f.1 with _ | b1
          · exact absurd hf1 h1
          · exact absurd ⟨by simp [hf1], by simp [hf2]⟩ hb

/-- A zero change count from `__update_epsilon_symbol` means the flags
were left untouched. -/
theorem updSymFlag_zero (g : NGrammar)
    (pf : List (Option Bool × Option Bool)) (n : String)
    (f : Option Bool × Option Bool)
    (h : (updSymFlag g pf n f).2 = 0) :
    (updSymFlag g pf n f).1 = f := by
  by_cases hterm : isTermN g n
  · simp [updSymFlag, hterm]
  · by_cases hb : f.1 ≠ none ∧ f.2 ≠ none
    · simp [updSymFlag, hterm, hb]
    · by_cases h1 : f.1 = none
      · by_cases hic : (rulesFlagsOf g pf n).length ≤
            ((rulesFlagsOf g pf n).filter (fun e => e.1 = some true)).length
        · simp [updSymFlag, hterm, hb, h1, hic] at h
        · by_cases hinc : (rulesFlagsOf g pf n).length ≤
              ((rulesFlagsOf g pf n).filter (fun e => e.1 = some false)).length
          · simp [updSymFlag, hterm, hb, h1, hic, hinc] at h
          · rcases hf2 : f.2 with _ | b2
            · by_cases hhc : 0 < ((rulesFlagsOf g pf n).filter
                  (fun e => e.2 = some true)).length
              · simp [updSymFlag, hterm, hb, h1, hic, hinc, hf2, hhc] at h
              · by_cases hhnc : (rulesFlagsOf g pf n).length ≤
                    ((rulesFlagsOf g pf n).filter
                      (fun e => e.2 = some false)).length
                · simp [updSymFlag, hterm, hb, h1, hic, hinc, hf2, hhc,
                    hhnc] at h
                · simp [updSymFlag, hterm, hb, h1, hic, hinc, hf2, hhc, hhnc,
                    Prod.ext_iff]
            · simp [updSymFlag, hterm, hb, h1, hic, hinc, hf2, Prod.ext_iff]
      · rcases hf2 : f.2 with _ | b2
        · by_cases hhc : 0 < ((rulesFlagsOf g pf n).filter
              (fun e => e.2 = some true)).length
          · simp [updSymFlag, hterm, hb, h1, hf2, hhc] at h
          · by_cases hhnc : (rulesFlagsOf g pf n).length ≤
                ((rulesFlagsOf g pf n).filter
                  (fun e => e.2 = some false)).length
            · simp [updSymFlag, hterm, hb, h1, hf2, hhc, hhnc] at h
            · simp [updSymFlag, hterm, hb, h1, hf2, hhc, hhnc, Prod.ext_iff]
        · rcases hf1 : f.1 with _ | b1
          · exact absurd hf1 h1
          · exact absurd ⟨by simp [hf1], by simp [hf2]⟩ hb

/-- At a fixpoint, a production with no terminal in its body all of
whose body symbols are flagged nullable cannot still carry an
unresolved `has` flag. -/
theorem updProdFlag_forces_has (g : NGrammar)
    (sf : List (String × (Option Bool × Option Bool))) (p : NProd)
    (f : Option Bool × Option Bool)
    (hterm : p.body.any (fun s => isTermN g s) = false)
    (hall : ∀ s ∈ p.body, (sfGet sf s).2 = some true)
    (hzero : (updProdFlag g sf p f).2 = 0) :
    f.2 ≠ none := by
  intro hf2
  have hhc : p.body.length ≤
      (p.body.filter (fun s => (sfGet sf s).2 = some true)).length := by
    have : (p.body.filter
        (fun s => (sfGet sf s).2 = some true)).length = p.body.length :=
      List.filter_length_eq_length.mpr (fun s hs => by simp [hall s hs])
    exact le_of_eq this.symm
  have hb : ¬ (f.1 ≠ none ∧ f.2 ≠ none) := fun h => h.2 hf2
  by_cases h1 : f.1 = none
  · by_cases hic : p.body.length ≤
        (p.body.filter (fun s => (sfGet sf s).1 = some true)).length
    · simp [updProdFlag, hb, hterm, h1, hic] at hzero
    · by_cases hinc : 0 <
          (p.body.filter (fun s => (sfGet sf s).1 = some false)).length
      · simp [updProdFlag, hb, hterm, h1, hic, hinc, hf2, hhc] at hzero
      · simp [updProdFlag, hb, hterm, h1, hic, hinc, hf2, hhc] at hzero
  · simp [updProdFlag, hb, hterm, h1, hf2, hhc] at hzero

/-- At a fixpoint, a nonterminal one of whose rules is flagged
all-nullable cannot still carry an unresolved `has` flag. -/
theorem updSymFlag_forces_has (g : NGrammar)
    (pf : List (Option Bool × Option Bool)) (n : String)
    (f : Option Bool × Option Bool)
    (hterm : isTermN g n = false)
    (hex : 0 < ((rulesFlagsOf g pf n).filter
      (fun e => e.2 = some true)).length)
    (hzero : (updSymFlag g pf n f).2 = 0) :
    f.2 ≠ none := by
  intro hf2
  have hb : ¬ (f.1 ≠ none ∧ f.2 ≠ none) := fun h => h.2 hf2
  by_cases h1 : f.1 = none
  · by_cases hic : (rulesFlagsOf g pf n).length ≤
        ((rulesFlagsOf g pf n).filter (fun e => e.1 = some true)).length
    · simp [updSymFlag, hterm, hb, h1, hic] at hzero
    · by_cases hinc : (rulesFlagsOf g pf n).length ≤
          ((rulesFlagsOf g pf n).filter (fun e => e.1 = some false)).length
      · simp [updSymFlag, hterm, hb, h1, hic, hinc] at hzero
      · simp [updSymFlag, hterm, hb, h1, hic, hinc, hf2, hex] at hzero
  · simp [updSymFlag, hterm, hb, h1, hf2, hex] at hzero

/-- The production loop preserves the flag soundness invariant. -/
theorem epsPassProds_inv (g : NGrammar)
    (sf : List (String × (Option Bool × Option Bool)))
    (hs : SymInv g sf) :
    ∀ (ps : List NProd) (pf : List (Option Bool × Option Bool)),
      (∀ e ∈ ps.zip pf, prodFlagOk g e.1 e.2) →
      ∀ e ∈ ps.zip (epsPassProds g sf ps pf).1, prodFlagOk g e.1 e.2 := by
  intro ps
  induction ps with
  | nil => intro pf _ e he; simp [epsPassProds] at he
  | cons p pt ih =>
    intro pf hinv e he
    cases pf with
    | nil => simp [epsPassProds] at he
    | cons f ft =>
      simp only [epsPassProds, List.zip_cons_cons, List.mem_cons] at he
      rcases he with he | he
      · subst he
        exact updProdFlag_ok g sf p f hs
          (hinv (p, f) (by simp [List.zip_cons_cons]))
      · exact ih ft (fun e2 he2 => hinv e2 (by
          simp only [List.zip_cons_cons, List.mem_cons]
          exact Or.inr he2)) e he

theorem epsPassProds_len (g : NGrammar)
    (sf : List (String × (Option Bool × Option Bool))) :
    ∀ (ps : List NProd) (pf : List (Option Bool × Option Bool)),
      pf.length = ps.length →
      (epsPassProds g sf ps pf).1.length = ps.length := by
  intro ps
  induction ps with
  | nil => intro pf _; simp [epsPassProds]
  | cons p pt ih =>
    intro pf hlen
    cases pf with
    | nil => simp at hlen
    | cons f ft => simp [epsPassProds, ih ft (by simpa using hlen)]

/-- A zero change count over the production loop means every flag was
already stable (and the list is unchanged). -/
theorem epsPassProds_fix (g : NGrammar)
    (sf : List (String × (Option Bool × Option Bool))) :
    ∀ (ps : List NProd) (pf : List (Option Bool × Option Bool)),
      pf.length = ps.length → (epsPassProds g sf ps pf).2 = 0 →
      (epsPassProds g sf ps pf).1 = pf ∧
        ∀ e ∈ ps.zip pf, (updProdFlag g sf e.1 e.2).2 = 0 := by
  intro ps
  induction ps with
  | nil =>
    intro pf hlen _
    have : pf = [] := List.length_eq_zero.mp (by simpa using hlen)
    subst this
    exact ⟨by simp [epsPassProds], by simp⟩
  | cons p pt ih =>
    intro pf hlen h0
    cases pf with
    | nil => simp at hlen
    | cons f ft =>
      simp only [epsPassProds] at h0
      have hr : (updProdFlag g sf p f).2 = 0 := by omega
      have hrest : (epsPassProds g sf pt ft).2 = 0 := by omega
      obtain ⟨hfe, hpt⟩ := ih ft (by simpa using hlen) hrest
      refine ⟨?_, ?_⟩
      · simp only [epsPassProds]
        rw [updProdFlag_zero g sf p f hr, hfe]
      · intro e he
        simp only [List.zip_cons_cons, List.mem_cons] at he
        rcases he with he | he
        · subst he; exact hr
        · exact hpt e he

/-- The symbol loop preserves the flag soundness invariant. -/
theorem epsPassSyms_inv (g : NGrammar)
    (pf : List (Option Bool × Option Bool))
    (hp : ProdInv g pf) (hlen : pf.length = g.prods.length) :
    ∀ sf, SymInv g sf → SymInv g (epsPassSyms g pf sf).1 := by
  intro sf
  induction sf with
  | nil => intro _ e he; simp [epsPassSyms] at he
  | cons a tl ih =>
    obtain ⟨n, f⟩ := a
    intro hs e he
    simp only [epsPassSyms, List.mem_cons] at he
    rcases he with he | he
    · subst he
      exact updSymFlag_ok g pf n f hp hlen (hs (n, f) (List.mem_cons_self _ _))
    · exact ih (fun e2 he2 => hs e2 (List.mem_cons_of_mem _ he2)) e he

theorem epsPassSyms_keys (g : NGrammar)
    (pf : List (Option Bool × Option Bool)) :
    ∀ sf, (epsPassSyms g pf sf).1.map (fun e => e.1) =
      sf.map (fun e => e.1) := by
  intro sf
  induction sf with
  | nil => simp [epsPassSyms]
  | cons a tl ih =>
    obtain ⟨n, f⟩ := a
    simp [epsPassSyms, ih]

/-- A zero change count over the symbol loop means every flag was
already stable (and the list is unchanged). -/
theorem epsPassSyms_fix (g : NGrammar)
    (pf : List (Option Bool × Option Bool)) :
    ∀ sf, (epsPassSyms g pf sf).2 = 0 →
      (epsPassSyms g pf sf).1 = sf ∧
        ∀ e ∈ sf, (updSymFlag g pf e.1 e.2).2 = 0 := by
  intro sf
  induction sf with
  | nil => intro _; exact ⟨by simp [epsPassSyms], by simp⟩
  | cons a tl ih =>
    obtain ⟨n, f⟩ := a
    intro h0
    simp only [epsPassSyms] at h0
    have hr : (updSymFlag g pf n f).2 = 0 := by omega
    have hrest : (epsPassSyms g pf tl).2 = 0 := by omega
    obtain ⟨he, hall⟩ := ih hrest
    refine ⟨?_, ?_⟩
    · simp only [epsPassSyms]
      rw [updSymFlag_zero g pf n f hr, he]
    · intro e hme
      rcases List.mem_cons.mp hme with h | h
      · subst h; exact hr
      · exact hall e h

/-- One `__update_epsilon` iteration preserves all invariants. -/
theorem epsPass_inv (g : NGrammar) (st : EpsSt)
    (hs : SymInv g st.symFlags) (hp : ProdInv g st.prodFlags)
    (hw : EStWf g st) :
    SymInv g (epsPass g st).1.symFlags ∧
      ProdInv g (epsPass g st).1.prodFlags ∧ EStWf g (epsPass g st).1 := by
  have hplen : (epsPassProds g st.symFlags g.prods st.prodFlags).1.length =
      g.prods.length :=
    epsPassProds_len g st.symFlags g.prods st.prodFlags hw.2
  have hpr : ProdInv g (epsPassProds g st.symFlags g.prods st.prodFlags).1 :=
    fun e he => epsPassProds_inv g st.symFlags hs g.prods st.prodFlags hp e he
  simp only [epsPass]
  refine ⟨?_, hpr, ?_, hplen⟩
  · exact epsPassSyms_inv g _ hpr hplen st.symFlags hs
  · show (epsPassSyms g _ st.symFlags).1.map (fun e => e.1) = symbolsOf g
    rw [epsPassSyms_keys]
    exact hw.1

/-- A zero change count over one full iteration means the state is a
fixpoint and every individual update was stable. -/
theorem epsPass_fix (g : NGrammar) (st : EpsSt) (hw : EStWf g st)
    (h0 : (epsPass g st).2 = 0) :
    (epsPass g st).1 = st ∧
      (∀ e ∈ g.prods.zip st.prodFlags,
        (updProdFlag g st.symFlags e.1 e.2).2 = 0) ∧
      (∀ e ∈ st.symFlags,
        (updSymFlag g st.prodFlags e.1 e.2).2 = 0) := by
  simp only [epsPass] at h0 ⊢
  have hr : (epsPassProds g st.symFlags g.prods st.prodFlags).2 = 0 := by
    omega
  have hsr : (epsPassSyms g
      (epsPassProds g st.symFlags g.prods st.prodFlags).1 st.symFlags).2 = 0 :=
    by omega
  obtain ⟨hpeq, hpfix⟩ :=
    epsPassProds_fix g st.symFlags g.prods st.prodFlags hw.2 hr
  obtain ⟨hseq, hsfix⟩ := epsPassSyms_fix g _ st.symFlags hsr
  rw [hpeq] at hseq hsfix
  refine ⟨?_, hpfix, hsfix⟩
  rw [hpeq, hseq]

/-- The fuelled fixpoint loop, when it terminates, returns a state that
satisfies the invariants and is a true fixpoint of the iteration. -/
theorem epsLoopO_spec (g : NGrammar) :
    ∀ (fuel : Nat) (st E : EpsSt), SymInv g st.symFlags →
      ProdInv g st.prodFlags → EStWf g st →
      epsLoopO g fuel st = some E →
      SymInv g E.symFlags ∧ ProdInv g E.prodFlags ∧ EStWf g E ∧
        (epsPass g E).2 = 0 := by
  intro fuel
  induction fuel with
  | zero => intro st E _ _ _ h; simp [epsLoopO] at h
  | succ m ih =>
    intro st E hs hp hw h
    simp only [epsLoopO] at h
    obtain ⟨hs', hp', hw'⟩ := epsPass_inv g st hs hp hw
    by_cases h0 : (epsPass g st).2 = 0
    · rw [if_pos h0] at h
      have hE : (epsPass g st).1 = E := Option.some.inj h
      subst hE
      refine ⟨hs', hp', hw', ?_⟩
      rw [(epsPass_fix g st hw h0).1]
      exact h0
    · rw [if_neg h0] at h
      exact ih (epsPass g st).1 E hs' hp' hw' h

/-- The initial ε-flag state satisfies the invariants. -/
theorem initEps_inv (g : NGrammar) :
    SymInv g (initEps g).symFlags ∧ ProdInv g (initEps g).prodFlags ∧
      EStWf g (initEps g) := by
  refine ⟨?_, ?_, ?_, ?_⟩
  · intro e he
    simp only [initEps, initEpsSym, List.mem_map] at he
    obtain ⟨n, hn, hne⟩ := he
    by_cases hc : isTermN g n = true ∨ (rulesOf g n).isEmpty = true
    · rw [if_pos hc] at hne
      subst hne
      have hnh : ¬ HasEps g n := by
        rcases hc with hc | hc
        · exact not_hasEps_of_term g n hc
        · exact not_hasEps_of_no_rules g n (List.isEmpty_iff.mp hc)
      exact ⟨fun h => by simp at h, fun _ => hnh, fun h => by simp at h,
        fun _ => hnh, fun h => by rcases h with h | h <;> simp at h⟩
    · rw [if_neg hc] at hne
      subst hne
      push_neg at hc
      refine ⟨fun h => by simp at h, fun h => by simp at h,
        fun h => by simp at h, fun h => by simp at h, fun _ => ?_⟩
      exact ⟨Bool.not_eq_true _ ▸ (by simpa using hc.1),
        fun h => by simp [h] at hc⟩
  · intro e he
    have : e.2 = (none, none) := by
      have := (List.of_mem_zip he).2
      simp only [initEps, List.mem_replicate] at this
      exact this.2
    rw [this]
    exact ⟨fun h => by simp at h, fun h => by simp at h,
      fun h => by simp at h, fun h => by simp at h⟩
  · simp only [initEps, initEpsSym, List.map_map]
    have : ∀ n : String, ((fun e => e.1) ∘ fun n =>
        if isTermN g n = true ∨ (rulesOf g n).isEmpty = true
        then (n, ((some false : Option Bool), (some false : Option Bool)))
        else (n, (none, none))) n = n := by
      intro n
      simp only [Function.comp]
      split <;> rfl
    rw [List.map_congr_left (fun n _ => this n)]
    simp
  · simp [initEps]

/-- Completeness at a fixpoint: every nullable symbol has its `has`
flag resolved to `True`. -/
theorem eps_complete (g : NGrammar) (E : EpsSt)
    (hs : SymInv g E.symFlags) (hp : ProdInv g E.prodFlags)
    (hw : EStWf g E) (h0 : (epsPass g E).2 = 0) :
    ∀ n, HasEps g n → (sfGet E.symFlags n).2 = some true := by
  obtain ⟨_, hpfix, hsfix⟩ := epsPass_fix g E hw h0
  intro n hn
  induction hn with
  | intro n p hterm hpmem hhead hall ih =>
    obtain ⟨fl, hz⟩ := exists_zip_of_mem g.prods E.prodFlags hw.2.symm p hpmem
    have hnoterm : p.body.any (fun s => isTermN g s) = false := by
      rw [List.any_eq_false]
      intro s hs2
      have := hall s hs2
      cases this with
      | intro _ _ ht _ _ _ => simp [ht]
    have hne2 : fl.2 ≠ none :=
      updProdFlag_forces_has g E.symFlags p fl hnoterm ih (hpfix (p, fl) hz)
    have hfl2 : fl.2 = some true := by
      rcases hb : fl.2 with _ | b
      · exact absurd hb hne2
      · cases b with
        | false => exact absurd hall ((hp (p, fl) hz).2.2.2 hb)
        | true => rfl
    have hkey : n ∈ E.symFlags.map (fun e => e.1) := by
      rw [hw.1, ← hhead]
      exact head_mem_symbolsOf g p hpmem
    obtain ⟨fN, halg⟩ := alGet_isSome_of_key_mem E.symFlags n hkey
    have hmem : (n, fN) ∈ E.symFlags := alGet_mem E.symFlags n fN halg
    have hflmem : fl ∈ rulesFlagsOf g E.prodFlags n := by
      rw [rulesFlagsOf]
      exact List.mem_map.mpr
        ⟨(p, fl), List.mem_filter.mpr ⟨hz, by simp [hhead]⟩, rfl⟩
    have hex : 0 < ((rulesFlagsOf g E.prodFlags n).filter
        (fun e => e.2 = some true)).length := by
      have : fl ∈ (rulesFlagsOf g E.prodFlags n).filter
          (fun e => e.2 = some true) :=
        List.mem_filter.mpr ⟨hflmem, by simp [hfl2]⟩
      exact List.length_pos.mpr (List.ne_nil_of_mem this)
    have hne : fN.2 ≠ none :=
      updSymFlag_forces_has g E.prodFlags n fN hterm hex
        (hsfix (n, fN) hmem)
    have hget : sfGet E.symFlags n = fN := by
      rw [sfGet, halg]
      rfl
    rw [hget]
    rcases hb : fN.2 with _ | b
    · exact absurd hb hne
    · cases b with
      | false =>
        exact absurd (HasEps.intro n p hterm hpmem hhead hall)
          ((hs (n, fN) hmem).2.2.2.1 hb)
      | true => rfl

theorem alGet_map_val {α : Type} (l : List String) (f : String → α)
    (n : String) (v : α)
    (h : alGet (l.map (fun m => (m, f m))) n = some v) : v = f n := by
  have hmem := alGet_mem _ n v h
  rcases List.mem_map.mp hmem with ⟨m, _, hme⟩
  have h1 : m = n := by simpa using congrArg Prod.fst hme
  subst h1
  exact (by simpa using congrArg Prod.snd hme : f m = v).symm

/-- The initial FIRST sets contain no ε anywhere. -/
theorem initFirst_no_eps (g : NGrammar) (hwf : epsName ∉ g.terminals) :
    ∀ n, epsName ∉ fsGet (initFirst g) n := by
  intro n he
  rw [fsGet] at he
  rcases halg : alGet (initFirst g) n with _ | v
  · rw [halg] at he; simp at he
  · rw [halg] at he
    simp only [Option.getD_some] at he
    by_cases h2 : n = "#"
    · subst h2
      rw [initFirst, alGet_alSet_self] at halg
      have hv : v = ["#"] := (Option.some.inj halg).symm
      rw [hv] at he
      have : epsName = "#" := by simpa using he
      exact absurd this (by decide)
    · rw [initFirst, alGet_alSet_ne _ _ _ _ h2] at halg
      by_cases h3 : n = "$"
      · subst h3
        rw [alGet_alSet_self] at halg
        have hv : v = ["$"] := (Option.some.inj halg).symm
        rw [hv] at he
        have : epsName = "$" := by simpa using he
        exact absurd this (by decide)
      · rw [alGet_alSet_ne _ _ _ _ h3] at halg
        have hv := alGet_map_val (symbolsOf g)
          (fun n => if isTermN g n then [n] else ([] : List String)) n v halg
        rw [hv] at he
        by_cases ht : isTermN g n
        · simp only [ht, if_true] at he
          have h4 : epsName = n := by simpa using he
          rw [← h4] at ht
          exact hwf (by simpa [isTermN] using ht)
        · simp [ht] at he

/-- If ε shows up in `__calculate_first_set` of a body under a sound
FIRST state, the whole body is nullable. -/
theorem calcFirst_eps_sound (g : NGrammar) (st : FirstSt)
    (hterm : isTermN g epsName = false) (hinv : FInv g st) :
    ∀ body, epsName ∈ calcFirst g st body → ∀ s ∈ body, HasEps g s := by
  intro body
  induction body with
  | nil => intro _ s hs; simp at hs
  | cons s tl ih =>
    intro he
    by_cases ht : isTermN g s
    · exfalso
      simp only [calcFirst, ht, if_true] at he
      have h1 : epsName = s := by simpa using he
      have h2 : isTermN g s = false := h1 ▸ hterm
      rw [ht] at h2
      cases h2
    · by_cases hc : (fsGet st s).contains epsName
      · have he2 : epsName ∈ calcFirst g st tl := by
          simp only [calcFirst, ht, hc, if_true, if_false] at he
          rcases List.mem_append.mp he with h | h
          · exact absurd (List.mem_filter.mp h).2 (by simp)
          · exact h
        have hse : HasEps g s := hinv s (by simpa using hc)
        intro s2 hs2
        rcases List.mem_cons.mp hs2 with rfl | hs2'
        · exact hse
        · exact ih he2 s2 hs2'
      · exfalso
        simp only [calcFirst, ht, hc, if_false] at he
        exact absurd (List.mem_filter.mp he).2 (by simp)

/-- If every body symbol is a nonterminal whose FIRST holds ε, then
`__calculate_first_set` of the body yields ε. -/
theorem calcFirst_eps_complete (g : NGrammar) (st : FirstSt) :
    ∀ body, (∀ s ∈ body, isTermN g s = false ∧ epsName ∈ fsGet st s) →
      epsName ∈ calcFirst g st body := by
  intro body
  induction body with
  | nil => simp [calcFirst]
  | cons s tl ih =>
    intro h
    have hs := h s (List.mem_cons_self _ _)
    have hc : (fsGet st s).contains epsName := by simpa using hs.2
    simp only [calcFirst, hs.1, hc, if_true, Bool.false_eq_true, if_false]
    exact List.mem_append.mpr
      (Or.inr (ih fun s2 h2 => h s2 (List.mem_cons_of_mem _ h2)))

/-- The guarded-add loop preserves the ε-soundness invariant provided
ε may only be among the added items when the target is nullable. -/
theorem addFirstItems_sound (g : NGrammar) (n : String) :
    ∀ (items : List String) (st : FirstSt), FInv g st →
      (epsName ∈ items → HasEps g n) →
      FInv g (addFirstItems st n items).1 := by
  intro items
  induction items with
  | nil => intro st hinv _; simpa [addFirstItems] using hinv
  | cons m tl ih =>
    intro st hinv h
    by_cases hc : (fsGet st n).contains m
    · have hc' : m ∈ fsGet st n := by simpa using hc
      have heq : (addFirstItems st n (m :: tl)).1 =
          (addFirstItems st n tl).1 := by
        simp [addFirstItems, hc']
      rw [heq]
      exact ih st hinv (fun hm => h (List.mem_cons_of_mem _ hm))
    · have hc' : m ∉ fsGet st n := by simpa using hc
      have heq : (addFirstItems st n (m :: tl)).1 =
          (addFirstItems (alSet st n (fsGet st n ++ [m])) n tl).1 := by
        simp [addFirstItems, hc']
      rw [heq]
      refine ih _ ?_ (fun hm => h (List.mem_cons_of_mem _ hm))
      intro n' hn'
      by_cases hn : n' = n
      · subst hn
        rw [fsGet, alGet_alSet_self] at hn'
        simp only [Option.getD_some] at hn'
        rcases List.mem_append.mp hn' with h2 | h2
        · exact hinv n' h2
        · have h3 : epsName = m := by simpa using h2
          exact h (by rw [h3]; exact List.mem_cons_self m tl)
      · rw [fsGet, alGet_alSet_ne _ _ _ _ hn] at hn'
        exact hinv n' hn'

/-- A zero change count from the guarded-add loop means the state is
untouched and every item was already present. -/
theorem addFirstItems_zero (n : String) :
    ∀ (items : List String) (st : FirstSt),
      (addFirstItems st n items).2 = 0 →
      (addFirstItems st n items).1 = st ∧ ∀ m ∈ items, m ∈ fsGet st n := by
  intro items
  induction items with
  | nil => intro st _; exact ⟨by simp [addFirstItems], by simp⟩
  | cons m tl ih =>
    intro st h0
    by_cases hc : (fsGet st n).contains m
    · have hc' : m ∈ fsGet st n := by simpa using hc
      have heq : addFirstItems st n (m :: tl) = addFirstItems st n tl := by
        simp [addFirstItems, hc']
      rw [heq] at h0 ⊢
      obtain ⟨h1, h2⟩ := ih st h0
      refine ⟨h1, fun m2 hm2 => ?_⟩
      rcases List.mem_cons.mp hm2 with rfl | hm2'
      · exact hc'
      · exact h2 m2 hm2'
    · exfalso
      have hc' : m ∉ fsGet st n := by simpa using hc
      have heq : (addFirstItems st n (m :: tl)).2 =
          (addFirstItems (alSet st n (fsGet st n ++ [m])) n tl).2 + 1 := by
        simp [addFirstItems, hc']
      rw [heq] at h0
      omega

/-- One nonterminal's rules preserve the ε-soundness invariant. -/
theorem firstPassRules_sound (g : NGrammar) (n : String)
    (hterm : isTermN g n = false) (heps : isTermN g epsName = false) :
    ∀ rs, (∀ r ∈ rs, r ∈ g.prods ∧ r.head = n) →
      ∀ st, FInv g st → FInv g (firstPassRules g n st rs).1 := by
  intro rs
  induction rs with
  | nil => intro _ st hinv; simpa [firstPassRules] using hinv
  | cons r tl ih =>
    intro hrs st hinv
    have heq : (firstPassRules g n st (r :: tl)).1 =
        (firstPassRules g n
          (addFirstItems st n (calcFirst g st r.body)).1 tl).1 := by
      simp [firstPassRules]
    rw [heq]
    apply ih (fun r2 h2 => hrs r2 (List.mem_cons_of_mem _ h2))
    apply addFirstItems_sound g n _ st hinv
    intro he
    exact HasEps.intro n r hterm (hrs r (List.mem_cons_self _ _)).1
      (hrs r (List.mem_cons_self _ _)).2
      (calcFirst_eps_sound g st heps hinv r.body he)

/-- A zero change count over one nonterminal's rules means the state is
untouched and every computed FIRST item was already recorded. -/
theorem firstPassRules_zero (g : NGrammar) (n : String) :
    ∀ rs st, (firstPassRules g n st rs).2 = 0 →
      (firstPassRules g n st rs).1 = st ∧
        ∀ r ∈ rs, ∀ m ∈ calcFirst g st r.body, m ∈ fsGet st n := by
  intro rs
  induction rs with
  | nil => intro st _; exact ⟨by simp [firstPassRules], by simp⟩
  | cons r tl ih =>
    intro st h0
    simp only [firstPassRules] at h0
    have ha : (addFirstItems st n (calcFirst g st r.body)).2 = 0 := by omega
    have hb : (firstPassRules g n
        (addFirstItems st n (calcFirst g st r.body)).1 tl).2 = 0 := by omega
    obtain ⟨ha1, ha2⟩ := addFirstItems_zero n (calcFirst g st r.body) st ha
    rw [ha1] at hb
    obtain ⟨hb1, hb2⟩ := ih st hb
    constructor
    · simp only [firstPassRules]
      rw [ha1, hb1]
    · intro r2 hr2
      rcases List.mem_cons.mp hr2 with rfl | hr2'
      · exact ha2
      · exact hb2 r2 hr2'

/-- A full FIRST pass preserves the ε-soundness invariant. -/
theorem firstPassSyms_sound (g : NGrammar)
    (heps : isTermN g epsName = false) :
    ∀ ns, (∀ n ∈ ns, isTermN g n = false) →
      ∀ st, FInv g st → FInv g (firstPassSyms g st ns).1 := by
  intro ns
  induction ns with
  | nil => intro _ st hinv; simpa [firstPassSyms] using hinv
  | cons n tl ih =>
    intro hns st hinv
    have heq : (firstPassSyms g st (n :: tl)).1 =
        (firstPassSyms g (firstPassRules g n st (rulesOf g n)).1 tl).1 := by
      simp [firstPassSyms]
    rw [heq]
    apply ih (fun n2 h2 => hns n2 (List.mem_cons_of_mem _ h2))
    apply firstPassRules_sound g n (hns n (List.mem_cons_self _ _)) heps
      (rulesOf g n) ?_ st hinv
    intro r hr
    have := List.mem_filter.mp hr
    exact ⟨this.1, by simpa using this.2⟩

/-- A zero change count over a full FIRST pass means the state is a
fixpoint: every rule's computed FIRST set is already recorded. -/
theorem firstPassSyms_zero (g : NGrammar) :
    ∀ ns st, (firstPassSyms g st ns).2 = 0 →
      (firstPassSyms g st ns).1 = st ∧
        ∀ n ∈ ns, ∀ r ∈ rulesOf g n,
          ∀ m ∈ calcFirst g st r.body, m ∈ fsGet st n := by
  intro ns
  induction ns with
  | nil => intro st _; exact ⟨by simp [firstPassSyms], by simp⟩
  | cons n tl ih =>
    intro st h0
    simp only [firstPassSyms] at h0
    have ha : (firstPassRules g n st (rulesOf g n)).2 = 0 := by omega
    have hb : (firstPassSyms g
        (firstPassRules g n st (rulesOf g n)).1 tl).2 = 0 := by omega
    obtain ⟨ha1, ha2⟩ := firstPassRules_zero g n (rulesOf g n) st ha
    rw [ha1] at hb
    obtain ⟨hb1, hb2⟩ := ih st hb
    constructor
    · simp only [firstPassSyms]
      rw [ha1, hb1]
    · intro n2 hn2
      rcases List.mem_cons.mp hn2 with rfl | hn2'
      · exact ha2
      · exact hb2 n2 hn2'

/-- The fuelled FIRST loop, when it terminates, returns a sound
fixpoint. -/
theorem firstLoopO_spec (g : NGrammar)
    (heps : isTermN g epsName = false) :
    ∀ fuel st F, FInv g st → firstLoopO g fuel st = some F →
      FInv g F ∧ (firstPass g F).2 = 0 := by
  intro fuel
  induction fuel with
  | zero => intro st F _ h; simp [firstLoopO] at h
  | succ m ih =>
    intro st F hinv h
    simp only [firstLoopO] at h
    have hnkeys : ∀ n ∈ nonterminalsOf g, isTermN g n = false := by
      intro n hn
      have := (List.mem_filter.mp hn).2
      simpa using this
    have hinv' : FInv g (firstPass g st).1 := by
      rw [firstPass]
      exact firstPassSyms_sound g heps (nonterminalsOf g) hnkeys st hinv
    by_cases h0 : (firstPass g st).2 = 0
    · rw [if_pos h0] at h
      have hF : (firstPass g st).1 = F := Option.some.inj h
      subst hF
      refine ⟨hinv', ?_⟩
      have hfx : (firstPassSyms g st (nonterminalsOf g)).2 = 0 := h0
      have := (firstPassSyms_zero g (nonterminalsOf g) st hfx).1
      show (firstPass g (firstPassSyms g st (nonterminalsOf g)).1).2 = 0
      rw [this]
      exact h0
    · rw [if_neg h0] at h
      exact ih (firstPass g st).1 F hinv' h

/-- Completeness at the FIRST fixpoint: every nullable symbol's FIRST
set holds ε. -/
theorem first_complete (g : NGrammar) (F : FirstSt)
    (h0 : (firstPass g F).2 = 0) :
    ∀ n, HasEps g n → epsName ∈ fsGet F n := by
  have hfix := (firstPassSyms_zero g (nonterminalsOf g) F h0).2
  intro n hn
  induction hn with
  | intro n p hterm hpmem hhead hall ih =>
    have hcf : epsName ∈ calcFirst g F p.body := by
      apply calcFirst_eps_complete g F p.body
      intro s hs
      refine ⟨?_, ih s hs⟩
      cases hall s hs with
      | intro _ _ ht _ _ _ => exact ht
    have hnn : n ∈ nonterminalsOf g :=
      List.mem_filter.mpr
        ⟨hhead ▸ head_mem_symbolsOf g p hpmem, by simp [hterm]⟩
    have hpr : p ∈ rulesOf g n :=
      List.mem_filter.mpr ⟨hpmem, by simp [hhead]⟩
    exact hfix n hnn p hpr epsName hcf

/-- C8: after the analyzer's fixpoint computations (`__update_first_set`
and `__update_epsilon` both run to their zero-change fixpoints), for
every nonterminal `N` of the grammar, ε is a member of `FIRST(N)` if and
only if `N`'s `has_epsilon` flag records that `N` derives ε. -/
theorem claim_C8 (g : NGrammar) (F : FirstSt) (E : EpsSt)
    (fuel1 fuel2 : Nat) (hwf : WfG g)
    (hF : runFirst g fuel1 = some F) (hE : runEps g fuel2 = some E)
    (N : String) (hN : N ∈ symbolsOf g) (hNt : isTermN g N = false) :
    epsName ∈ fsGet F N ↔ (sfGet E.symFlags N).2 = some true := by
  have heps : isTermN g epsName = false := by
    rw [isTermN]
    by_cases h : epsName ∈ g.terminals
    · exact absurd h hwf.1
    · simpa using h
  have hE' : epsLoopO g fuel2 (initEps g) = some E := hE
  have hF' : firstLoopO g fuel1 (initFirst g) = some F := hF
  obtain ⟨hs, hp, hw, h0⟩ := epsLoopO_spec g fuel2 (initEps g) E
    (initEps_inv g).1 (initEps_inv g).2.1 (initEps_inv g).2.2 hE'
  obtain ⟨hFinv, hFfix⟩ := firstLoopO_spec g heps fuel1 (initFirst g) F
    (fun n hn => absurd hn (initFirst_no_eps g hwf.1 n)) hF'
  constructor
  · intro h
    exact eps_complete g E hs hp hw h0 N (hFinv N h)
  · intro h
    obtain ⟨f, hmem, hf2⟩ := sfGet_snd_eq_some E.symFlags N true h
    exact first_complete g F hFfix N ((hs (N, f) hmem).2.2.1 hf2)

theorem claim_C8_witness :
    epsName ∈ fsGet fC8 "A" ↔ (sfGet eC8.symFlags "A").2 = some true :=
  claim_C8 gC8 fC8 eC8 10 10 ⟨by decide, by decide⟩ (by rfl) (by rfl)
    "A" (by decide) (by rfl)

theorem foldlM_add_one {α : Type} (f : List LState → α → Option (List LState))
    (hf : ∀ acc u r, f acc u = some r → r.length = acc.length + 1) :
    ∀ (l : List α) (acc r : List LState),
      List.foldlM f acc l = some r → r.length = acc.length + l.length := by
  intro l
  induction l with
  | nil =>
    intro acc r h
    have h2 : acc = r := by
      simp [List.foldlM] at h
      exact h
    rw [← h2]
    simp
  | cons x tl ih =>
    intro acc r h
    simp only [List.foldlM_cons] at h
    rcases hb : f acc x with _ | acc2
    · rw [hb] at h; simp at h
    · rw [hb] at h
      have h2 := ih acc2 r (by simpa using h)
      rw [h2, hf acc x acc2 hb]
      simp
      omega

/-- `__build_LR1_state` appends exactly one LR(1) state per iteration. -/
theorem materializeStep_length (g : NGrammar) (F : FirstSt) (fuel : Nat)
    (bst0 : BuildSt) (look : List (List (List String)))
    (acc : List LState) (u : Nat) (r : List LState)
    (h : materializeStep g F fuel bst0 look acc u = some r) :
    r.length = acc.length + 1 := by
  rcases hs : bst0.states[u]? with _ | s
  · simp [materializeStep, List.get?_eq_getElem?, hs] at h
  · rcases hc : lr1Closure g F fuel (materializeKernel s look u) with _ | cls
    · simp [materializeStep, List.get?_eq_getElem?, hs, hc] at h
    · by_cases hsf : (stateFind acc (materializeKernel s look u)).isSome
      · simp [materializeStep, List.get?_eq_getElem?, hs, hc, hsf] at h
      · simp [materializeStep, List.get?_eq_getElem?, hs, hc, hsf] at h
        rw [← h]
        simp

theorem materialize_length (g : NGrammar) (F : FirstSt) (fuel : Nat)
    (bst0 : BuildSt) (look : List (List (List String)))
    (sts : List LState)
    (h : materialize g F fuel bst0 look = some sts) :
    sts.length = bst0.states.length := by
  rw [materialize] at h
  have := foldlM_add_one (materializeStep g F fuel bst0 look)
    (fun acc u r hr => materializeStep_length g F fuel bst0 look acc u r hr)
    (List.range bst0.states.length) [] sts h
  simpa using this

/-- C9 counterexample: on the grammar `g9` (unproductive `C`), the
LALR machine has 6 states while the canonical LR(1) machine has 5, so
the claimed `LALR ≤ LR(1)` state-count bound is false. -/
theorem claim_C9_counterexample :
    (lalrProcess g9 f9 60).map (fun b => b.states.length) = some 6 ∧
    (lr1BuildStates g9 f9 60).map (fun b => b.states.length) = some 5 ∧
    ¬ (6 ≤ 5) := ⟨rfl, rfl, by decide⟩

/-- C9 amended: for every grammar whose LALR construction succeeds,
the LALR machine has exactly as many states as the LR(0) skeleton
(one LR(1)-style state is materialized per LR(0) state); the claimed
bound against the canonical LR(1) construction does not hold in
general. -/
theorem claim_C9_amended (g : NGrammar) (F : FirstSt) (fuel : Nat)
    (bst bst0 : BuildSt)
    (h : lalrProcess g F fuel = some bst)
    (h0 : lr0BuildStates g fuel = some bst0) :
    bst.states.length = bst0.states.length := by
  rcases hps : buildRoutes g F fuel bst0 with _ | ps
  · simp [lalrProcess, h0, hps] at h
  · rcases hlk : lalrRounds ps.routes
        (bst0.states.map (fun s => s.kernel.length)) fuel ps.look with _ | look
    · simp [lalrProcess, h0, hps, hlk] at h
    · rcases hm : materialize g F fuel bst0 look with _ | sts
      · simp [lalrProcess, h0, hps, hlk, hm] at h
      · simp [lalrProcess, h0, hps, hlk, hm] at h
        rw [← h]
        exact materialize_length g F fuel bst0 look sts hm

theorem claim_C9_witness : b9L.states.length = b90.states.length :=
  claim_C9_amended g9 f9 60 b9L b90 (by rfl) (by rfl)

theorem mem_addItem (cc : List LItem) (x it : LItem) :
    it ∈ addItem cc x ↔ (it ∈ cc ∨ it = x) := by
  rw [addItem]
  by_cases hx : x ∈ cc
  · rw [if_pos hx]
    constructor
    · exact Or.inl
    · rintro (h | rfl)
      · exact h
      · exact hx
  · rw [if_neg hx]
    simp

theorem foldl_addItem_mem :
    ∀ (l cc : List LItem) (x : LItem),
      x ∈ l.foldl addItem cc ↔ x ∈ cc ∨ x ∈ l := by
  intro l
  induction l with
  | nil => intro cc x; simp
  | cons a tl ih =>
    intro cc x
    rw [List.foldl_cons, ih]
    rw [mem_addItem]
    constructor
    · rintro ((h | rfl) | h)
      · exact Or.inl h
      · exact Or.inr (List.mem_cons_self _ _)
      · exact Or.inr (List.mem_cons_of_mem _ h)
    · rintro (h | h)
      · exact Or.inl (Or.inl h)
      · rcases List.mem_cons.mp h with rfl | h2
        · exact Or.inl (Or.inr rfl)
        · exact Or.inr h2

theorem addItem_nodup (cc : List LItem) (x : LItem) (h : cc.Nodup) :
    (addItem cc x).Nodup := by
  rw [addItem]
  by_cases hx : x ∈ cc
  · rwa [if_pos hx]
  · rw [if_neg hx, ← List.concat_eq_append]
    exact h.concat hx

theorem foldl_addItem_nodup :
    ∀ (l cc : List LItem), cc.Nodup → (l.foldl addItem cc).Nodup := by
  intro l
  induction l with
  | nil => intro cc h; simpa
  | cons a tl ih =>
    intro cc h
    rw [List.foldl_cons]
    exact ih _ (addItem_nodup cc a h)

theorem itemAdvance_eq_some (it it2 : LItem) :
    itemAdvance it = some it2 ↔
      (it.dot < it.body.length ∧ it2 = { it with dot := it.dot + 1 }) := by
  rw [itemAdvance]
  by_cases h : it.body.length ≤ it.dot
  · rw [if_pos h]
    constructor
    · intro h2; cases h2
    · intro h2; omega
  · rw [if_neg h]
    constructor
    · intro h2
      exact ⟨by omega, (Option.some.inj h2).symm⟩
    · intro h2
      rw [h2.2]

theorem mem_tryGoto (cc : List LItem) (X : String) (it2 : LItem) :
    it2 ∈ tryGoto cc X ↔
      ∃ it ∈ cc, itemNext it = some X ∧ itemAdvance it = some it2 := by
  rw [tryGoto, List.mem_filterMap]
  constructor
  · rintro ⟨it, hmem, hf⟩
    rcases hn : itemNext it with _ | b
    · simp [hn] at hf
    · simp only [hn] at hf
      by_cases hb : b = X
      · rw [if_pos hb] at hf
        exact ⟨it, hmem, by rw [hn, hb], hf⟩
      · rw [if_neg hb] at hf; cases hf
  · rintro ⟨it, hmem, hn, ha⟩
    exact ⟨it, hmem, by simp [hn, ha]⟩

theorem tryGoto_nodup (cc : List LItem) (X : String) (h : cc.Nodup) :
    (tryGoto cc X).Nodup := by
  rw [tryGoto]
  apply h.filterMap
  intro a b c hfa hfb
  have ha2 : itemAdvance a = some c := by
    rcases hn : itemNext a with _ | x
    · simp [hn] at hfa
    · simp only [hn] at hfa
      by_cases hb : x = X
      · rwa [if_pos hb] at hfa
      · rw [if_neg hb] at hfa; cases hfa
  have hb2 : itemAdvance b = some c := by
    rcases hn : itemNext b with _ | x
    · simp [hn] at hfb
    · simp only [hn] at hfb
      by_cases hbx : x = X
      · rwa [if_pos hbx] at hfb
      · rw [if_neg hbx] at hfb; cases hfb
  obtain ⟨h1, h2⟩ := (itemAdvance_eq_some a c).mp ha2
  obtain ⟨h3, h4⟩ := (itemAdvance_eq_some b c).mp hb2
  have := h2.symm.trans h4
  cases a; cases b
  simp only [LItem.mk.injEq] at this ⊢
  exact ⟨this.1, this.2.1, by omega, this.2.2.2⟩

theorem dedup_foldl_mem {α : Type} [DecidableEq α]
    (f : List α → α → List α)
    (hf : ∀ acc b, f acc b = if b ∈ acc then acc else acc ++ [b]) :
    ∀ (l acc : List α) (x : α),
      x ∈ l.foldl f acc ↔ x ∈ acc ∨ x ∈ l := by
  intro l
  induction l with
  | nil => intro acc x; simp
  | cons a tl ih =>
    intro acc x
    rw [List.foldl_cons, ih, hf]
    by_cases ha : a ∈ acc
    · rw [if_pos ha]
      constructor
      · rintro (h | h)
        · exact Or.inl h
        · exact Or.inr (List.mem_cons_of_mem _ h)
      · rintro (h | h)
        · exact Or.inl h
        · rcases List.mem_cons.mp h with rfl | h2
          · exact Or.inl ha
          · exact Or.inr h2
    · rw [if_neg ha]
      constructor
      · rintro (h | h)
        · rcases List.mem_append.mp h with h2 | h2
          · exact Or.inl h2
          · exact Or.inr (List.mem_cons.mpr (Or.inl (by simpa using h2)))
        · exact Or.inr (List.mem_cons_of_mem _ h)
      · rintro (h | h)
        · exact Or.inl (List.mem_append.mpr (Or.inl h))
        · rcases List.mem_cons.mp h with rfl | h2
          · exact Or.inl (List.mem_append.mpr (Or.inr (by simp)))
          · exact Or.inr h2

theorem dedup_foldl_nodup {α : Type} [DecidableEq α]
    (f : List α → α → List α)
    (hf : ∀ acc b, f acc b = if b ∈ acc then acc else acc ++ [b]) :
    ∀ (l acc : List α), acc.Nodup → (l.foldl f acc).Nodup := by
  intro l
  induction l with
  | nil => intro acc h; simpa
  | cons a tl ih =>
    intro acc h
    rw [List.foldl_cons]
    apply ih
    rw [hf]
    by_cases ha : a ∈ acc
    · rwa [if_pos ha]
    · rw [if_neg ha, ← List.concat_eq_append]
      exact h.concat ha

theorem mem_findExpecting (cc : List LItem) (b : String) :
    b ∈ findExpecting cc ↔ ∃ it ∈ cc, itemNext it = some b := by
  rw [findExpecting,
    dedup_foldl_mem (fun acc b => if b ∈ acc then acc else acc ++ [b])
      (fun _ _ => rfl)]
  simp [List.mem_filterMap]

theorem findExpecting_nodup (cc : List LItem) : (findExpecting cc).Nodup :=
  dedup_foldl_nodup (fun acc b => if b ∈ acc then acc else acc ++ [b])
    (fun _ _ => rfl) _ [] (by simp)

theorem kernelEq_iff (k1 k2 : List LItem) (h : kernelEq k1 k2 = true) :
    (∀ it ∈ k1, it ∈ k2) ∧ (∀ it ∈ k2, it ∈ k1) := by
  simp only [kernelEq, Bool.and_eq_true, List.all_eq_true,
    decide_eq_true_eq] at h
  exact ⟨h.1.2, h.2⟩

theorem linkGet_append_some (L L2 : List (Nat × String × Nat))
    (u : Nat) (X : String) (v : Nat) (h : linkGet L u X = some v) :
    linkGet (L ++ L2) u X = some v := by
  rw [linkGet] at h ⊢
  rcases hf : L.find? (fun e => e.1 == u && e.2.1 == X) with _ | e
  · rw [hf] at h; cases h
  · rw [hf] at h
    rw [List.find?_append, hf]
    exact h

theorem linkGet_single_none (u2 : Nat) (X2 : String) (v2 : Nat)
    (u : Nat) (X : String) (h : ¬ (u = u2 ∧ X = X2)) :
    linkGet [(u2, X2, v2)] u X = none := by
  rw [linkGet]
  rcases hf : [(u2, X2, v2)].find?
      (fun e => e.1 == u && e.2.1 == X) with _ | e
  · rw [hf]; rfl
  · exfalso
    have h1 := List.find?_some hf
    have h2 := List.mem_of_find?_eq_some hf
    simp only [List.mem_singleton] at h2
    rw [h2] at h1
    simp only [Bool.and_eq_true, beq_iff_eq] at h1
    exact h ⟨h1.1.symm, h1.2.symm⟩

theorem linkGet_append_ne (L : List (Nat × String × Nat))
    (u2 : Nat) (X2 : String) (v2 : Nat) (u : Nat) (X : String)
    (h : ¬ (u = u2 ∧ X = X2)) :
    linkGet (L ++ [(u2, X2, v2)]) u X = linkGet L u X := by
  have h2 : ¬ (u2 = u ∧ X2 = X) := fun hc => h ⟨hc.1.symm, hc.2.symm⟩
  rw [linkGet, linkGet, List.find?_append]
  rcases hf : L.find? (fun e => e.1 == u && e.2.1 == X) with _ | e
  · rw [hf]
    simp [h2]
  · rw [hf]
    simp

theorem createLink_states (st : BuildSt) (u : Nat) (X : String) (v : Nat) :
    (createLink st u X v).states = st.states := by
  rw [createLink]
  by_cases h : (linkGet st.links u X).isSome
  · rw [if_pos h]
  · rw [if_neg h]

theorem createLink_pending (st : BuildSt) (u : Nat) (X : String) (v : Nat) :
    (createLink st u X v).pending = st.pending := by
  rw [createLink]
  by_cases h : (linkGet st.links u X).isSome
  · rw [if_pos h]
  · rw [if_neg h]

theorem createLink_get_ne (st : BuildSt) (u : Nat) (X : String) (v : Nat)
    (u2 : Nat) (X2 : String) (h : ¬ (u2 = u ∧ X2 = X)) :
    linkGet (createLink st u X v).links u2 X2 = linkGet st.links u2 X2 := by
  rw [createLink]
  by_cases h2 : (linkGet st.links u X).isSome
  · rw [if_pos h2]
  · rw [if_neg h2]
    exact linkGet_append_ne st.links u X v u2 X2 h

theorem createLink_get_self (st : BuildSt) (u : Nat) (X : String) (v : Nat)
    (h : linkGet st.links u X = none) :
    linkGet (createLink st u X v).links u X = some v := by
  rw [createLink, if_neg (by simp [h])]
  show linkGet (st.links ++ [(u, X, v)]) u X = some v
  rw [linkGet, List.find?_append]
  rw [linkGet] at h
  rcases hf : st.links.find? (fun e => e.1 == u && e.2.1 == X) with _ | e
  · rw [hf]
    simp
  · rw [hf] at h; simp at h

theorem createLink_get_persist (st : BuildSt) (u : Nat) (X : String)
    (v : Nat) (u2 : Nat) (X2 : String) (w : Nat)
    (h : linkGet st.links u2 X2 = some w) :
    linkGet (createLink st u X v).links u2 X2 = some w := by
  rw [createLink]
  by_cases h2 : (linkGet st.links u X).isSome
  · rwa [if_pos h2]
  · rw [if_neg h2]
    exact linkGet_append_some st.links _ u2 X2 w h

theorem createLink_links_mem (st : BuildSt) (u : Nat) (X : String)
    (v : Nat) (e : Nat × String × Nat)
    (h : e ∈ (createLink st u X v).links) : e ∈ st.links ∨ e = (u, X, v) := by
  rw [createLink] at h
  by_cases h2 : (linkGet st.links u X).isSome
  · rw [if_pos h2] at h
    exact Or.inl h
  · rw [if_neg h2] at h
    rcases List.mem_append.mp h with h3 | h3
    · exact Or.inl h3
    · exact Or.inr (by simpa using h3)

theorem mem_rulesOf (g : NGrammar) (B : String) (r : NProd)
    (h : r ∈ rulesOf g B) : r ∈ g.prods ∧ r.head = B := by
  have := List.mem_filter.mp h
  exact ⟨this.1, by simpa using this.2⟩

/-- The LR(1) closure guarantees of `CloseSpec` at the worklist level. -/
theorem lr1ClosureLoop_spec (g : NGrammar) (F : FirstSt)
    (hg2 : ∀ p ∈ g.prods, "S^" ∉ p.body) :
    ∀ fuel cc top out, lr1ClosureLoop g F fuel cc top = some out →
      (∀ it ∈ cc, "S^" ∉ it.body) →
      (∀ it ∈ out, it ∈ cc ∨ ("S^" ∉ it.body ∧ it.head ≠ "S^")) ∧
      (cc.Nodup → out.Nodup) ∧ (∀ it ∈ cc, it ∈ out) := by
  intro fuel
  induction fuel with
  | zero => intro cc top out h _; simp [lr1ClosureLoop] at h
  | succ n ih =>
    intro cc top out h hcc
    rw [lr1ClosureLoop] at h
    rcases hA : cc.get? top with _ | A
    · simp only [hA] at h
      have hout : cc = out := Option.some.inj h
      subst hout
      exact ⟨fun it hit => Or.inl hit, fun hnd => hnd, fun it hit => hit⟩
    · simp only [hA] at h
      rcases hN : itemNext A with _ | B
      · simp only [hN] at h
        exact ih cc (top + 1) out h hcc
      · simp only [hN] at h
        by_cases hT : isTermN g B = true
        · rw [if_pos hT] at h
          exact ih cc (top + 1) out h hcc
        · rw [if_neg hT] at h
          by_cases hE : (rulesOf g B).isEmpty = true
          · rw [if_pos hE] at h; cases h
          · rw [if_neg hE] at h
            have hBne : B ≠ "S^" := by
              have hAm : A ∈ cc := List.get?_mem hA
              have hBm : B ∈ A.body := by
                rw [itemNext] at hN
                exact List.get?_mem hN
              intro hBS
              exact hcc A hAm (hBS ▸ hBm)
            have hadds : ∀ it2 ∈ (rulesOf g B).flatMap (fun r =>
                (calcFirst g F (A.body.drop (A.dot + 1) ++ A.la.toList)).map
                  (fun t => LItem.mk r.head r.body 0 (some t))),
                "S^" ∉ it2.body ∧ it2.head ≠ "S^" := by
              intro it2 hit2
              rcases List.mem_flatMap.mp hit2 with ⟨r, hr, hmap⟩
              rcases List.mem_map.mp hmap with ⟨t, _, hte⟩
              obtain ⟨hrp, hrh⟩ := mem_rulesOf g B r hr
              rw [← hte]
              exact ⟨hg2 r hrp, by simpa [hrh] using hBne⟩
            have hcc2 : ∀ it ∈ ((rulesOf g B).flatMap (fun r =>
                (calcFirst g F (A.body.drop (A.dot + 1) ++ A.la.toList)).map
                  (fun t => LItem.mk r.head r.body 0 (some t)))).foldl
                addItem cc, "S^" ∉ it.body := by
              intro it hit
              rcases (foldl_addItem_mem _ cc it).mp hit with h2 | h2
              · exact hcc it h2
              · exact (hadds it h2).1
            obtain ⟨o1, o2, o3⟩ := ih _ (top + 1) out h hcc2
            refine ⟨?_, ?_, ?_⟩
            · intro it hit
              rcases o1 it hit with h2 | h2
              · rcases (foldl_addItem_mem _ cc it).mp h2 with h3 | h3
                · exact Or.inl h3
                · exact Or.inr (hadds it h3)
              · exact Or.inr h2
            · intro hnd
              exact o2 (foldl_addItem_nodup _ cc hnd)
            · intro it hit
              exact o3 it ((foldl_addItem_mem _ cc it).mpr (Or.inl hit))

/-- The LR(0) closure guarantees of `CloseSpec` at the worklist level. -/
theorem lr0ClosureLoop_spec (g : NGrammar)
    (hg2 : ∀ p ∈ g.prods, "S^" ∉ p.body) :
    ∀ fuel cc top out, lr0ClosureLoop g fuel cc top = some out →
      (∀ it ∈ cc, "S^" ∉ it.body) →
      (∀ it ∈ out, it ∈ cc ∨ ("S^" ∉ it.body ∧ it.head ≠ "S^")) ∧
      (cc.Nodup → out.Nodup) ∧ (∀ it ∈ cc, it ∈ out) := by
  intro fuel
  induction fuel with
  | zero => intro cc top out h _; simp [lr0ClosureLoop] at h
  | succ n ih =>
    intro cc top out h hcc
    rw [lr0ClosureLoop] at h
    rcases hA : cc.get? top with _ | A
    · simp only [hA] at h
      have hout : cc = out := Option.some.inj h
      subst hout
      exact ⟨fun it hit => Or.inl hit, fun hnd => hnd, fun it hit => hit⟩
    · simp only [hA] at h
      rcases hN : itemNext A with _ | B
      · simp only [hN] at h
        exact ih cc (top + 1) out h hcc
      · simp only [hN] at h
        by_cases hT : isTermN g B = true
        · rw [if_pos hT] at h
          exact ih cc (top + 1) out h hcc
        · rw [if_neg hT] at h
          by_cases hE : (rulesOf g B).isEmpty = true
          · rw [if_pos hE] at h; cases h
          · rw [if_neg hE] at h
            have hBne : B ≠ "S^" := by
              have hAm : A ∈ cc := List.get?_mem hA
              have hBm : B ∈ A.body := by
                rw [itemNext] at hN
                exact List.get?_mem hN
              intro hBS
              exact hcc A hAm (hBS ▸ hBm)
            have hadds : ∀ it2 ∈ (rulesOf g B).map (fun r =>
                LItem.mk r.head r.body 0 none),
                "S^" ∉ it2.body ∧ it2.head ≠ "S^" := by
              intro it2 hit2
              rcases List.mem_map.mp hit2 with ⟨r, hr, hte⟩
              obtain ⟨hrp, hrh⟩ := mem_rulesOf g B r hr
              rw [← hte]
              exact ⟨hg2 r hrp, by simpa [hrh] using hBne⟩
            have hcc2 : ∀ it ∈ ((rulesOf g B).map (fun r =>
                LItem.mk r.head r.body 0 none)).foldl addItem cc,
                "S^" ∉ it.body := by
              intro it hit
              rcases (foldl_addItem_mem _ cc it).mp hit with h2 | h2
              · exact hcc it h2
              · exact (hadds it h2).1
            obtain ⟨o1, o2, o3⟩ := ih _ (top + 1) out h hcc2
            refine ⟨?_, ?_, ?_⟩
            · intro it hit
              rcases o1 it hit with h2 | h2
              · rcases (foldl_addItem_mem _ cc it).mp h2 with h3 | h3
                · exact Or.inl h3
                · exact Or.inr (hadds it h3)
              · exact Or.inr h2
            · intro hnd
              exact o2 (foldl_addItem_nodup _ cc hnd)
            · intro it hit
              exact o3 it ((foldl_addItem_mem _ cc it).mpr (Or.inl hit))

/-- `LR1Analyzer.closure` satisfies `CloseSpec`. -/
theorem lr1Closure_closeSpec (g : NGrammar) (F : FirstSt) (fuel : Nat)
    (hg2 : ∀ p ∈ g.prods, "S^" ∉ p.body) :
    CloseSpec (lr1Closure g F fuel) := by
  intro kernel out h hk _
  rw [lr1Closure] at h
  have hk2 : ∀ it ∈ kernel.foldl addItem [], "S^" ∉ it.body := by
    intro it hit
    rcases (foldl_addItem_mem kernel [] it).mp hit with h2 | h2
    · simp at h2
    · exact hk it h2
  obtain ⟨o1, o2, o3⟩ := lr1ClosureLoop_spec g F hg2 fuel _ 0 out h hk2
  refine ⟨?_, ?_, ?_⟩
  · intro it hit
    rcases o1 it hit with h2 | h2
    · rcases (foldl_addItem_mem kernel [] it).mp h2 with h3 | h3
      · simp at h3
      · exact Or.inl h3
    · exact Or.inr h2
  · exact o2 (foldl_addItem_nodup kernel [] (by simp))
  · intro it hit
    exact o3 it ((foldl_addItem_mem kernel [] it).mpr (Or.inr hit))

/-- `_LR0_closure` satisfies `CloseSpec`. -/
theorem lr0Closure_closeSpec (g : NGrammar) (fuel : Nat)
    (hg2 : ∀ p ∈ g.prods, "S^" ∉ p.body) :
    CloseSpec (lr0Closure g fuel) := by
  intro kernel out h hk hnd
  rw [lr0Closure] at h
  obtain ⟨o1, o2, o3⟩ := lr0ClosureLoop_spec g hg2 fuel kernel 0 out h hk
  exact ⟨o1, ⟨o2 hnd, o3⟩⟩

theorem itemNext_mkSI0 (start : String) (l0 : Option String) :
    itemNext (mkSI start l0 0) = some start := rfl

theorem itemAdvance_mkSI0 (start : String) (l0 : Option String) :
    itemAdvance (mkSI start l0 0) = some (mkSI start l0 1) := rfl

theorem itemAdvance_mkSI1 (start : String) (l0 : Option String) :
    itemAdvance (mkSI start l0 1) = none := rfl

theorem advance_eq_mkSI1 (start : String) (l0 : Option String)
    (it : LItem) (h : itemAdvance it = some (mkSI start l0 1)) :
    it = mkSI start l0 0 := by
  obtain ⟨hlt, he⟩ := (itemAdvance_eq_some it _).mp h
  cases it
  simp only [mkSI, LItem.mk.injEq] at he ⊢
  exact ⟨he.1.symm, he.2.1.symm, by omega, he.2.2.2.symm⟩

theorem tryGoto_dot (cc : List LItem) (X : String) (it2 : LItem)
    (h : it2 ∈ tryGoto cc X) : 1 ≤ it2.dot := by
  rcases (mem_tryGoto cc X it2).mp h with ⟨it, _, _, ha⟩
  obtain ⟨_, he⟩ := (itemAdvance_eq_some it it2).mp ha
  rw [he]
  simp

theorem tryGoto_body (cc : List LItem) (X : String) (it2 : LItem)
    (h : it2 ∈ tryGoto cc X) (hcc : ∀ it ∈ cc, "S^" ∉ it.body) :
    "S^" ∉ it2.body := by
  rcases (mem_tryGoto cc X it2).mp h with ⟨it, hm, _, ha⟩
  obtain ⟨_, he⟩ := (itemAdvance_eq_some it it2).mp ha
  rw [he]
  exact hcc it hm

theorem kernelEq_refl (k : List LItem) : kernelEq k k = true := by
  simp [kernelEq]

theorem stateFind_none (states : List LState) (kernel : List LItem)
    (h : stateFind states kernel = none) :
    ∀ s ∈ states, kernelEq s.kernel kernel = false := by
  rw [stateFind] at h
  exact List.findIdx?_eq_none_iff.mp h

theorem stateFind_some (states : List LState) (kernel : List LItem)
    (v : Nat) (h : stateFind states kernel = some v) :
    ∃ s, states.get? v = some s ∧ kernelEq s.kernel kernel = true := by
  rw [stateFind, List.findIdx?_eq_some_iff_getElem] at h
  obtain ⟨hlt, h2⟩ := h
  exact ⟨states[v],
    by simp [List.get?_eq_getElem?, List.getElem?_eq_getElem hlt], h2.1⟩

theorem get?_append_of_some {α : Type} (l1 l2 : List α) (i : Nat) (x : α)
    (h : l1.get? i = some x) : (l1 ++ l2).get? i = some x := by
  obtain ⟨hlt, _⟩ := List.get?_eq_some.mp h
  rw [List.get?_append hlt]
  exact h

theorem get?_append_cases {α : Type} (l1 : List α) (a : α) (i : Nat)
    (x : α) (h : (l1 ++ [a]).get? i = some x) :
    l1.get? i = some x ∨ (i = l1.length ∧ x = a) := by
  by_cases hlt : i < l1.length
  · rw [List.get?_append hlt] at h
    exact Or.inl h
  · right
    obtain ⟨hlt2, _⟩ := List.get?_eq_some.mp h
    simp only [List.length_append, List.length_singleton] at hlt2
    have hi : i = l1.length := by omega
    subst hi
    rw [List.get?_concat_length] at h
    exact ⟨rfl, (Option.some.inj h).symm⟩

/-- One `gotoStep` preserves the BFS invariant; moreover states and
pending entries persist, an established `link[0][start]` persists, and
the step on `(0, start)` establishes it. -/
theorem gotoStep_inv (close : List LItem → Option (List LItem))
    (hclose : CloseSpec close) (start : String) (l0 : Option String)
    (u : Nat) (s : LState) (acc : BuildSt) (X : String) (out : BuildSt)
    (hGI : GInv start l0 acc) (hsget : acc.states.get? u = some s)
    (h : gotoStep close u s acc X = some out) :
    GInv start l0 out ∧
    (∀ i s2, acc.states.get? i = some s2 → out.states.get? i = some s2) ∧
    (∀ x ∈ acc.pending, x ∈ out.pending) ∧
    (∀ w, linkGet acc.links 0 start = some w →
      linkGet out.links 0 start = some w) ∧
    (u = 0 → X = start → linkGet out.links 0 start ≠ none) := by
  have hsmem : s ∈ acc.states := List.get?_mem hsget
  have hso := hGI.states_ok s hsmem
  have hsbodies : ∀ it ∈ s.closure, "S^" ∉ it.body := by
    intro it hit
    rcases hso.1 it hit with hk | hg
    · exact hso.2.2.2.1 it hk
    · exact hg.1
  have hsS : ∀ it ∈ s.closure, it.head = "S^" →
      (it = mkSI start l0 0 ∧ u = 0) ∨ it = mkSI start l0 1 := by
    intro it hit hh
    have hk : it ∈ s.kernel := by
      rcases hso.1 it hit with hk | hg
      · exact hk
      · exact absurd hh hg.2
    by_cases hu : u = 0
    · subst hu
      obtain ⟨c0, hc0⟩ := hGI.st0
      have hseq : s = ⟨[mkSI start l0 0], c0⟩ := by
        rw [hsget] at hc0
        exact Option.some.inj hc0
      rw [hseq] at hk
      simp only [List.mem_singleton] at hk
      exact Or.inl ⟨hk, rfl⟩
    · exact Or.inr ((hGI.kernels1 u s hsget hu it hk).2 hh)
  have hKs : ∀ it2 ∈ tryGoto s.closure X, it2.head = "S^" →
      it2 = mkSI start l0 1 ∧ X = start ∧ u = 0 := by
    intro it2 hit2 hh
    rcases (mem_tryGoto s.closure X it2).mp hit2 with ⟨it, hm, hn, ha⟩
    obtain ⟨_, he⟩ := (itemAdvance_eq_some it it2).mp ha
    have hh0 : it.head = "S^" := by
      rw [he] at hh
      exact hh
    rcases hsS it hm hh0 with ⟨hi0, hu0⟩ | hi1
    · subst hi0
      refine ⟨by rw [he]; rfl, ?_, hu0⟩
      rw [itemNext_mkSI0] at hn
      exact (Option.some.inj hn).symm
    · rw [hi1, itemAdvance_mkSI1] at ha
      cases ha
  have hKdot : ∀ it2 ∈ tryGoto s.closure X, 1 ≤ it2.dot :=
    fun it2 hit2 => tryGoto_dot s.closure X it2 hit2
  have hKbody : ∀ it2 ∈ tryGoto s.closure X, "S^" ∉ it2.body :=
    fun it2 hit2 => tryGoto_body s.closure X it2 hit2 hsbodies
  have hKnd : (tryGoto s.closure X).Nodup := tryGoto_nodup s.closure X hso.2.1
  have hst0k : u = 0 → X = start →
      ∀ c0, acc.states.get? 0 = some ⟨[mkSI start l0 0], c0⟩ →
        tryGoto s.closure X = tryGoto c0 start ∧
          mkSI start l0 1 ∈ tryGoto s.closure X := by
    intro hu hX c0 hc0
    have hseq : s = ⟨[mkSI start l0 0], c0⟩ := by
      rw [hu] at hsget
      rw [hsget] at hc0
      exact Option.some.inj hc0
    have hi0c : mkSI start l0 0 ∈ s.closure := by
      apply hso.2.2.1
      rw [hseq]
      simp
    constructor
    · rw [hseq, hX]
    · rw [hX]
      exact (mem_tryGoto _ _ _).mpr
        ⟨mkSI start l0 0, hi0c, itemNext_mkSI0 start l0,
          itemAdvance_mkSI0 start l0⟩
  -- derive: any existing state whose closure holds [S^ → start·]
  -- would have matched a goto kernel that contains it
  have hOldI1 : ∀ w sw, acc.states.get? w = some sw →
      mkSI start l0 1 ∈ sw.closure → ∀ c0,
      acc.states.get? 0 = some ⟨[mkSI start l0 0], c0⟩ →
      kernelEq sw.kernel (tryGoto c0 start) = true := by
    intro w sw hw hi1 c0 hc0
    have hsow := hGI.states_ok sw (List.get?_mem hw)
    have hi1k : mkSI start l0 1 ∈ sw.kernel := by
      rcases hsow.1 _ hi1 with h2 | h2
      · exact h2
      · exact absurd rfl h2.2
    exact hGI.i1_kernel w sw c0 hw hi1k hc0
  rw [gotoStep] at h
  by_cases hE : (tryGoto s.closure X).isEmpty = true
  · rw [if_pos hE] at h
    have hout : acc = out := Option.some.inj h
    subst hout
    refine ⟨hGI, fun i s2 hg => hg, fun x hx => hx, fun w hw => hw, ?_⟩
    intro hu hX
    exfalso
    obtain ⟨c0, hc0⟩ := hGI.st0
    obtain ⟨_, hi1⟩ := hst0k hu hX c0 hc0
    rw [List.isEmpty_iff] at hE
    rw [hE] at hi1
    simp at hi1
  · rw [if_neg hE] at h
    rcases hsf : stateFind acc.states (tryGoto s.closure X) with _ | v
    · -- fresh state: append then link
      rw [hsf] at h
      rcases hcl : close (tryGoto s.closure X) with _ | cls
      · rw [hcl] at h; cases h
      · rw [hcl] at h
        have hout : createLink
            { acc with
              states := acc.states ++
                [(⟨tryGoto s.closure X, cls⟩ : LState)],
              pending := acc.pending ++ [acc.states.length] }
            u X acc.states.length = out := Option.some.inj h
        obtain ⟨hc1, hc2, hc3⟩ :=
          hclose (tryGoto s.closure X) cls hcl hKbody hKnd
        obtain ⟨c0, hc0⟩ := hGI.st0
        have hlen0 : 0 < acc.states.length := by
          obtain ⟨hlt, _⟩ := List.get?_eq_some.mp hc0
          exact hlt
        have houtst : out.states = acc.states ++
            [(⟨tryGoto s.closure X, cls⟩ : LState)] := by
          rw [← hout, createLink_states]
        have houtpd : out.pending = acc.pending ++ [acc.states.length] := by
          rw [← hout, createLink_pending]
        have hgetL : (acc.states ++
            [(⟨tryGoto s.closure X, cls⟩ : LState)]).get?
              acc.states.length =
            some (⟨tryGoto s.closure X, cls⟩ : LState) :=
          List.get?_concat_length _ _
        have hi1new : mkSI start l0 1 ∈ tryGoto s.closure X →
            X = start ∧ u = 0 := fun hm =>
          ⟨(hKs (mkSI start l0 1) hm rfl).2.1,
            (hKs (mkSI start l0 1) hm rfl).2.2⟩
        -- whether the (0, start) link exists beforehand
        have hlinkcase : (u = 0 ∧ X = start) →
            linkGet acc.links 0 start = none := by
          rintro ⟨hu, hX⟩
          rcases hw : linkGet acc.links 0 start with _ | w
          · rfl
          · exfalso
            obtain ⟨sw, hwget, hwi1⟩ := hGI.link_i1 w hw
            have hkeq := hOldI1 w sw hwget hwi1 c0 hc0
            obtain ⟨hgoto, _⟩ := hst0k hu hX c0 hc0
            rw [← hgoto] at hkeq
            have := stateFind_none acc.states (tryGoto s.closure X) hsf
              sw (List.get?_mem hwget)
            rw [hkeq] at this
            cases this
        have houtlk : ∀ u2 X2, ¬ (u2 = u ∧ X2 = X) →
            linkGet out.links u2 X2 = linkGet acc.links u2 X2 := by
          intro u2 X2 hne
          rw [← hout]
          exact createLink_get_ne _ u X _ u2 X2 hne
        have houtlkself : linkGet acc.links u X = none →
            linkGet out.links u X = some acc.states.length := by
          intro hn
          rw [← hout]
          exact createLink_get_self _ u X _ hn
        have houtper : ∀ u2 X2 w, linkGet acc.links u2 X2 = some w →
            linkGet out.links u2 X2 = some w := by
          intro u2 X2 w hw
          rw [← hout]
          exact createLink_get_persist _ u X _ u2 X2 w hw
        refine ⟨⟨?_, ?_, ?_, ?_, ?_, ?_, ?_, ?_⟩, ?_, ?_, ?_, ?_⟩
        · rw [houtst]
          exact ⟨c0, get?_append_of_some _ _ 0 _ hc0⟩
        · rw [houtst]
          intro s2 hs2
          rcases List.mem_append.mp hs2 with h2 | h2
          · exact hGI.states_ok s2 h2
          · simp only [List.mem_singleton] at h2
            subst h2
            exact ⟨hc1, hc2, hc3, hKbody, hKnd⟩
        · rw [houtst]
          intro i s2 hg hi0
          rcases get?_append_cases _ _ i s2 hg with h2 | ⟨h2, h3⟩
          · exact hGI.kernels1 i s2 h2 hi0
          · subst h3
            intro it hit
            exact ⟨hKdot it hit, fun hh => (hKs it hit hh).1⟩
        · rw [houtst]
          intro i s2 c02 hg hi1 hc02
          have hc02' : acc.states.get? 0 = some ⟨[mkSI start l0 0], c02⟩ := by
            rcases get?_append_cases _ _ 0 _ hc02 with h4 | ⟨h4, _⟩
            · exact h4
            · omega
          rcases get?_append_cases _ _ i s2 hg with h2 | ⟨h2, h3⟩
          · exact hGI.i1_kernel i s2 c02 h2 hi1 hc02'
          · subst h3
            obtain ⟨hX, hu⟩ := hi1new hi1
            obtain ⟨hkeq, _⟩ := hst0k hu hX c02 hc02'
            rw [hkeq]
            exact kernelEq_refl _
        · -- i1_link
          rw [houtst]
          intro i s2 hg hi1
          rcases get?_append_cases _ _ i s2 hg with h2 | ⟨h2, h3⟩
          · exact houtper 0 start i (hGI.i1_link i s2 h2 hi1)
          · subst h3
            have hi1k : mkSI start l0 1 ∈ tryGoto s.closure X := by
              rcases hc1 _ hi1 with h4 | h4
              · exact h4
              · exact absurd rfl h4.2
            obtain ⟨hX, hu⟩ := hi1new hi1k
            have hnone := hlinkcase ⟨hu, hX⟩
            rw [h2, ← hu, ← hX]
            exact houtlkself (by rw [hu, hX]; exact hnone)
        · -- link_i1
          intro t ht
          by_cases hcase : 0 = u ∧ start = X
          · have hnone := hlinkcase ⟨hcase.1.symm, hcase.2.symm⟩
            have hself := houtlkself (by rw [← hcase.1, ← hcase.2]; exact hnone)
            rw [hcase.1, hcase.2] at ht
            rw [hself] at ht
            have ht2 := Option.some.inj ht
            obtain ⟨_, hi1K⟩ := hst0k hcase.1.symm hcase.2.symm c0 hc0
            refine ⟨⟨tryGoto s.closure X, cls⟩, ?_, hc3 _ hi1K⟩
            rw [houtst, ← ht2]
            exact hgetL
          · rw [houtlk 0 start hcase] at ht
            obtain ⟨s2, hs2g, hs2i⟩ := hGI.link_i1 t ht
            exact ⟨s2, by rw [houtst]; exact get?_append_of_some _ _ t s2 hs2g,
              hs2i⟩
        · -- none_no_i1
          intro hnone s2 hs2
          by_cases hcase : 0 = u ∧ start = X
          · exfalso
            rcases hw : linkGet acc.links u X with _ | w
            · have := houtlkself hw
              rw [hcase.1, hcase.2] at hnone
              rw [this] at hnone
              cases hnone
            · have := houtper u X w hw
              rw [hcase.1, hcase.2] at hnone
              rw [this] at hnone
              cases hnone
          · rw [houtlk 0 start hcase] at hnone
            rw [houtst] at hs2
            rcases List.mem_append.mp hs2 with h2 | h2
            · exact hGI.none_no_i1 hnone s2 h2
            · simp only [List.mem_singleton] at h2
              subst h2
              intro hi1
              have hi1k : mkSI start l0 1 ∈ tryGoto s.closure X := by
                rcases hc1 _ hi1 with h4 | h4
                · exact h4
                · exact absurd rfl h4.2
              obtain ⟨hX, hu⟩ := hi1new hi1k
              exact hcase ⟨hu.symm, hX.symm⟩
        · -- link_tgt
          intro e he
          rw [← hout] at he
          rcases createLink_links_mem _ u X _ e he with h2 | h2
          · exact hGI.link_tgt e h2
          · rw [h2]
            simp only
            omega
        · intro i s2 hg
          rw [houtst]
          exact get?_append_of_some _ _ i s2 hg
        · intro x hx
          rw [houtpd]
          exact List.mem_append.mpr (Or.inl hx)
        · intro w hw
          exact houtper 0 start w hw
        · intro hu hX
          rcases hw : linkGet acc.links u X with _ | w
          · have h5 := houtlkself hw
            rw [hu, hX] at h5
            rw [h5]
            simp
          · have h5 := houtper u X w hw
            rw [hu, hX] at h5
            rw [h5]
            simp
    · -- existing state: just link
      rw [hsf] at h
      have hout : createLink acc u X v = out := Option.some.inj h
      obtain ⟨c0, hc0⟩ := hGI.st0
      obtain ⟨sv, hvget, hveq⟩ := stateFind_some acc.states _ v hsf
      have houtst : out.states = acc.states := by
        rw [← hout, createLink_states]
      have houtpd : out.pending = acc.pending := by
        rw [← hout, createLink_pending]
      have houtlk : ∀ u2 X2, ¬ (u2 = u ∧ X2 = X) →
          linkGet out.links u2 X2 = linkGet acc.links u2 X2 := by
        intro u2 X2 hne
        rw [← hout]
        exact createLink_get_ne _ u X _ u2 X2 hne
      have houtlkself : linkGet acc.links u X = none →
          linkGet out.links u X = some v := by
        intro hn
        rw [← hout]
        exact createLink_get_self _ u X _ hn
      have houtper : ∀ u2 X2 w, linkGet acc.links u2 X2 = some w →
          linkGet out.links u2 X2 = some w := by
        intro u2 X2 w hw
        rw [← hout]
        exact createLink_get_persist _ u X _ u2 X2 w hw
      have hvne0 : v ≠ 0 := by
        intro hv0
        subst hv0
        have hsveq : sv = ⟨[mkSI start l0 0], c0⟩ := by
          rw [hvget] at hc0
          exact Option.some.inj hc0
        rcases hne : tryGoto s.closure X with _ | ⟨it2, tl⟩
        · rw [hne] at hE
          simp at hE
        · have hit2 : it2 ∈ tryGoto s.closure X := by
            rw [hne]
            simp
          have := (kernelEq_iff _ _ hveq).2 it2 (by rw [hne]; simp)
          rw [hsveq] at this
          simp only [List.mem_singleton] at this
          have hd := hKdot it2 hit2
          rw [this] at hd
          simp [mkSI] at hd
      refine ⟨⟨?_, ?_, ?_, ?_, ?_, ?_, ?_, ?_⟩, ?_, ?_, ?_, ?_⟩
      · rw [houtst]
        exact ⟨c0, hc0⟩
      · rw [houtst]
        exact hGI.states_ok
      · rw [houtst]
        exact hGI.kernels1
      · rw [houtst]
        exact hGI.i1_kernel
      · rw [houtst]
        intro i s2 hg hi1
        exact houtper 0 start i (hGI.i1_link i s2 hg hi1)
      · intro t ht
        rw [houtst]
        by_cases hcase : 0 = u ∧ start = X
        · rcases hw : linkGet acc.links u X with _ | w
          · rw [hcase.1, hcase.2] at ht
            rw [houtlkself hw] at ht
            have ht2 := Option.some.inj ht
            subst ht2
            obtain ⟨_, hi1K⟩ := hst0k hcase.1.symm hcase.2.symm c0 hc0
            have hi1v : mkSI start l0 1 ∈ sv.kernel :=
              (kernelEq_iff _ _ hveq).2 _ hi1K
            have hsov := hGI.states_ok sv (List.get?_mem hvget)
            exact ⟨sv, hvget, hsov.2.2.1 _ hi1v⟩
          · rw [hcase.1, hcase.2] at ht
            rw [houtper u X w hw] at ht
            have ht2 := Option.some.inj ht
            rw [← ht2]
            rw [← hcase.1, ← hcase.2] at hw
            exact hGI.link_i1 w hw
        · rw [houtlk 0 start hcase] at ht
          exact hGI.link_i1 t ht
      · intro hnone s2 hs2
        by_cases hcase : 0 = u ∧ start = X
        · exfalso
          rcases hw : linkGet acc.links u X with _ | w
          · have := houtlkself hw
            rw [hcase.1, hcase.2] at hnone
            rw [this] at hnone
            cases hnone
          · have := houtper u X w hw
            rw [hcase.1, hcase.2] at hnone
            rw [this] at hnone
            cases hnone
        · rw [houtlk 0 start hcase] at hnone
          rw [houtst] at hs2
          exact hGI.none_no_i1 hnone s2 hs2
      · intro e he
        rw [← hout] at he
        rcases createLink_links_mem _ u X _ e he with h2 | h2
        · exact hGI.link_tgt e h2
        · rw [h2]
          simp only
          exact hvne0
      · intro i s2 hg
        rw [houtst]
        exact hg
      · intro x hx
        rw [houtpd]
        exact hx
      · intro w hw
        exact houtper 0 start w hw
      · intro hu hX
        rcases hw : linkGet acc.links u X with _ | w
        · have h5 := houtlkself hw
          rw [hu, hX] at h5
          rw [h5]
          simp
        · have h5 := houtper u X w hw
          rw [hu, hX] at h5
          rw [h5]
          simp

/-- The `__update_state` loop over all expecting symbols preserves the
invariant; processing state 0 with `start` among the symbols
establishes `link[0][start]`. -/
theorem foldGoto_inv (close : List LItem → Option (List LItem))
    (hclose : CloseSpec close) (start : String) (l0 : Option String)
    (u : Nat) (s : LState) :
    ∀ (Xs : List String) (acc out : BuildSt),
      List.foldlM (gotoStep close u s) acc Xs = some out →
      GInv start l0 acc → acc.states.get? u = some s →
      GInv start l0 out ∧
      (∀ i s2, acc.states.get? i = some s2 → out.states.get? i = some s2) ∧
      (∀ x ∈ acc.pending, x ∈ out.pending) ∧
      (∀ w, linkGet acc.links 0 start = some w →
        linkGet out.links 0 start = some w) ∧
      (u = 0 → start ∈ Xs → linkGet out.links 0 start ≠ none) := by
  intro Xs
  induction Xs with
  | nil =>
    intro acc out h hGI hsget
    have hae : acc = out := by
      simp [List.foldlM] at h
      exact h
    subst hae
    exact ⟨hGI, fun i s2 hg => hg, fun x hx => hx, fun w hw => hw,
      fun _ hs => absurd hs (by simp)⟩
  | cons X tl ih =>
    intro acc out h hGI hsget
    simp only [List.foldlM_cons] at h
    rcases hb : gotoStep close u s acc X with _ | mid
    · rw [hb] at h; simp at h
    · rw [hb] at h
      obtain ⟨g1, g2, g3, g4, g5⟩ :=
        gotoStep_inv close hclose start l0 u s acc X mid hGI hsget hb
      obtain ⟨f1, f2, f3, f4, f5⟩ :=
        ih mid out (by simpa using h) g1 (g2 u s hsget)
      refine ⟨f1, fun i s2 hg => f2 i s2 (g2 i s2 hg),
        fun x hx => f3 x (g3 x hx), fun w hw => f4 w (g4 w hw), ?_⟩
      intro hu hmem
      rcases List.mem_cons.mp hmem with rfl | hmem2
      · rcases hww : linkGet mid.links 0 start with _ | w
        · exact absurd hww (g5 hu rfl)
        · rw [f4 w hww]
          simp
      · exact f5 hu hmem2

/-- `__update_state` preserves the invariant, only appends to pending,
keeps `link[0][start]` once set, and sets it when state 0 is
processed. -/
theorem updateState_inv (close : List LItem → Option (List LItem))
    (hclose : CloseSpec close) (start : String) (l0 : Option String)
    (st : BuildSt) (u : Nat) (out : BuildSt)
    (h : updateState close st u = some out) (hGI : GInv start l0 st) :
    GInv start l0 out ∧
    (∀ x ∈ st.pending, x ∈ out.pending) ∧
    (∀ w, linkGet st.links 0 start = some w →
      linkGet out.links 0 start = some w) ∧
    (u = 0 → linkGet out.links 0 start ≠ none) := by
  rw [updateState] at h
  rcases hs : st.states.get? u with _ | s
  · simp only [hs] at h; cases h
  · simp only [hs] at h
    obtain ⟨f1, _, f3, f4, f5⟩ :=
      foldGoto_inv close hclose start l0 u s (findExpecting s.closure)
        st out h hGI hs
    refine ⟨f1, f3, f4, ?_⟩
    intro hu
    apply f5 hu
    obtain ⟨c0, hc0⟩ := hGI.st0
    have hseq : s = ⟨[mkSI start l0 0], c0⟩ := by
      rw [hu] at hs
      rw [hs] at hc0
      exact Option.some.inj hc0
    have hi0c : mkSI start l0 0 ∈ s.closure := by
      apply (hGI.states_ok s (List.get?_mem hs)).2.2.1
      rw [hseq]
      simp
    exact (mem_findExpecting s.closure start).mpr
      ⟨mkSI start l0 0, hi0c, itemNext_mkSI0 start l0⟩

/-- The BFS loop: on termination, the invariant holds, the pending
queue is empty, and consequently `link[0][start]` is set. -/
theorem bfsLoop_inv (close : List LItem → Option (List LItem))
    (hclose : CloseSpec close) (start : String) (l0 : Option String) :
    ∀ (fuel : Nat) (st out : BuildSt), bfsLoop close fuel st = some out →
      GInv start l0 st →
      (linkGet st.links 0 start = none → 0 ∈ st.pending) →
      GInv start l0 out ∧ out.pending = [] ∧
      (linkGet out.links 0 start = none → 0 ∈ out.pending) := by
  intro fuel
  induction fuel with
  | zero => intro st out h _ _; simp [bfsLoop] at h
  | succ n ih =>
    intro st out h hGI hpend
    rw [bfsLoop] at h
    rcases hp : st.pending with _ | ⟨u, rest⟩
    · simp only [hp] at h
      have hse : st = out := Option.some.inj h
      subst hse
      exact ⟨hGI, hp, fun hn => absurd (hpend hn) (by rw [hp]; simp)⟩
    · simp only [hp] at h
      rcases hup : updateState close { st with pending := rest } u
          with _ | st2
      · rw [hup] at h; cases h
      · rw [hup] at h
        have hGI2 : GInv start l0 { st with pending := rest } :=
          ⟨hGI.st0, hGI.states_ok, hGI.kernels1, hGI.i1_kernel,
            hGI.i1_link, hGI.link_i1, hGI.none_no_i1, hGI.link_tgt⟩
        obtain ⟨u1, u2, u3, u4⟩ :=
          updateState_inv close hclose start l0 _ u st2 hup hGI2
        apply ih st2 out h u1
        intro hn2
        by_cases hu : u = 0
        · exact absurd hn2 (u4 hu)
        · have hn1 : linkGet st.links 0 start = none := by
            rcases hw : linkGet st.links 0 start with _ | w
            · rfl
            · exact absurd (u3 w hw) (by rw [hn2]; simp)
          have h0p := hpend hn1
          rw [hp] at h0p
          rcases List.mem_cons.mp h0p with h2 | h2
          · exact absurd h2.symm hu
          · exact u2 0 h2

/-- The seeded one-state machine satisfies the invariant. -/
theorem init_GInv (close : List LItem → Option (List LItem))
    (hclose : CloseSpec close) (start : String) (l0 : Option String)
    (cls : List LItem) (hcl : close [mkSI start l0 0] = some cls)
    (hSne : start ≠ "S^") :
    GInv start l0
      { states := [(⟨[mkSI start l0 0], cls⟩ : LState)],
        links := [], pending := [0] } := by
  have hbody : ∀ it ∈ [mkSI start l0 0], "S^" ∉ it.body := by
    intro it hit
    simp only [List.mem_singleton] at hit
    subst hit
    simp only [mkSI, List.mem_singleton]
    exact fun hh => hSne hh.symm
  have hnd : ([mkSI start l0 0] : List LItem).Nodup := by simp
  obtain ⟨hc1, hc2, hc3⟩ := hclose _ cls hcl hbody hnd
  have hnoi1 : mkSI start l0 1 ∉ cls := by
    intro hi1
    rcases hc1 _ hi1 with h2 | h2
    · simp only [List.mem_singleton] at h2
      simp [mkSI] at h2
    · exact h2.2 rfl
  refine ⟨⟨cls, rfl⟩, ?_, ?_, ?_, ?_, ?_, ?_, ?_⟩
  · intro s hs
    simp only [List.mem_singleton] at hs
    subst hs
    exact ⟨hc1, hc2, hc3, hbody, hnd⟩
  · intro i s hg hi0
    obtain ⟨hlt, _⟩ := List.get?_eq_some.mp hg
    simp only [List.length_singleton] at hlt
    omega
  · intro i s c02 hg hi1 _
    obtain ⟨hlt, _⟩ := List.get?_eq_some.mp hg
    simp only [List.length_singleton] at hlt
    have hi : i = 0 := by omega
    subst hi
    have hseq : s = ⟨[mkSI start l0 0], cls⟩ := by
      simpa using hg.symm
    rw [hseq] at hi1
    simp only [List.mem_singleton] at hi1
    simp [mkSI] at hi1
  · intro i s hg hi1
    exfalso
    obtain ⟨hlt, _⟩ := List.get?_eq_some.mp hg
    simp only [List.length_singleton] at hlt
    have hi : i = 0 := by omega
    subst hi
    have hseq : s = ⟨[mkSI start l0 0], cls⟩ := by
      simpa using hg.symm
    rw [hseq] at hi1
    exact hnoi1 hi1
  · intro t ht
    simp [linkGet] at ht
  · intro _ s hs hi1
    simp only [List.mem_singleton] at hs
    subst hs
    exact hnoi1 hi1
  · intro e he
    simp at he

theorem filter_flatMap {α β : Type} (l : List α) (f : α → List β)
    (p : β → Bool) :
    (l.flatMap f).filter p = l.flatMap (fun a => (f a).filter p) := by
  induction l with
  | nil => simp
  | cons a tl ih => simp [List.flatMap_cons, List.filter_append, ih]

theorem flatMap_eq_nil_all {α β : Type} (l : List α) (f : α → List β)
    (h : ∀ a ∈ l, f a = []) : l.flatMap f = [] := by
  induction l with
  | nil => simp
  | cons a tl ih =>
    rw [List.flatMap_cons, h a (List.mem_cons_self _ _),
      ih (fun a2 h2 => h a2 (List.mem_cons_of_mem _ h2))]
    rfl

theorem range_flatMap_single {β : Type} (f : Nat → List β) (x : β) :
    ∀ (n t : Nat), t < n → f t = [x] → (∀ u, u ≠ t → f u = []) →
      (List.range n).flatMap f = [x] := by
  intro n
  induction n with
  | zero => intro t ht _ _; omega
  | succ m ih =>
    intro t ht hft helse
    rw [List.range_succ, List.flatMap_append]
    by_cases htm : t = m
    · subst htm
      rw [flatMap_eq_nil_all (List.range t) f (fun u hu =>
        helse u (by have := List.mem_range.mp hu; omega))]
      simp [hft]
    · have ht2 : t < m := by omega
      rw [ih t ht2 hft helse]
      simp [helse m (fun h => htm h.symm)]

theorem tableEntry_i1 (links : List (Nat × String × Nat)) (u : Nat)
    (start : String) (l0 : Option String) :
    tableEntry links u (mkSI start l0 1) =
      some (u, l0.getD "", TAct.accept) := by
  rw [tableEntry]
  rw [if_pos (by simp [itemSatisfied, mkSI]), if_pos (by simp [mkSI]),
    if_pos (by simp [mkSI])]
  rfl

/-- Any table entry an item other than `[S^ → start·]` emits is not an
`Accept`, provided all `S^` items are among the two start items. -/
theorem tableEntry_not_accept (links : List (Nat × String × Nat))
    (u : Nat) (start : String) (l0 : Option String) (rp : LItem)
    (hchar : rp.head = "S^" → rp = mkSI start l0 0 ∨ rp = mkSI start l0 1)
    (hne : rp ≠ mkSI start l0 1) (e : Nat × String × TAct)
    (h : tableEntry links u rp = some e) : ¬ e.2.2 = TAct.accept := by
  rw [tableEntry] at h
  by_cases hsat : itemSatisfied rp = true
  · rw [if_pos hsat] at h
    by_cases hh : rp.head = "S^"
    · exfalso
      rcases hchar hh with h2 | h2
      · rw [h2] at hsat
        simp [itemSatisfied, mkSI] at hsat
      · exact hne h2
    · rw [if_neg hh] at h
      have he := Option.some.inj h
      rw [← he]
      simp
  · rw [if_neg hsat] at h
    rcases hn : itemNext rp with _ | nx
    · simp [hn] at h
    · simp only [hn] at h
      rcases hl : linkGet links u nx with _ | t
      · rw [hl] at h; cases h
      · rw [hl] at h
        have he := Option.some.inj h
        rw [← he]
        simp

/-- The accept entries a single state's closure contributes. -/
theorem closure_accepts (links : List (Nat × String × Nat)) (u : Nat)
    (start : String) (l0 : Option String) :
    ∀ (l : List LItem),
      (∀ it ∈ l, it.head = "S^" →
        it = mkSI start l0 0 ∨ it = mkSI start l0 1) →
      l.Nodup →
      (l.filterMap (tableEntry links u)).filter
          (fun e => e.2.2 == TAct.accept) =
        if mkSI start l0 1 ∈ l then [(u, l0.getD "", TAct.accept)]
        else [] := by
  intro l
  induction l with
  | nil => intro _ _; simp
  | cons it tl ih =>
    intro hchar hnd
    have hih := ih (fun it2 h2 => hchar it2 (List.mem_cons_of_mem _ h2))
      hnd.of_cons
    by_cases hit : it = mkSI start l0 1
    · subst hit
      rw [List.filterMap_cons, tableEntry_i1]
      have hnotl : mkSI start l0 1 ∉ tl := (List.nodup_cons.mp hnd).1
      rw [List.filter_cons]
      rw [if_pos (by simp)]
      rw [hih, if_neg hnotl, if_pos (List.mem_cons_self _ _)]
    · rw [List.filterMap_cons]
      have hmemiff : mkSI start l0 1 ∈ it :: tl ↔ mkSI start l0 1 ∈ tl := by
        simp only [List.mem_cons]
        constructor
        · rintro (h2 | h2)
          · exact absurd h2.symm hit
          · exact h2
        · exact Or.inr
      have hsame : (if mkSI start l0 1 ∈ it :: tl then
            [(u, l0.getD "", TAct.accept)] else []) =
          (if mkSI start l0 1 ∈ tl then
            [(u, l0.getD "", TAct.accept)] else []) := by
        by_cases hm : mkSI start l0 1 ∈ tl
        · rw [if_pos hm, if_pos (hmemiff.mpr hm)]
        · rw [if_neg hm, if_neg (fun hc => hm (hmemiff.mp hc))]
      rw [hsame]
      rcases he : tableEntry links u it with _ | e
      · exact hih
      · rw [List.filter_cons]
        have hnacc := tableEntry_not_accept links u start l0 it
          (hchar it (List.mem_cons_self _ _)) hit e he
        rw [if_neg (by simpa using hnacc)]
        exact hih

/-- The core Accept count: if all `S^` closure items are among the two
start items, closures are duplicate-free, and state `t` is the only one
whose closure holds `[S^ → start·]`, the table has exactly one `Accept`
write, at `(t, lookahead)`. -/
theorem accepts_of_uniq (start : String) (l0 : Option String)
    (bst : BuildSt) (t : Nat)
    (hchar : ∀ i s2, bst.states.get? i = some s2 → ∀ it ∈ s2.closure,
      it.head = "S^" → it = mkSI start l0 0 ∨ it = mkSI start l0 1)
    (hnd : ∀ s2 ∈ bst.states, s2.closure.Nodup)
    (hex : ∃ s2, bst.states.get? t = some s2 ∧ mkSI start l0 1 ∈ s2.closure)
    (huniq : ∀ i s2, bst.states.get? i = some s2 → i ≠ t →
      mkSI start l0 1 ∉ s2.closure) :
    acceptsOf (buildTable bst) = [(t, l0.getD "", TAct.accept)] := by
  obtain ⟨st2, hgt, hi1t⟩ := hex
  rw [acceptsOf, buildTable, filter_flatMap]
  apply range_flatMap_single
  · obtain ⟨hlt, _⟩ := List.get?_eq_some.mp hgt
    exact hlt
  · simp only [hgt]
    rw [closure_accepts bst.links t start l0 st2.closure
      (hchar t st2 hgt) (hnd st2 (List.get?_mem hgt))]
    rw [if_pos hi1t]
  · intro u hu
    rcases hgu : bst.states.get? u with _ | s2
    · simp [hgu]
    · simp only [hgu]
      rw [closure_accepts bst.links u start l0 s2.closure
        (hchar u s2 hgu) (hnd s2 (List.get?_mem hgu))]
      rw [if_neg (huniq u s2 hgu hu)]

/-- From the invariant: exactly one `Accept` write in the whole table,
sitting at `(link[0][start], lookahead)`. -/
theorem GInv_accepts (start : String) (l0 : Option String)
    (bst : BuildSt) (hGI : GInv start l0 bst)
    (hlk : linkGet bst.links 0 start ≠ none) :
    ∃ t, linkGet bst.links 0 start = some t ∧
      acceptsOf (buildTable bst) = [(t, l0.getD "", TAct.accept)] := by
  rcases hl : linkGet bst.links 0 start with _ | t
  · exact absurd hl hlk
  refine ⟨t, rfl, ?_⟩
  apply accepts_of_uniq start l0 bst t
  · intro i s2 hg it hit hh
    have hso := hGI.states_ok s2 (List.get?_mem hg)
    have hk : it ∈ s2.kernel := by
      rcases hso.1 it hit with h2 | h2
      · exact h2
      · exact absurd hh h2.2
    by_cases hi : i = 0
    · subst hi
      obtain ⟨c0, hc0⟩ := hGI.st0
      have hseq : s2 = ⟨[mkSI start l0 0], c0⟩ := by
        rw [hg] at hc0
        exact Option.some.inj hc0
      rw [hseq] at hk
      simp only [List.mem_singleton] at hk
      exact Or.inl hk
    · exact Or.inr ((hGI.kernels1 i s2 hg hi it hk).2 hh)
  · exact fun s2 hs2 => (hGI.states_ok s2 hs2).2.1
  · exact hGI.link_i1 t hl
  · intro i s2 hg hne hi1
    have h2 := hGI.i1_link i s2 hg hi1
    rw [hl] at h2
    exact hne (Option.some.inj h2).symm

theorem augment_start_ne (g : NGrammar) (start : String)
    (haug : rulesOf g "S^" = [⟨"S^", [start]⟩])
    (hg2 : ∀ p ∈ g.prods, "S^" ∉ p.body) :
    (⟨"S^", [start]⟩ : NProd) ∈ g.prods ∧ start ≠ "S^" := by
  have hr0 : (⟨"S^", [start]⟩ : NProd) ∈ g.prods := by
    have h2 : (⟨"S^", [start]⟩ : NProd) ∈ rulesOf g "S^" := by
      rw [haug]; simp
    exact (mem_rulesOf g "S^" _ h2).1
  refine ⟨hr0, ?_⟩
  intro he
  exact (hg2 _ hr0) (by simp [he])

/-- `LR1Analyzer.__build_states` establishes the invariant with the
`(0, start)` transition set. -/
theorem lr1Build_GInv (g : NGrammar) (F : FirstSt) (fuel : Nat)
    (start : String) (bst : BuildSt)
    (haug : rulesOf g "S^" = [⟨"S^", [start]⟩])
    (hg2 : ∀ p ∈ g.prods, "S^" ∉ p.body)
    (h : lr1BuildStates g F fuel = some bst) :
    GInv start (some "$") bst ∧ linkGet bst.links 0 start ≠ none := by
  obtain ⟨hr0, hSne⟩ := augment_start_ne g start haug hg2
  rw [lr1BuildStates] at h
  simp only [haug] at h
  rcases hcl : lr1Closure g F fuel
      [LItem.mk "S^" [start] 0 (some "$")] with _ | cls
  · simp only [hcl] at h; cases h
  · simp only [hcl] at h
    have hclose := lr1Closure_closeSpec g F fuel hg2
    have hinit := init_GInv (lr1Closure g F fuel) hclose start (some "$")
      cls hcl hSne
    obtain ⟨o1, o2, o3⟩ := bfsLoop_inv (lr1Closure g F fuel) hclose start
      (some "$") fuel _ bst h hinit (fun _ => by simp)
    refine ⟨o1, ?_⟩
    intro hn
    have h4 := o3 hn
    rw [o2] at h4
    simp at h4

/-- `__LR0_build_states` establishes the invariant (no lookaheads) with
the `(0, start)` transition set. -/
theorem lr0Build_GInv (g : NGrammar) (fuel : Nat)
    (start : String) (bst : BuildSt)
    (haug : rulesOf g "S^" = [⟨"S^", [start]⟩])
    (hg2 : ∀ p ∈ g.prods, "S^" ∉ p.body)
    (h : lr0BuildStates g fuel = some bst) :
    GInv start none bst ∧ linkGet bst.links 0 start ≠ none := by
  obtain ⟨hr0, hSne⟩ := augment_start_ne g start haug hg2
  rw [lr0BuildStates] at h
  simp only [haug] at h
  rcases hcl : lr0Closure g fuel
      [LItem.mk "S^" [start] 0 none] with _ | cls
  · simp only [hcl] at h; cases h
  · simp only [hcl] at h
    have hclose := lr0Closure_closeSpec g fuel hg2
    have hinit := init_GInv (lr0Closure g fuel) hclose start none
      cls hcl hSne
    obtain ⟨o1, o2, o3⟩ := bfsLoop_inv (lr0Closure g fuel) hclose start
      none fuel _ bst h hinit (fun _ => by simp)
    refine ⟨o1, ?_⟩
    intro hn
    have h4 := o3 hn
    rw [o2] at h4
    simp at h4

theorem lookAddC_fst (L : List (List (List String))) (u j : Nat)
    (sym : String) : (lookAddC L u j sym).1 = lookAdd L u j sym := by
  rw [lookAddC, lookAdd]
  by_cases hs : sym ∈ lookGet L u j
  · rw [if_pos hs, if_pos hs]
  · rw [if_neg hs, if_neg hs]

theorem lookAddC_zero (L : List (List (List String))) (u j : Nat)
    (sym : String) (h : (lookAddC L u j sym).2 = 0) :
    sym ∈ lookGet L u j ∧ (lookAddC L u j sym).1 = L := by
  rw [lookAddC] at h ⊢
  by_cases hs : sym ∈ lookGet L u j
  · rw [if_pos hs]
    exact ⟨hs, rfl⟩
  · rw [if_neg hs] at h
    cases h

theorem lookAdd_row_ne (L : List (List (List String))) (u j : Nat)
    (sym : String) (u2 : Nat) (h : u2 ≠ u) :
    (lookAdd L u j sym).get? u2 = L.get? u2 := by
  rw [lookAdd]
  by_cases hs : sym ∈ lookGet L u j
  · rw [if_pos hs]
  · rw [if_neg hs]
    simp only [List.get?_eq_getElem?]
    rw [List.getElem?_set_ne (fun he => h he.symm)]

theorem lookAdd_get_ne (L : List (List (List String))) (u j : Nat)
    (sym : String) (u2 j2 : Nat) (h : ¬ (u2 = u ∧ j2 = j)) :
    lookGet (lookAdd L u j sym) u2 j2 = lookGet L u2 j2 := by
  by_cases hu : u2 = u
  · subst hu
    have hj : j2 ≠ j := fun hj2 => h ⟨rfl, hj2⟩
    rw [lookAdd]
    by_cases hs : sym ∈ lookGet L u2 j
    · rw [if_pos hs]
    · rw [if_neg hs]
      by_cases hlen : u2 < L.length
      · simp only [lookGet, List.get?_eq_getElem?]
        rw [List.getElem?_set_eq_of_lt _ hlen]
        simp only [Option.getD_some]
        rw [List.getElem?_set_ne (fun he => hj he.symm)]
      · rw [List.set_eq_of_length_le (by omega)]
  · rw [lookGet, lookGet, lookAdd_row_ne L u j sym u2 hu]

theorem lookAdd_sub (L : List (List (List String))) (u j : Nat)
    (sym : String) :
    ∀ x ∈ lookGet (lookAdd L u j sym) u j, x ∈ lookGet L u j ∨ x = sym := by
  intro x hx
  rw [lookAdd] at hx
  by_cases hs : sym ∈ lookGet L u j
  · rw [if_pos hs] at hx
    exact Or.inl hx
  · rw [if_neg hs] at hx
    by_cases hlen : u < L.length
    · simp only [lookGet, List.get?_eq_getElem?] at hx
      rw [List.getElem?_set_eq_of_lt _ hlen] at hx
      simp only [Option.getD_some] at hx
      by_cases hj : j < ((L.get? u).getD []).length
      · rw [List.getElem?_set_eq_of_lt _
          (by simpa [List.get?_eq_getElem?] using hj)] at hx
        simp only [Option.getD_some] at hx
        rcases List.mem_append.mp hx with h2 | h2
        · exact Or.inl (by simpa [lookGet, List.get?_eq_getElem?] using h2)
        · exact Or.inr (by simpa using h2)
      · rw [List.set_eq_of_length_le
          (by simp only [List.get?_eq_getElem?] at hj; omega)] at hx
        exact Or.inl (by simpa [lookGet, List.get?_eq_getElem?] using hx)
    · rw [List.set_eq_of_length_le (by omega)] at hx
      exact Or.inl hx

theorem lookAdd_mono (L : List (List (List String))) (u j : Nat)
    (sym : String) (u2 j2 : Nat) :
    ∀ x ∈ lookGet L u2 j2, x ∈ lookGet (lookAdd L u j sym) u2 j2 := by
  intro x hx
  by_cases hc : u2 = u ∧ j2 = j
  · obtain ⟨rfl, rfl⟩ := hc
    rw [lookAdd]
    by_cases hs : sym ∈ lookGet L u2 j2
    · rwa [if_pos hs]
    · rw [if_neg hs]
      by_cases hlen : u2 < L.length
      · simp only [lookGet, List.get?_eq_getElem?]
        rw [List.getElem?_set_eq_of_lt _ hlen]
        simp only [Option.getD_some]
        by_cases hj : j2 < ((L.get? u2).getD []).length
        · rw [List.getElem?_set_eq_of_lt _
            (by simpa [List.get?_eq_getElem?] using hj)]
          simp only [Option.getD_some]
          refine List.mem_append.mpr (Or.inl ?_)
          simpa [lookGet, List.get?_eq_getElem?] using hx
        · rw [List.set_eq_of_length_le
            (by simp only [List.get?_eq_getElem?] at hj; omega)]
          simpa [lookGet, List.get?_eq_getElem?] using hx
      · rw [List.set_eq_of_length_le (by omega)]
        exact hx
  · rw [lookAdd_get_ne L u j sym u2 j2 hc]
    exact hx

theorem lookAdd_mem_self (L : List (List (List String))) (u j : Nat)
    (sym : String) (hu : u < L.length)
    (hj : j < ((L.get? u).getD []).length) :
    sym ∈ lookGet (lookAdd L u j sym) u j := by
  rw [lookAdd]
  by_cases hs : sym ∈ lookGet L u j
  · rwa [if_pos hs]
  · rw [if_neg hs]
    simp only [lookGet, List.get?_eq_getElem?]
    rw [List.getElem?_set_eq_of_lt _ hu]
    simp only [Option.getD_some]
    rw [List.getElem?_set_eq_of_lt _
      (by simpa [List.get?_eq_getElem?] using hj)]
    simp

theorem lookAdd_nodup (L : List (List (List String))) (u j : Nat)
    (sym : String) (h : ∀ u2 j2, (lookGet L u2 j2).Nodup) :
    ∀ u2 j2, (lookGet (lookAdd L u j sym) u2 j2).Nodup := by
  intro u2 j2
  by_cases hc : u2 = u ∧ j2 = j
  · obtain ⟨rfl, rfl⟩ := hc
    rw [lookAdd]
    by_cases hs : sym ∈ lookGet L u2 j2
    · rw [if_pos hs]
      exact h u2 j2
    · rw [if_neg hs]
      by_cases hlen : u2 < L.length
      · simp only [lookGet, List.get?_eq_getElem?]
        rw [List.getElem?_set_eq_of_lt _ hlen]
        simp only [Option.getD_some]
        by_cases hj : j2 < ((L.get? u2).getD []).length
        · rw [List.getElem?_set_eq_of_lt _
            (by simpa [List.get?_eq_getElem?] using hj)]
          simp only [Option.getD_some]
          rw [← List.concat_eq_append]
          refine List.Nodup.concat ?_ ?_
          · simpa [lookGet, List.get?_eq_getElem?] using hs
          · have h2 := h u2 j2
            simpa [lookGet, List.get?_eq_getElem?] using h2
        · rw [List.set_eq_of_length_le
            (by simp only [List.get?_eq_getElem?] at hj; omega)]
          have h2 := h u2 j2
          simpa [lookGet, List.get?_eq_getElem?] using h2
      · rw [List.set_eq_of_length_le (by omega)]
        have h2 := h u2 j2
        simpa [lookGet, List.get?_eq_getElem?] using h2
  · rw [lookAdd_get_ne L u j sym u2 j2 hc]
    exact h u2 j2

theorem lookAdd_length (L : List (List (List String))) (u j : Nat)
    (sym : String) : (lookAdd L u j sym).length = L.length := by
  rw [lookAdd]
  by_cases hs : sym ∈ lookGet L u j
  · rw [if_pos hs]
  · rw [if_neg hs]
    simp

theorem lookAdd_row_length (L : List (List (List String))) (u j : Nat)
    (sym : String) (u2 : Nat) :
    (((lookAdd L u j sym).get? u2).getD []).length =
      ((L.get? u2).getD []).length := by
  by_cases hu : u2 = u
  · subst hu
    rw [lookAdd]
    by_cases hs : sym ∈ lookGet L u2 j
    · rw [if_pos hs]
    · rw [if_neg hs]
      by_cases hlen : u2 < L.length
      · simp only [List.get?_eq_getElem?]
        rw [List.getElem?_set_eq_of_lt _ hlen]
        simp
      · rw [List.set_eq_of_length_le (by omega)]
  · rw [lookAdd_row_ne L u j sym u2 hu]

theorem findIdx_beq_get (l : List LItem) (a : LItem) (j : Nat)
    (h : l.findIdx? (fun x => x == a) = some j) : l.get? j = some a := by
  rw [List.findIdx?_eq_some_iff_getElem] at h
  obtain ⟨hlt, h2⟩ := h
  have h3 : l[j] = a := by simpa using h2.1
  rw [List.get?_eq_getElem?, List.getElem?_eq_getElem hlt, h3]

/-- The effect of `_LALR_propagate_state`'s scan on one closure item:
routes grow by at most the `(u, key)`-sourced route to a real successor
kernel position (which is `S^`-headed only if the scanned kernel item
is), and lookahead sets grow only at positions whose kernel item is not
`S^`-headed. -/
theorem propagateOne_spec (bst0 : BuildSt) (u key : Nat) (k : LItem)
    (acc ps2 : PropSt) (rp : LItem)
    (hrp : rp = { k with la := some "#" } ∨ rp.head ≠ "S^")
    (h : propagateOne bst0 u key acc rp = some ps2) :
    (∀ r ∈ acc.routes, r ∈ ps2.routes) ∧
    (∀ r ∈ ps2.routes, r ∈ acc.routes ∨
      (r.1 = (u, key) ∧ ∃ s0 it2, bst0.states.get? r.2.1 = some s0 ∧
        s0.kernel.get? r.2.2 = some it2 ∧
        (it2.head = "S^" → k.head = "S^"))) ∧
    (∀ u2 j2 x, x ∈ lookGet ps2.look u2 j2 →
      x ∈ lookGet acc.look u2 j2 ∨ x = "$" ∨
      (∃ s0 it2, bst0.states.get? u2 = some s0 ∧
        s0.kernel.get? j2 = some it2 ∧ it2.head ≠ "S^")) ∧
    (∀ u2 j2 x, x ∈ lookGet acc.look u2 j2 → x ∈ lookGet ps2.look u2 j2) ∧
    ((∀ u2 j2, (lookGet acc.look u2 j2).Nodup) →
      ∀ u2 j2, (lookGet ps2.look u2 j2).Nodup) ∧
    ps2.look.length = acc.look.length ∧
    (∀ u2, ((ps2.look.get? u2).getD []).length =
      ((acc.look.get? u2).getD []).length) := by
  rw [propagateOne] at h
  by_cases hsat : itemSatisfied rp = true
  · rw [if_pos hsat] at h
    have he : acc = ps2 := Option.some.inj h
    subst he
    exact ⟨fun r hr => hr, fun r hr => Or.inl hr,
      fun u2 j2 x hx => Or.inl hx, fun u2 j2 x hx => hx,
      fun hn => hn, rfl, fun _ => rfl⟩
  · rw [if_neg hsat] at h
    rcases hn : itemNext rp with _ | ex
    · simp [hn] at h
    · simp only [hn] at h
      rcases hl : linkGet bst0.links u ex with _ | ns
      · simp only [hl] at h
        exact Option.noConfusion h
      · simp only [hl] at h
        rcases ha : itemAdvance rp with _ | adv0
        · simp only [ha] at h
          exact Option.noConfusion h
        · simp only [ha] at h
          rcases hg : bst0.states.get? ns with _ | nsSt
          · simp only [hg] at h
            exact Option.noConfusion h
          · simp only [hg] at h
            rcases hf : nsSt.kernel.findIdx?
                (fun nk => nk == { adv0 with la := none }) with _ | j
            · simp only [hf] at h
              exact Option.noConfusion h
            · simp only [hf] at h
              rcases hla : rp.la with _ | l
              · simp only [hla] at h
                exact Option.noConfusion h
              · simp only [hla] at h
                have hget := findIdx_beq_get nsSt.kernel _ j hf
                have hadvhead : ({ adv0 with la := none } : LItem).head =
                    rp.head := by
                  obtain ⟨_, he⟩ := (itemAdvance_eq_some rp adv0).mp ha
                  rw [he]
                by_cases hsharp : l = "#"
                · rw [if_pos hsharp] at h
                  have he : ({ acc with routes := acc.routes ++
                      [((u, key), (ns, j))] } : PropSt) = ps2 :=
                    Option.some.inj h
                  rw [← he]
                  refine ⟨fun r hr => List.mem_append.mpr (Or.inl hr),
                    ?_, fun u2 j2 x hx => Or.inl hx,
                    fun u2 j2 x hx => hx, fun hnd => hnd, rfl, fun _ => rfl⟩
                  intro r hr
                  rcases List.mem_append.mp hr with h2 | h2
                  · exact Or.inl h2
                  · simp only [List.mem_singleton] at h2
                    subst h2
                    refine Or.inr ⟨rfl, nsSt, { adv0 with la := none },
                      hg, hget, ?_⟩
                    intro hh
                    rw [hadvhead] at hh
                    rcases hrp with h3 | h3
                    · rw [h3] at hh
                      exact hh
                    · exact absurd hh h3
                · rw [if_neg hsharp] at h
                  have he : ({ acc with look := lookAdd acc.look ns j l } :
                      PropSt) = ps2 := Option.some.inj h
                  rw [← he]
                  have hrph : rp.head ≠ "S^" := by
                    rcases hrp with h3 | h3
                    · exfalso
                      rw [h3] at hla
                      exact hsharp (Option.some.inj hla.symm)
                    · exact h3
                  refine ⟨fun r hr => hr, fun r hr => Or.inl hr, ?_,
                    fun u2 j2 x hx => lookAdd_mono acc.look ns j l u2 j2 x hx,
                    fun hnd => lookAdd_nodup acc.look ns j l hnd,
                    lookAdd_length acc.look ns j l,
                    fun u2 => lookAdd_row_length acc.look ns j l u2⟩
                  intro u2 j2 x hx
                  by_cases hc : u2 = ns ∧ j2 = j
                  · obtain ⟨rfl, rfl⟩ := hc
                    rcases lookAdd_sub acc.look u2 j2 l x hx with h2 | h2
                    · exact Or.inl h2
                    · subst h2
                      refine Or.inr (Or.inr ⟨nsSt, { adv0 with la := none },
                        hg, hget, ?_⟩)
                      rw [hadvhead]
                      exact hrph
                  · rw [lookAdd_get_ne acc.look ns j l u2 j2 hc] at hx
                    exact Or.inl hx

/-- Fold composition of `propagateOne_spec` over the closure items of
one kernel position scan. -/
theorem propagateItems_spec (bst0 : BuildSt) (u key : Nat) (k : LItem)
    (items : List LItem) (acc ps2 : PropSt)
    (hrp : ∀ rp ∈ items, rp = { k with la := some "#" } ∨ rp.head ≠ "S^")
    (h : propagateItems bst0 u key items acc = some ps2) :
    (∀ r ∈ acc.routes, r ∈ ps2.routes) ∧
    (∀ r ∈ ps2.routes, r ∈ acc.routes ∨
      (r.1 = (u, key) ∧ ∃ s0 it2, bst0.states.get? r.2.1 = some s0 ∧
        s0.kernel.get? r.2.2 = some it2 ∧
        (it2.head = "S^" → k.head = "S^"))) ∧
    (∀ u2 j2 x, x ∈ lookGet ps2.look u2 j2 →
      x ∈ lookGet acc.look u2 j2 ∨ x = "$" ∨
      (∃ s0 it2, bst0.states.get? u2 = some s0 ∧
        s0.kernel.get? j2 = some it2 ∧ it2.head ≠ "S^")) ∧
    (∀ u2 j2 x, x ∈ lookGet acc.look u2 j2 → x ∈ lookGet ps2.look u2 j2) ∧
    ((∀ u2 j2, (lookGet acc.look u2 j2).Nodup) →
      ∀ u2 j2, (lookGet ps2.look u2 j2).Nodup) ∧
    ps2.look.length = acc.look.length ∧
    (∀ u2, ((ps2.look.get? u2).getD []).length =
      ((acc.look.get? u2).getD []).length) := by
  induction items generalizing acc with
  | nil =>
    simp [propagateItems, List.foldlM] at h
    subst h
    exact ⟨fun r hr => hr, fun r hr => Or.inl hr,
      fun u2 j2 x hx => Or.inl hx, fun u2 j2 x hx => hx,
      fun hn => hn, rfl, fun _ => rfl⟩
  | cons it rest ih =>
    rw [propagateItems, List.foldlM_cons] at h
    rcases h1 : propagateOne bst0 u key acc it with _ | mid
    · rw [h1] at h
      exact Option.noConfusion h
    · rw [h1] at h
      have h2 : propagateItems bst0 u key rest mid = some ps2 := by
        simpa [propagateItems] using h
      obtain ⟨m1, m2, m3, m4, m5, m6, m7⟩ :=
        propagateOne_spec bst0 u key k acc mid it
          (hrp it (List.mem_cons_self it rest)) h1
      obtain ⟨r1, r2, r3, r4, r5, r6, r7⟩ :=
        ih mid (fun rp hr => hrp rp (List.mem_cons_of_mem it hr)) h2
      refine ⟨fun r hr => r1 r (m1 r hr), ?_, ?_,
        fun u2 j2 x hx => r4 u2 j2 x (m4 u2 j2 x hx),
        fun hn => r5 (m5 hn), r6.trans m6,
        fun u2 => (r7 u2).trans (m7 u2)⟩
      · intro r hr
        rcases r2 r hr with h3 | h3
        · exact m2 r h3
        · exact Or.inr h3
      · intro u2 j2 x hx
        rcases r3 u2 j2 x hx with h3 | h3 | h3
        · exact m3 u2 j2 x h3
        · exact Or.inr (Or.inl h3)
        · exact Or.inr (Or.inr h3)

/-- `LR1Analyzer.closure` output facts without a kernel dedup
hypothesis: the seeding `addItem` fold already removes duplicates. -/
theorem lr1Closure_spec2 (g : NGrammar) (F : FirstSt) (fuel : Nat)
    (hg2 : ∀ p ∈ g.prods, "S^" ∉ p.body) (kernel out : List LItem)
    (h : lr1Closure g F fuel kernel = some out)
    (hk : ∀ it ∈ kernel, "S^" ∉ it.body) :
    (∀ it ∈ out, it ∈ kernel ∨ ("S^" ∉ it.body ∧ it.head ≠ "S^")) ∧
    out.Nodup ∧ (∀ it ∈ kernel, it ∈ out) := by
  rw [lr1Closure] at h
  have hk2 : ∀ it ∈ kernel.foldl addItem [], "S^" ∉ it.body := by
    intro it hit
    rcases (foldl_addItem_mem kernel [] it).mp hit with h2 | h2
    · simp at h2
    · exact hk it h2
  obtain ⟨o1, o2, o3⟩ := lr1ClosureLoop_spec g F hg2 fuel _ 0 out h hk2
  refine ⟨?_, ?_, ?_⟩
  · intro it hit
    rcases o1 it hit with h2 | h2
    · rcases (foldl_addItem_mem kernel [] it).mp h2 with h3 | h3
      · simp at h3
      · exact Or.inl h3
    · exact Or.inr h2
  · exact o2 (foldl_addItem_nodup kernel [] (by simp))
  · intro it hit
    exact o3 it ((foldl_addItem_mem kernel [] it).mpr (Or.inr hit))

/-- `propagateOne` only appends routes. -/
theorem propagateOne_routes_mono (bst0 : BuildSt) (u key : Nat)
    (acc ps2 : PropSt) (rp : LItem)
    (h : propagateOne bst0 u key acc rp = some ps2) :
    ∀ r ∈ acc.routes, r ∈ ps2.routes := by
  rw [propagateOne] at h
  by_cases hsat : itemSatisfied rp = true
  · rw [if_pos hsat] at h
    rw [← Option.some.inj h]
    exact fun r hr => hr
  · rw [if_neg hsat] at h
    rcases hn : itemNext rp with _ | ex
    · simp only [hn] at h
      exact Option.noConfusion h
    · simp only [hn] at h
      rcases hl : linkGet bst0.links u ex with _ | ns
      · simp only [hl] at h
        exact Option.noConfusion h
      · simp only [hl] at h
        rcases ha : itemAdvance rp with _ | adv0
        · simp only [ha] at h
          exact Option.noConfusion h
        · simp only [ha] at h
          rcases hg : bst0.states.get? ns with _ | nsSt
          · simp only [hg] at h
            exact Option.noConfusion h
          · simp only [hg] at h
            rcases hf : nsSt.kernel.findIdx?
                (fun nk => nk == { adv0 with la := none }) with _ | j
            · simp only [hf] at h
              exact Option.noConfusion h
            · simp only [hf] at h
              rcases hla : rp.la with _ | l
              · simp only [hla] at h
                exact Option.noConfusion h
              · simp only [hla] at h
                by_cases hsh : l = "#"
                · rw [if_pos hsh] at h
                  rw [← Option.some.inj h]
                  exact fun r hr => List.mem_append.mpr (Or.inl hr)
                · rw [if_neg hsh] at h
                  rw [← Option.some.inj h]
                  exact fun r hr => hr

/-- The scan over a closure item list only appends routes. -/
theorem propagateItems_routes_mono (bst0 : BuildSt) (u key : Nat)
    (items : List LItem) (acc ps2 : PropSt)
    (h : propagateItems bst0 u key items acc = some ps2) :
    ∀ r ∈ acc.routes, r ∈ ps2.routes := by
  induction items generalizing acc with
  | nil =>
    simp [propagateItems, List.foldlM] at h
    subst h
    exact fun r hr => hr
  | cons it rest ih =>
    rw [propagateItems, List.foldlM_cons] at h
    rcases h1 : propagateOne bst0 u key acc it with _ | mid
    · rw [h1] at h
      exact Option.noConfusion h
    · rw [h1] at h
      have h2 : propagateItems bst0 u key rest mid = some ps2 := by
        simpa [propagateItems] using h
      exact fun r hr => ih mid h2 r
        (propagateOne_routes_mono bst0 u key acc mid it h1 r hr)

/-- Scanning a `#`-lookahead closure item whose goto data resolve posts
the corresponding propagation route. -/
theorem propagateItems_route (bst0 : BuildSt) (u key : Nat)
    (items : List LItem) (acc ps2 : PropSt) (seed : LItem)
    (ex : String) (ns j : Nat) (adv : LItem) (nsSt : LState)
    (hseed : seed ∈ items)
    (hsat : itemSatisfied seed = false)
    (hnext : itemNext seed = some ex)
    (hlink : linkGet bst0.links u ex = some ns)
    (hadv : itemAdvance seed = some adv)
    (hget : bst0.states.get? ns = some nsSt)
    (hfind : nsSt.kernel.findIdx? (fun nk => nk == { adv with la := none }) =
      some j)
    (hla : seed.la = some "#")
    (h : propagateItems bst0 u key items acc = some ps2) :
    ((u, key), (ns, j)) ∈ ps2.routes := by
  induction items generalizing acc with
  | nil => cases hseed
  | cons it rest ih =>
    rw [propagateItems, List.foldlM_cons] at h
    rcases h1 : propagateOne bst0 u key acc it with _ | mid
    · rw [h1] at h
      exact Option.noConfusion h
    · rw [h1] at h
      have h2 : propagateItems bst0 u key rest mid = some ps2 := by
        simpa [propagateItems] using h
      rcases List.mem_cons.mp hseed with he | he
      · rw [← he] at h1
        have h1b : propagateOne bst0 u key acc seed = some
            { acc with routes := acc.routes ++ [((u, key), (ns, j))] } := by
          rw [propagateOne, if_neg (by simp [hsat])]
          simp only [hnext, hlink, hadv, hget, hfind, hla]
          rfl
        have hmid : mid =
            { acc with routes := acc.routes ++ [((u, key), (ns, j))] } :=
          Option.some.inj (h1.symm.trans h1b)
        refine propagateItems_routes_mono bst0 u key rest mid ps2 h2 _ ?_
        rw [hmid]
        simp
      · exact ih mid he h2

/-- Membership in `__build_LR1_state`'s materialized kernel. -/
theorem mem_materializeKernel (s : LState)
    (look : List (List (List String))) (u : Nat) (it : LItem) :
    it ∈ materializeKernel s look u ↔
      ∃ key k sym, s.kernel.get? key = some k ∧
        sym ∈ lookGet look u key ∧ it = { k with la := some sym } := by
  rw [materializeKernel]
  constructor
  · intro hit
    rcases List.mem_flatMap.mp hit with ⟨key, hkey, hin⟩
    rcases hk : s.kernel.get? key with _ | k
    · rw [hk] at hin
      cases hin
    · rw [hk] at hin
      rcases List.mem_map.mp hin with ⟨sym, hsym, he⟩
      exact ⟨key, k, sym, hk, hsym, he.symm⟩
  · rintro ⟨key, k, sym, hk, hsym, he⟩
    refine List.mem_flatMap.mpr ⟨key, ?_, ?_⟩
    · exact List.mem_range.mpr (List.get?_eq_some.mp hk).1
    · rw [hk]
      exact List.mem_map.mpr ⟨sym, hsym, he.symm⟩

/-- A `findIdx?` position for the first occurrence of a present item. -/
theorem findIdx_of_mem (l : List LItem) (a : LItem) (h : a ∈ l) :
    ∃ j, l.findIdx? (fun x => x == a) = some j ∧ l.get? j = some a := by
  rcases hf : l.findIdx? (fun x => x == a) with _ | j
  · rw [List.findIdx?_eq_none_iff] at hf
    have h2 := hf a h
    simp at h2
  · exact ⟨j, rfl, findIdx_beq_get l a j hf⟩

/-- The initial LALR lookahead table holds only empty sets. -/
theorem look0_empty (states : List LState) (u j : Nat) :
    lookGet (states.map (fun s => s.kernel.map
      (fun _ => ([] : List String)))) u j = [] := by
  rw [lookGet, List.get?_map]
  rcases hs : states.get? u with _ | s
  · simp
  · simp only [Option.map_some', Option.getD_some, List.get?_map]
    rcases hj : s.kernel.get? j with _ | k
    · simp
    · simp

/-- The kernel-position loop of `_LALR_propagate_state` over state `u`:
new routes are `RouteOk`, and the lookahead tables keep the `$`-only
discipline at `S^` positions while growing monotonically in place. -/
theorem propagateKeys_spec (g : NGrammar) (F : FirstSt) (fuel : Nat)
    (bst0 : BuildSt) (start : String)
    (hGI : GInv start none bst0)
    (hg2 : ∀ p ∈ g.prods, "S^" ∉ p.body)
    (u : Nat) (s : LState) (hs : bst0.states.get? u = some s) :
    ∀ (ks : List Nat) (acc ps2 : PropSt),
      ks.foldlM (fun acc2 key =>
        match s.kernel.get? key with
        | none => none
        | some k =>
          match lr1Closure g F fuel [{ k with la := some "#" }] with
          | none => none
          | some cls => propagateItems bst0 u key cls acc2) acc =
        some ps2 →
      (∀ r ∈ acc.routes, r ∈ ps2.routes) ∧
      (∀ r ∈ ps2.routes, r ∈ acc.routes ∨ RouteOk bst0 r) ∧
      (PaProp bst0 acc.look → PaProp bst0 ps2.look) ∧
      (∀ u2 j2 x, x ∈ lookGet acc.look u2 j2 → x ∈ lookGet ps2.look u2 j2) ∧
      ps2.look.length = acc.look.length ∧
      (∀ u2, ((ps2.look.get? u2).getD []).length =
        ((acc.look.get? u2).getD []).length) := by
  intro ks
  induction ks with
  | nil =>
    intro acc ps2 h
    simp [List.foldlM] at h
    subst h
    exact ⟨fun r hr => hr, fun r hr => Or.inl hr, fun hp => hp,
      fun u2 j2 x hx => hx, rfl, fun _ => rfl⟩
  | cons key rest ih =>
    intro acc ps2 h
    rw [List.foldlM_cons] at h
    rcases hk : s.kernel.get? key with _ | k
    · simp only [hk] at h
      exact Option.noConfusion h
    · simp only [hk] at h
      rcases hcls : lr1Closure g F fuel [{ k with la := some "#" }]
          with _ | cls
      · simp only [hcls] at h
        exact Option.noConfusion h
      · simp only [hcls] at h
        rcases hpi : propagateItems bst0 u key cls acc with _ | mid
        · rw [hpi] at h
          exact Option.noConfusion h
        · rw [hpi] at h
          have hkb : "S^" ∉ k.body :=
            (hGI.states_ok s (List.get?_mem hs)).2.2.2.1 k
              (List.get?_mem hk)
          have hker : ∀ it ∈ [{ k with la := some "#" }], "S^" ∉ it.body := by
            intro it hit
            rw [List.mem_singleton] at hit
            subst hit
            simpa using hkb
          obtain ⟨c1, _, _⟩ :=
            lr1Closure_spec2 g F fuel hg2 _ cls hcls hker
          have hrp : ∀ rp ∈ cls,
              rp = { k with la := some "#" } ∨ rp.head ≠ "S^" := by
            intro rp hrpm
            rcases c1 rp hrpm with h3 | h3
            · exact Or.inl (by simpa using h3)
            · exact Or.inr h3.2
          obtain ⟨m1, m2, m3, m4, _, m6, m7⟩ :=
            propagateItems_spec bst0 u key k cls acc mid hrp hpi
          obtain ⟨r1, r2, r3, r4, r5, r6⟩ := ih mid ps2 (by simpa using h)
          refine ⟨fun r hr => r1 r (m1 r hr), ?_, ?_,
            fun u2 j2 x hx => r4 u2 j2 x (m4 u2 j2 x hx),
            r5.trans m6, fun u2 => (r6 u2).trans (m7 u2)⟩
          · intro r hr
            rcases r2 r hr with h3 | h3
            · rcases m2 r h3 with h4 | h4
              · exact Or.inl h4
              · obtain ⟨he1, s0, it2, hg3, hkk, himp⟩ := h4
                right
                refine ⟨s0, it2, hg3, hkk, fun hh => ?_⟩
                have hu1 : r.1.1 = u := by rw [he1]
                have hu2 : r.1.2 = key := by rw [he1]
                rw [hu1, hu2]
                exact ⟨s, k, hs, hk, himp hh⟩
            · exact Or.inr h3
          · intro hp
            refine r3 ?_
            intro u2 j2 x hx
            rcases m3 u2 j2 x hx with h3 | h3 | h3
            · exact hp u2 j2 x h3
            · exact Or.inl h3
            · obtain ⟨s0, it2, hg3, hkk, hne⟩ := h3
              exact Or.inr ⟨s0, it2, hg3, hkk, hne⟩

/-- `_LALR_propagate_state` on state `u`: new routes are `RouteOk`, the
`$`-only discipline at `S^` positions is preserved (the state-0 seeding
adds `$` itself), and the lookahead tables grow in place. -/
theorem propagateState_spec (g : NGrammar) (F : FirstSt) (fuel : Nat)
    (bst0 : BuildSt) (start : String)
    (hGI : GInv start none bst0)
    (hg2 : ∀ p ∈ g.prods, "S^" ∉ p.body)
    (ps ps2 : PropSt) (u : Nat)
    (h : propagateState g F fuel bst0 ps u = some ps2) :
    (∀ r ∈ ps.routes, r ∈ ps2.routes) ∧
    (∀ r ∈ ps2.routes, r ∈ ps.routes ∨ RouteOk bst0 r) ∧
    (PaProp bst0 ps.look → PaProp bst0 ps2.look) ∧
    (∀ u2 j2 x, x ∈ lookGet ps.look u2 j2 → x ∈ lookGet ps2.look u2 j2) ∧
    ps2.look.length = ps.look.length ∧
    (∀ u2, ((ps2.look.get? u2).getD []).length =
      ((ps.look.get? u2).getD []).length) := by
  rw [propagateState] at h
  rcases hs : bst0.states.get? u with _ | s
  · simp only [hs] at h
    exact Option.noConfusion h
  · simp only [hs] at h
    obtain ⟨psA, hfold, hwrap⟩ := Option.map_eq_some'.mp h
    obtain ⟨r1, r2, r3, r4, r5, r6⟩ :=
      propagateKeys_spec g F fuel bst0 start hGI hg2 u s hs
        (List.range s.kernel.length) ps psA hfold
    by_cases hu : u = 0
    · rw [if_pos hu] at hwrap
      rw [← hwrap]
      refine ⟨r1, r2, ?_, ?_, ?_, ?_⟩
      · intro hp
        have hpA := r3 hp
        intro u2 j2 x hx
        by_cases hc : u2 = 0 ∧ j2 = 0
        · obtain ⟨rfl, rfl⟩ := hc
          rcases lookAdd_sub psA.look 0 0 "$" x hx with h3 | h3
          · exact hpA 0 0 x h3
          · exact Or.inl h3
        · rw [lookAdd_get_ne psA.look 0 0 "$" u2 j2 hc] at hx
          exact hpA u2 j2 x hx
      · intro u2 j2 x hx
        exact lookAdd_mono psA.look 0 0 "$" u2 j2 x (r4 u2 j2 x hx)
      · rw [lookAdd_length]
        exact r5
      · intro u2
        rw [lookAdd_row_length]
        exact r6 u2
    · rw [if_neg hu] at hwrap
      rw [← hwrap]
      exact ⟨r1, r2, r3, r4, r5, r6⟩

/-- Scanning state 0 posts the route from the start item's position
`(0,0)` to the `[S^ → start·]` kernel position of the goto-on-`start`
state, and then seeds `$` at `(0,0)`. -/
theorem propagateState0_post (g : NGrammar) (F : FirstSt) (fuel : Nat)
    (bst0 : BuildSt) (start : String) (c0 : List LItem)
    (t jt : Nat) (st2 : LState)
    (hSne : start ≠ "S^")
    (hc0 : bst0.states.get? 0 = some ⟨[mkSI start none 0], c0⟩)
    (hl : linkGet bst0.links 0 start = some t)
    (hgt : bst0.states.get? t = some st2)
    (hjt : st2.kernel.findIdx?
      (fun nk => nk == mkSI start none 1) = some jt)
    (hg2 : ∀ p ∈ g.prods, "S^" ∉ p.body)
    (ps ps2 : PropSt)
    (hlen : 0 < ps.look.length)
    (hrow : 0 < ((ps.look.get? 0).getD []).length)
    (h : propagateState g F fuel bst0 ps 0 = some ps2) :
    ((0, 0), (t, jt)) ∈ ps2.routes ∧ "$" ∈ lookGet ps2.look 0 0 := by
  rw [propagateState] at h
  simp only [hc0, List.length_singleton] at h
  obtain ⟨psA, hfold, hwrap⟩ := Option.map_eq_some'.mp h
  rw [show List.range 1 = [0] from rfl, List.foldlM_cons] at hfold
  simp only [List.get?_cons_zero] at hfold
  rcases hcls : lr1Closure g F fuel
      [{ mkSI start none 0 with la := some "#" }] with _ | cls
  · simp only [hcls] at hfold
    exact Option.noConfusion hfold
  · simp only [hcls] at hfold
    rcases hpi : propagateItems bst0 0 0 cls ps with _ | mid
    · rw [hpi] at hfold
      exact Option.noConfusion hfold
    · rw [hpi] at hfold
      have hmid : mid = psA := by simpa [List.foldlM] using hfold
      have hker : ∀ it ∈ [{ mkSI start none 0 with la := some "#" }],
          "S^" ∉ it.body := by
        intro it hit
        rw [List.mem_singleton] at hit
        subst hit
        simp only [mkSI]
        intro hmem
        rw [List.mem_singleton] at hmem
        exact hSne hmem.symm
      obtain ⟨c1, _, c3⟩ := lr1Closure_spec2 g F fuel hg2 _ cls hcls hker
      have hseed : ({ mkSI start none 0 with la := some "#" } : LItem) ∈
          cls := c3 _ (List.mem_singleton_self _)
      have hroute := propagateItems_route bst0 0 0 cls ps mid
        { mkSI start none 0 with la := some "#" } start t jt
        (mkSI start (some "#") 1) st2 hseed rfl rfl hl rfl hgt hjt rfl hpi
      have hrp : ∀ rp ∈ cls,
          rp = { mkSI start none 0 with la := some "#" } ∨
          rp.head ≠ "S^" := by
        intro rp hrpm
        rcases c1 rp hrpm with h3 | h3
        · exact Or.inl (by simpa using h3)
        · exact Or.inr h3.2
      obtain ⟨_, _, _, _, _, m6, m7⟩ :=
        propagateItems_spec bst0 0 0 (mkSI start none 0) cls ps mid hrp hpi
      rw [if_pos trivial] at hwrap
      rw [← hwrap, ← hmid]
      refine ⟨hroute, ?_⟩
      exact lookAdd_mem_self mid.look 0 0 "$" (by rw [m6]; exact hlen)
        (by rw [m7 0]; exact hrow)

/-- The state loop of `__build_propagate_route` preserves the route and
lookahead invariants. -/
theorem foldPropagate_inv (g : NGrammar) (F : FirstSt) (fuel : Nat)
    (bst0 : BuildSt) (start : String)
    (hGI : GInv start none bst0)
    (hg2 : ∀ p ∈ g.prods, "S^" ∉ p.body) :
    ∀ (us : List Nat) (acc ps2 : PropSt),
      us.foldlM (propagateState g F fuel bst0) acc = some ps2 →
      (∀ r ∈ acc.routes, r ∈ ps2.routes) ∧
      (∀ r ∈ ps2.routes, r ∈ acc.routes ∨ RouteOk bst0 r) ∧
      (PaProp bst0 acc.look → PaProp bst0 ps2.look) ∧
      (∀ u2 j2 x, x ∈ lookGet acc.look u2 j2 → x ∈ lookGet ps2.look u2 j2) ∧
      ps2.look.length = acc.look.length := by
  intro us
  induction us with
  | nil =>
    intro acc ps2 h
    simp [List.foldlM] at h
    subst h
    exact ⟨fun r hr => hr, fun r hr => Or.inl hr, fun hp => hp,
      fun u2 j2 x hx => hx, rfl⟩
  | cons v rest ih =>
    intro acc ps2 h
    rw [List.foldlM_cons] at h
    rcases h1 : propagateState g F fuel bst0 acc v with _ | mid
    · rw [h1] at h
      exact Option.noConfusion h
    · rw [h1] at h
      obtain ⟨m1, m2, m3, m4, m5, _⟩ :=
        propagateState_spec g F fuel bst0 start hGI hg2 acc mid v h1
      obtain ⟨r1, r2, r3, r4, r5⟩ := ih mid ps2 (by simpa using h)
      refine ⟨fun r hr => r1 r (m1 r hr), ?_, fun hp => r3 (m3 hp),
        fun u2 j2 x hx => r4 u2 j2 x (m4 u2 j2 x hx), r5.trans m5⟩
      intro r hr
      rcases r2 r hr with h3 | h3
      · exact m2 r h3
      · exact Or.inr h3

/-- `__build_propagate_route`: all routes are `RouteOk`, the lookahead
tables are `$`-only at `S^` positions, and the start route with its `$`
seed are in place. -/
theorem buildRoutes_spec (g : NGrammar) (F : FirstSt) (fuel : Nat)
    (bst0 : BuildSt) (start : String)
    (hGI : GInv start none bst0)
    (hg2 : ∀ p ∈ g.prods, "S^" ∉ p.body)
    (hSne : start ≠ "S^") (t : Nat)
    (hl : linkGet bst0.links 0 start = some t)
    (ps : PropSt) (h : buildRoutes g F fuel bst0 = some ps) :
    (∀ r ∈ ps.routes, RouteOk bst0 r) ∧ PaProp bst0 ps.look ∧
    ps.look.length = bst0.states.length ∧
    ∃ st2 jt, bst0.states.get? t = some st2 ∧
      st2.kernel.get? jt = some (mkSI start none 1) ∧
      ((0, 0), (t, jt)) ∈ ps.routes ∧ "$" ∈ lookGet ps.look 0 0 := by
  obtain ⟨c0, hc0⟩ := hGI.st0
  obtain ⟨st2, hgt, hi1c⟩ := hGI.link_i1 t hl
  have hi1k : mkSI start none 1 ∈ st2.kernel := by
    rcases (hGI.states_ok st2 (List.get?_mem hgt)).1 _ hi1c with h2 | h2
    · exact h2
    · exact absurd rfl h2.2
  obtain ⟨jt, hjtf, hjtg⟩ := findIdx_of_mem st2.kernel (mkSI start none 1)
    hi1k
  rw [buildRoutes] at h
  have h0lt : 0 < bst0.states.length := (List.get?_eq_some.mp hc0).1
  obtain ⟨m, hm⟩ : ∃ m, bst0.states.length = m + 1 :=
    ⟨bst0.states.length - 1, by omega⟩
  rw [hm, List.range_succ_eq_map, List.foldlM_cons] at h
  rcases h0 : propagateState g F fuel bst0
      { look := bst0.states.map (fun s => s.kernel.map (fun _ => [])),
        routes := [] } 0 with _ | ps1
  · rw [h0] at h
    exact Option.noConfusion h
  · rw [h0] at h
    have hrest : (List.map Nat.succ (List.range m)).foldlM
        (propagateState g F fuel bst0) ps1 = some ps := by simpa using h
    have hlen0 : 0 < (bst0.states.map
        (fun s => s.kernel.map (fun _ => ([] : List String)))).length := by
      simpa using h0lt
    have hrow0 : 0 < (((bst0.states.map
        (fun s => s.kernel.map (fun _ => ([] : List String)))).get?
          0).getD []).length := by
      simp only [List.get?_map, hc0]
      simp
    obtain ⟨hroute1, hdol1⟩ := propagateState0_post g F fuel bst0 start
      c0 t jt st2 hSne hc0 hl hgt hjtf hg2 _ ps1 hlen0 hrow0 h0
    obtain ⟨m1, m2, m3, m4, m5, _⟩ :=
      propagateState_spec g F fuel bst0 start hGI hg2 _ ps1 0 h0
    have hPa1 : PaProp bst0 ps1.look := by
      refine m3 ?_
      intro u2 j2 x hx
      simp only [look0_empty] at hx
      exact absurd hx (List.not_mem_nil x)
    have hR1 : ∀ r ∈ ps1.routes, RouteOk bst0 r := by
      intro r hr
      rcases m2 r hr with h3 | h3
      · exact absurd h3 (List.not_mem_nil r)
      · exact h3
    obtain ⟨f1, f2, f3, f4, f5⟩ := foldPropagate_inv g F fuel bst0 start
      hGI hg2 _ ps1 ps hrest
    refine ⟨?_, f3 hPa1, ?_,
      st2, jt, hgt, hjtg, f1 _ hroute1, f4 0 0 "$" hdol1⟩
    · intro r hr
      rcases f2 r hr with h3 | h3
      · exact hR1 r h3
      · exact h3
    · rw [f5, m5]
      simp

/-- Pushing one source set along one route: the table grows in place,
stays `$`-only at `S^` positions, and a zero change count means every
pushed symbol was already present at the target. -/
theorem symsFold_spec (bst0 : BuildSt) (su sj tu tj : Nat)
    (hok : ∃ s0 it2, bst0.states.get? tu = some s0 ∧
      s0.kernel.get? tj = some it2 ∧
      (it2.head = "S^" → SPos bst0 su sj)) :
    ∀ (syms : List String) (L : List (List (List String))) (c : Nat)
      (out : List (List (List String)) × Nat),
      syms.foldl (fun acc3 sym =>
        let a := lookAddC acc3.1 tu tj sym
        (a.1, acc3.2 + a.2)) (L, c) = out →
      (∀ sym ∈ syms, sym ∈ lookGet L su sj) →
      (∀ u2 j2 x, x ∈ lookGet L u2 j2 → x ∈ lookGet out.1 u2 j2) ∧
      (PaProp bst0 L → PaProp bst0 out.1) ∧
      c ≤ out.2 ∧
      (out.2 = c → out.1 = L ∧ ∀ sym ∈ syms, sym ∈ lookGet L tu tj) := by
  intro syms
  induction syms with
  | nil =>
    intro L c out h _
    rw [List.foldl_nil] at h
    rw [← h]
    exact ⟨fun u2 j2 x hx => hx, fun hp => hp, Nat.le_refl c,
      fun _ => ⟨rfl, fun sym hs => absurd hs (List.not_mem_nil sym)⟩⟩
  | cons sym rest ih =>
    intro L c out h hsyms
    rw [List.foldl_cons] at h
    simp only [] at h
    have hfst : (lookAddC L tu tj sym).1 = lookAdd L tu tj sym :=
      lookAddC_fst L tu tj sym
    have hsyms2 : ∀ s ∈ rest, s ∈ lookGet (lookAddC L tu tj sym).1 su sj := by
      intro s hs
      rw [hfst]
      exact lookAdd_mono L tu tj sym su sj s
        (hsyms s (List.mem_cons_of_mem sym hs))
    obtain ⟨r1, r2, r3, r4⟩ := ih (lookAddC L tu tj sym).1
      (c + (lookAddC L tu tj sym).2) out h hsyms2
    have hmono1 : ∀ u2 j2 x, x ∈ lookGet L u2 j2 →
        x ∈ lookGet (lookAddC L tu tj sym).1 u2 j2 := by
      intro u2 j2 x hx
      rw [hfst]
      exact lookAdd_mono L tu tj sym u2 j2 x hx
    have hPa1 : PaProp bst0 L → PaProp bst0 (lookAddC L tu tj sym).1 := by
      intro hp u2 j2 x hx
      rw [hfst] at hx
      by_cases hc2 : u2 = tu ∧ j2 = tj
      · obtain ⟨rfl, rfl⟩ := hc2
        rcases lookAdd_sub L u2 j2 sym x hx with h3 | h3
        · exact hp u2 j2 x h3
        · subst h3
          obtain ⟨s0, it2, hg3, hk3, himp⟩ := hok
          by_cases hh : it2.head = "S^"
          · obtain ⟨s1, it1, hg1, hk1, hhead1⟩ := himp hh
            rcases hp su sj x (hsyms x (List.mem_cons_self x rest))
                with h4 | h4
            · exact Or.inl h4
            · obtain ⟨s0b, it2b, hgb, hkb, hneb⟩ := h4
              rw [hg1] at hgb
              have hsb : s1 = s0b := Option.some.inj hgb
              rw [← hsb] at hkb
              rw [hk1] at hkb
              have hib : it1 = it2b := Option.some.inj hkb
              rw [← hib] at hneb
              exact absurd hhead1 hneb
          · exact Or.inr ⟨s0, it2, hg3, hk3, hh⟩
      · rw [lookAdd_get_ne L tu tj sym u2 j2 hc2] at hx
        exact hp u2 j2 x hx
    refine ⟨fun u2 j2 x hx => r1 u2 j2 x (hmono1 u2 j2 x hx),
      fun hp => r2 (hPa1 hp),
      Nat.le_trans (Nat.le_add_right c _) r3, ?_⟩
    intro hz
    have hc2z : (lookAddC L tu tj sym).2 = 0 := by omega
    obtain ⟨hmem0, heq0⟩ := lookAddC_zero L tu tj sym hc2z
    obtain ⟨ho1, ho2⟩ := r4 (by omega)
    rw [heq0] at ho1 ho2
    refine ⟨ho1, ?_⟩
    intro s hs
    rcases List.mem_cons.mp hs with h3 | h3
    · rw [h3]
      exact hmem0
    · exact ho2 s h3

/-- Pushing one source position along all its routes. -/
theorem routesFold_spec (bst0 : BuildSt) (u key : Nat) :
    ∀ (rs : List ((Nat × Nat) × (Nat × Nat)))
      (L : List (List (List String))) (c : Nat)
      (out : List (List (List String)) × Nat),
      rs.foldl (fun acc2 r => (lookGet acc2.1 u key).foldl
        (fun acc3 sym =>
          let a := lookAddC acc3.1 r.2.1 r.2.2 sym
          (a.1, acc3.2 + a.2)) acc2) (L, c) = out →
      (∀ r ∈ rs, RouteOk bst0 r ∧ r.1 = (u, key)) →
      (∀ u2 j2 x, x ∈ lookGet L u2 j2 → x ∈ lookGet out.1 u2 j2) ∧
      (PaProp bst0 L → PaProp bst0 out.1) ∧
      c ≤ out.2 ∧
      (out.2 = c → out.1 = L ∧
        ∀ r ∈ rs, ∀ sym ∈ lookGet L u key,
          sym ∈ lookGet L r.2.1 r.2.2) := by
  intro rs
  induction rs with
  | nil =>
    intro L c out h _
    rw [List.foldl_nil] at h
    rw [← h]
    exact ⟨fun u2 j2 x hx => hx, fun hp => hp, Nat.le_refl c,
      fun _ => ⟨rfl, fun r hr => absurd hr (List.not_mem_nil r)⟩⟩
  | cons r rest ih =>
    intro L c out h hrs
    rw [List.foldl_cons] at h
    rcases hmid : (lookGet L u key).foldl
        (fun acc3 sym =>
          let a := lookAddC acc3.1 r.2.1 r.2.2 sym
          (a.1, acc3.2 + a.2)) (L, c) with ⟨L1, c1⟩
    rw [hmid] at h
    obtain ⟨hokr, hr1⟩ := hrs r (List.mem_cons_self r rest)
    have hok : ∃ s0 it2, bst0.states.get? r.2.1 = some s0 ∧
        s0.kernel.get? r.2.2 = some it2 ∧
        (it2.head = "S^" → SPos bst0 u key) := by
      obtain ⟨s0, it2, hg3, hk3, himp⟩ := hokr
      refine ⟨s0, it2, hg3, hk3, fun hh => ?_⟩
      have h4 := himp hh
      have hu1 : r.1.1 = u := by rw [hr1]
      have hu2 : r.1.2 = key := by rw [hr1]
      rw [hu1, hu2] at h4
      exact h4
    obtain ⟨s1, s2, s3, s4⟩ := symsFold_spec bst0 u key r.2.1 r.2.2 hok
      (lookGet L u key) L c (L1, c1) hmid (fun sym hs => hs)
    obtain ⟨r1, r2, r3, r4⟩ := ih L1 c1 out h
      (fun r2m hr2m => hrs r2m (List.mem_cons_of_mem r hr2m))
    refine ⟨fun u2 j2 x hx => r1 u2 j2 x (s1 u2 j2 x hx),
      fun hp => r2 (s2 hp),
      Nat.le_trans s3 r3, ?_⟩
    intro hz
    have hc1 : c1 = c := Nat.le_antisymm (by omega) s3
    obtain ⟨hL1, hpush⟩ := s4 hc1
    obtain ⟨ho1, ho2⟩ := r4 (by omega)
    have hL1b : L1 = L := hL1
    rw [hL1b] at ho1 ho2
    refine ⟨ho1, ?_⟩
    intro r2m hr2m sym hsym
    rcases List.mem_cons.mp hr2m with h3 | h3
    · rw [h3]
      exact hpush sym hsym
    · exact ho2 r2m h3 sym hsym

/-- The key loop of `__propagate_state` in the fixpoint phase. -/
theorem keysPushFold_spec (bst0 : BuildSt)
    (routes : List ((Nat × Nat) × (Nat × Nat)))
    (hroutes : ∀ r ∈ routes, RouteOk bst0 r) (u : Nat) :
    ∀ (ks : List Nat) (L : List (List (List String))) (c : Nat)
      (out : List (List (List String)) × Nat),
      ks.foldl (fun acc key =>
        (routes.filter (fun r => r.1 == (u, key))).foldl (fun acc2 r =>
          (lookGet acc2.1 u key).foldl (fun acc3 sym =>
            let a := lookAddC acc3.1 r.2.1 r.2.2 sym
            (a.1, acc3.2 + a.2)) acc2) acc) (L, c) = out →
      (∀ u2 j2 x, x ∈ lookGet L u2 j2 → x ∈ lookGet out.1 u2 j2) ∧
      (PaProp bst0 L → PaProp bst0 out.1) ∧
      c ≤ out.2 ∧
      (out.2 = c → out.1 = L ∧
        ∀ key ∈ ks, ∀ r ∈ routes, r.1 = (u, key) →
          ∀ sym ∈ lookGet L u key, sym ∈ lookGet L r.2.1 r.2.2) := by
  intro ks
  induction ks with
  | nil =>
    intro L c out h
    rw [List.foldl_nil] at h
    rw [← h]
    exact ⟨fun u2 j2 x hx => hx, fun hp => hp, Nat.le_refl c,
      fun _ => ⟨rfl, fun key hk => absurd hk (List.not_mem_nil key)⟩⟩
  | cons key rest ih =>
    intro L c out h
    rw [List.foldl_cons] at h
    rcases hmid : (routes.filter (fun r => r.1 == (u, key))).foldl
        (fun acc2 r =>
          (lookGet acc2.1 u key).foldl (fun acc3 sym =>
            let a := lookAddC acc3.1 r.2.1 r.2.2 sym
            (a.1, acc3.2 + a.2)) acc2) (L, c) with ⟨L1, c1⟩
    rw [hmid] at h
    have hfl : ∀ r ∈ routes.filter (fun r => r.1 == (u, key)),
        RouteOk bst0 r ∧ r.1 = (u, key) := by
      intro r hr
      obtain ⟨hmem, hpred⟩ := List.mem_filter.mp hr
      exact ⟨hroutes r hmem, eq_of_beq hpred⟩
    obtain ⟨s1, s2, s3, s4⟩ := routesFold_spec bst0 u key _ L c (L1, c1)
      hmid hfl
    obtain ⟨r1, r2, r3, r4⟩ := ih L1 c1 out h
    refine ⟨fun u2 j2 x hx => r1 u2 j2 x (s1 u2 j2 x hx),
      fun hp => r2 (s2 hp),
      Nat.le_trans s3 r3, ?_⟩
    intro hz
    have hc1 : c1 = c := Nat.le_antisymm (by omega) s3
    obtain ⟨hL1, hpush⟩ := s4 hc1
    obtain ⟨ho1, ho2⟩ := r4 (by omega)
    have hL1b : L1 = L := hL1
    rw [hL1b] at ho1 ho2
    refine ⟨ho1, ?_⟩
    intro key2 hk2 r hrm hr1 sym hsym
    rcases List.mem_cons.mp hk2 with h3 | h3
    · rw [h3] at hr1 hsym
      refine hpush r ?_ sym hsym
      refine List.mem_filter.mpr ⟨hrm, ?_⟩
      rw [hr1]
      exact beq_self_eq_true (u, key)
    · exact ho2 key2 h3 r hrm hr1 sym hsym

/-- `__propagate_state` (fixpoint phase) for one state. -/
theorem pushState_spec (bst0 : BuildSt)
    (routes : List ((Nat × Nat) × (Nat × Nat)))
    (hroutes : ∀ r ∈ routes, RouteOk bst0 r) (kLens : List Nat)
    (L : List (List (List String))) (u : Nat)
    (out : List (List (List String)) × Nat)
    (h : pushState routes kLens L u = out) :
    (∀ u2 j2 x, x ∈ lookGet L u2 j2 → x ∈ lookGet out.1 u2 j2) ∧
    (PaProp bst0 L → PaProp bst0 out.1) ∧
    (out.2 = 0 → out.1 = L ∧
      ∀ key, key < (kLens.get? u).getD 0 → ∀ r ∈ routes, r.1 = (u, key) →
        ∀ sym ∈ lookGet L u key, sym ∈ lookGet L r.2.1 r.2.2) := by
  rw [pushState] at h
  obtain ⟨r1, r2, _, r4⟩ := keysPushFold_spec bst0 routes hroutes u
    (List.range ((kLens.get? u).getD 0)) L 0 out h
  refine ⟨r1, r2, ?_⟩
  intro hz
  obtain ⟨ho1, ho2⟩ := r4 hz
  exact ⟨ho1, fun key hk => ho2 key (List.mem_range.mpr hk)⟩

/-- One full sweep of `__build_lookahead`. -/
theorem sweepFold_spec (bst0 : BuildSt)
    (routes : List ((Nat × Nat) × (Nat × Nat))) (kLens : List Nat)
    (hroutes : ∀ r ∈ routes, RouteOk bst0 r) :
    ∀ (us : List Nat) (L : List (List (List String))) (c : Nat)
      (out : List (List (List String)) × Nat),
      us.foldl (fun acc u =>
        let p := pushState routes kLens acc.1 u
        (p.1, acc.2 + p.2)) (L, c) = out →
      (∀ u2 j2 x, x ∈ lookGet L u2 j2 → x ∈ lookGet out.1 u2 j2) ∧
      (PaProp bst0 L → PaProp bst0 out.1) ∧
      c ≤ out.2 ∧
      (out.2 = c → out.1 = L ∧
        ∀ u ∈ us, ∀ key, key < (kLens.get? u).getD 0 →
          ∀ r ∈ routes, r.1 = (u, key) →
          ∀ sym ∈ lookGet L u key, sym ∈ lookGet L r.2.1 r.2.2) := by
  intro us
  induction us with
  | nil =>
    intro L c out h
    rw [List.foldl_nil] at h
    rw [← h]
    exact ⟨fun u2 j2 x hx => hx, fun hp => hp, Nat.le_refl c,
      fun _ => ⟨rfl, fun uu hu => absurd hu (List.not_mem_nil uu)⟩⟩
  | cons v rest ih =>
    intro L c out h
    rw [List.foldl_cons] at h
    simp only [] at h
    rcases hp : pushState routes kLens L v with ⟨L1, c1⟩
    rw [hp] at h
    obtain ⟨s1, s2, s3⟩ := pushState_spec bst0 routes hroutes kLens L v
      (L1, c1) hp
    obtain ⟨r1, r2, r3, r4⟩ := ih L1 (c + c1) out h
    refine ⟨fun u2 j2 x hx => r1 u2 j2 x (s1 u2 j2 x hx),
      fun hpp => r2 (s2 hpp),
      Nat.le_trans (Nat.le_add_right c c1) r3, ?_⟩
    intro hz
    have hc1 : c1 = 0 := by omega
    obtain ⟨hL1, hpush⟩ := s3 hc1
    obtain ⟨ho1, ho2⟩ := r4 (by omega)
    have hL1b : L1 = L := hL1
    rw [hL1b] at ho1 ho2
    refine ⟨ho1, ?_⟩
    intro uu hu key hk r hrm hr1 sym hsym
    rcases List.mem_cons.mp hu with h3 | h3
    · rw [h3] at hk hr1 hsym
      exact hpush key hk r hrm hr1 sym hsym
    · exact ho2 uu h3 key hk r hrm hr1 sym hsym

/-- `__build_lookahead`: the fuelled sweep loop reaches the propagation
fixpoint, growing the tables monotonically while keeping the `$`-only
discipline at `S^` positions. -/
theorem lalrRounds_spec (bst0 : BuildSt)
    (routes : List ((Nat × Nat) × (Nat × Nat))) (kLens : List Nat)
    (hroutes : ∀ r ∈ routes, RouteOk bst0 r) :
    ∀ (fuel : Nat) (L L2 : List (List (List String))),
      lalrRounds routes kLens fuel L = some L2 →
      (∀ u2 j2 x, x ∈ lookGet L u2 j2 → x ∈ lookGet L2 u2 j2) ∧
      (PaProp bst0 L → PaProp bst0 L2) ∧
      PropFix routes kLens L2 := by
  intro fuel
  induction fuel with
  | zero =>
    intro L L2 h
    simp [lalrRounds] at h
  | succ n ih =>
    intro L L2 h
    rw [lalrRounds] at h
    rcases hr : (List.range kLens.length).foldl (fun acc u =>
        let p := pushState routes kLens acc.1 u
        (p.1, acc.2 + p.2)) (L, 0) with ⟨L1, c1⟩
    simp only [hr] at h
    obtain ⟨s1, s2, _, s4⟩ := sweepFold_spec bst0 routes kLens hroutes
      (List.range kLens.length) L 0 (L1, c1) hr
    by_cases hc : c1 = 0
    · rw [if_pos hc] at h
      have hL2 : L1 = L2 := Option.some.inj h
      obtain ⟨heq, hchar⟩ := s4 hc
      have heqb : L1 = L := heq
      rw [heqb] at hL2
      rw [← hL2]
      refine ⟨fun u2 j2 x hx => hx, fun hp => hp, ?_⟩
      intro r hrm hlt1 hlt2 sym hsym
      exact hchar r.1.1 (List.mem_range.mpr hlt1) r.1.2 hlt2 r hrm rfl
        sym hsym
    · rw [if_neg hc] at h
      obtain ⟨r1, r2, r3⟩ := ih L1 L2 h
      exact ⟨fun u2 j2 x hx => r1 u2 j2 x (s1 u2 j2 x hx),
        fun hp => r2 (s2 hp), r3⟩

theorem get_singleton_eq {α : Type} (a kk : α) (key : Nat)
    (h : ([a] : List α).get? key = some kk) : kk = a ∧ key = 0 := by
  cases key with
  | zero => exact ⟨(Option.some.inj h).symm, rfl⟩
  | succ n => simp at h

/-- The `__build_LR1_state` loop materializes exactly one state per
LR(0) state, at the same index. -/
theorem matFold_mem (g : NGrammar) (F : FirstSt) (fuel : Nat)
    (bst0 : BuildSt) (look : List (List (List String))) :
    ∀ (k m : Nat) (acc sts : List LState),
      (List.range' m k).foldlM (materializeStep g F fuel bst0 look) acc =
        some sts →
      acc.length = m →
      (∀ i, i < m → sts.get? i = acc.get? i) ∧
      (∀ u, m ≤ u → u < m + k → ∃ s cls,
        bst0.states.get? u = some s ∧
        lr1Closure g F fuel (materializeKernel s look u) = some cls ∧
        sts.get? u = some ⟨materializeKernel s look u, cls⟩) := by
  intro k
  induction k with
  | zero =>
    intro m acc sts h hlen
    rw [show List.range' m 0 = [] from rfl] at h
    simp [List.foldlM] at h
    subst h
    exact ⟨fun i _ => rfl, fun u h1 h2 => absurd h2 (by omega)⟩
  | succ kk ih =>
    intro m acc sts h hlen
    rw [show List.range' m (kk + 1) = m :: List.range' (m + 1) kk from rfl,
      List.foldlM_cons] at h
    rcases h1 : materializeStep g F fuel bst0 look acc m with _ | out
    · rw [h1] at h
      exact Option.noConfusion h
    · rw [h1] at h
      have h2 : (List.range' (m + 1) kk).foldlM
          (materializeStep g F fuel bst0 look) out = some sts := by
        simpa using h
      rw [materializeStep] at h1
      rcases hs : bst0.states.get? m with _ | s
      · simp only [hs] at h1
        exact Option.noConfusion h1
      · simp only [hs] at h1
        rcases hcls : lr1Closure g F fuel (materializeKernel s look m)
            with _ | cls
        · simp only [hcls] at h1
          exact Option.noConfusion h1
        · simp only [hcls] at h1
          by_cases hfind : (stateFind acc (materializeKernel s look m)).isSome
          · rw [if_pos hfind] at h1
            exact Option.noConfusion h1
          · rw [if_neg hfind] at h1
            have hout : out = acc ++
                [(⟨materializeKernel s look m, cls⟩ : LState)] :=
              (Option.some.inj h1).symm
            have houtlen : out.length = m + 1 := by
              rw [hout, List.length_append, hlen]
              rfl
            obtain ⟨p1, p2⟩ := ih (m + 1) out sts h2 houtlen
            constructor
            · intro i hi
              rw [p1 i (by omega), hout,
                List.get?_append (by omega)]
            · intro u hu1 hu2
              by_cases hum : u = m
              · subst hum
                refine ⟨s, cls, hs, hcls, ?_⟩
                rw [p1 u (by omega), hout, ← hlen,
                  List.get?_concat_length]
              · obtain ⟨s3, cls3, a1, a2, a3⟩ :=
                  p2 u (by omega) (by omega)
                exact ⟨s3, cls3, a1, a2, a3⟩

/-- Index-preserving description of `materialize`. -/
theorem materialize_mem (g : NGrammar) (F : FirstSt) (fuel : Nat)
    (bst0 : BuildSt) (look : List (List (List String)))
    (sts : List LState)
    (h : materialize g F fuel bst0 look = some sts) :
    ∀ u, u < bst0.states.length → ∃ s cls,
      bst0.states.get? u = some s ∧
      lr1Closure g F fuel (materializeKernel s look u) = some cls ∧
      sts.get? u = some ⟨materializeKernel s look u, cls⟩ := by
  rw [materialize, List.range_eq_range'] at h
  obtain ⟨_, p2⟩ := matFold_mem g F fuel bst0 look
    bst0.states.length 0 [] sts h rfl
  exact fun u hu => p2 u (Nat.zero_le u) (by omega)

/-- `LALRAnalyzer.process` + `__build_table`: the one `Accept` cell of
the LALR machine, at the goto-on-`start` successor of state 0 under
`$`. -/
theorem lalrAccepts (g : NGrammar) (F : FirstSt) (fuel : Nat)
    (start : String) (bst : BuildSt)
    (haug : rulesOf g "S^" = [⟨"S^", [start]⟩])
    (hg2 : ∀ p ∈ g.prods, "S^" ∉ p.body)
    (h : lalrProcess g F fuel = some bst) :
    ∃ t, linkGet bst.links 0 start = some t ∧
      acceptsOf (buildTable bst) = [(t, "$", TAct.accept)] := by
  obtain ⟨_, hSne⟩ := augment_start_ne g start haug hg2
  rw [lalrProcess] at h
  rcases h0 : lr0BuildStates g fuel with _ | bst0
  · simp only [h0] at h
    exact Option.noConfusion h
  simp only [h0] at h
  obtain ⟨hGI, hlk⟩ := lr0Build_GInv g fuel start bst0 haug hg2 h0
  rcases hl : linkGet bst0.links 0 start with _ | t
  · exact absurd hl hlk
  rcases hbr : buildRoutes g F fuel bst0 with _ | ps
  · simp only [hbr] at h
    exact Option.noConfusion h
  simp only [hbr] at h
  obtain ⟨hRok, hPaPs, hPsLen, st2, jt, hgt, hjtg, hroute, hdol⟩ :=
    buildRoutes_spec g F fuel bst0 start hGI hg2 hSne t hl ps hbr
  rcases hrd : lalrRounds ps.routes
      (bst0.states.map (fun s => s.kernel.length)) fuel ps.look
      with _ | look
  · simp only [hrd] at h
    exact Option.noConfusion h
  simp only [hrd] at h
  obtain ⟨rmono, rPa, rfix⟩ := lalrRounds_spec bst0 ps.routes
    (bst0.states.map (fun s => s.kernel.length)) hRok fuel ps.look look hrd
  have hPaL : PaProp bst0 look := rPa hPaPs
  have hdolL : "$" ∈ lookGet look 0 0 := rmono 0 0 "$" hdol
  obtain ⟨c0, hc0⟩ := hGI.st0
  have h0lt : 0 < bst0.states.length := (List.get?_eq_some.mp hc0).1
  have hsrc1 : (0 : Nat) <
      (bst0.states.map (fun s => s.kernel.length)).length := by
    simpa using h0lt
  have hsrc2 : (0 : Nat) <
      (((bst0.states.map (fun s => s.kernel.length)).get? 0).getD 0) := by
    rw [List.get?_map, hc0]
    simp
  have hdolT : "$" ∈ lookGet look t jt :=
    rfix ((0, 0), (t, jt)) hroute hsrc1 hsrc2 "$" hdolL
  rcases hmat : materialize g F fuel bst0 look with _ | sts
  · simp only [hmat] at h
    exact Option.noConfusion h
  simp only [hmat] at h
  have hbst : bst = { states := sts, links := bst0.links, pending := [] } :=
    (Option.some.inj h).symm
  have hlen : sts.length = bst0.states.length :=
    materialize_length g F fuel bst0 look sts hmat
  have hmm := materialize_mem g F fuel bst0 look sts hmat
  have hkb : ∀ u s2, bst0.states.get? u = some s2 →
      ∀ it ∈ materializeKernel s2 look u, "S^" ∉ it.body := by
    intro u s2 hgu it hit
    obtain ⟨key, kk, sym, hkk, hsymm, he⟩ :=
      (mem_materializeKernel s2 look u it).mp hit
    rw [he]
    have hb : "S^" ∉ kk.body :=
      (hGI.states_ok s2 (List.get?_mem hgu)).2.2.2.1 kk (List.get?_mem hkk)
    simpa using hb
  have hchar : ∀ i s2, sts.get? i = some s2 → ∀ it ∈ s2.closure,
      it.head = "S^" →
      it = mkSI start (some "$") 0 ∨ it = mkSI start (some "$") 1 := by
    intro i s2 hgi it hit hh
    have hilt : i < sts.length := (List.get?_eq_some.mp hgi).1
    obtain ⟨s, cls, hgs, hcls, hgm⟩ := hmm i (by omega)
    have hs2 : s2 = ⟨materializeKernel s look i, cls⟩ :=
      Option.some.inj (hgi.symm.trans hgm)
    rw [hs2] at hit
    obtain ⟨c1, _, _⟩ := lr1Closure_spec2 g F fuel hg2 _ cls hcls
      (hkb i s hgs)
    rcases c1 it hit with hk2 | hk2
    · obtain ⟨key, kk, sym, hkk, hsymm, he⟩ :=
        (mem_materializeKernel s look i it).mp hk2
      have hkh : kk.head = "S^" := by
        rw [he] at hh
        simpa using hh
      have hsymS : sym = "$" := by
        rcases hPaL i key sym hsymm with h4 | h4
        · exact h4
        · obtain ⟨s0b, it2b, hgb, hkb2, hneb⟩ := h4
          rw [hgs] at hgb
          have hsb := Option.some.inj hgb
          rw [← hsb] at hkb2
          rw [hkk] at hkb2
          have hib := Option.some.inj hkb2
          rw [← hib] at hneb
          exact absurd hkh hneb
      by_cases hi0 : i = 0
      · subst hi0
        have hseq : s = ⟨[mkSI start none 0], c0⟩ :=
          Option.some.inj (hgs.symm.trans hc0)
        rw [hseq] at hkk
        obtain ⟨hkka, _⟩ := get_singleton_eq (mkSI start none 0) kk key hkk
        left
        rw [he, hkka, hsymS]
        rfl
      · have hkka := (hGI.kernels1 i s hgs hi0 kk (List.get?_mem hkk)).2 hkh
        right
        rw [he, hkka, hsymS]
        rfl
    · exact absurd hh hk2.2
  have hnd : ∀ s2 ∈ (⟨sts, bst0.links, []⟩ : BuildSt).states,
      s2.closure.Nodup := by
    intro s2 hs2
    obtain ⟨i, hgi⟩ := List.mem_iff_get?.mp hs2
    have hilt : i < sts.length := (List.get?_eq_some.mp hgi).1
    obtain ⟨s, cls, hgs, hcls, hgm⟩ := hmm i (by omega)
    have hs2e : s2 = ⟨materializeKernel s look i, cls⟩ :=
      Option.some.inj (hgi.symm.trans hgm)
    rw [hs2e]
    exact (lr1Closure_spec2 g F fuel hg2 _ cls hcls (hkb i s hgs)).2.1
  have hex : ∃ s2, sts.get? t = some s2 ∧
      mkSI start (some "$") 1 ∈ s2.closure := by
    have htlt : t < bst0.states.length := (List.get?_eq_some.mp hgt).1
    obtain ⟨s, cls, hgs, hcls, hgm⟩ := hmm t htlt
    have hse : s = st2 := Option.some.inj (hgs.symm.trans hgt)
    refine ⟨⟨materializeKernel s look t, cls⟩, hgm, ?_⟩
    have hkm : mkSI start (some "$") 1 ∈ materializeKernel s look t := by
      refine (mem_materializeKernel s look t _).mpr
        ⟨jt, mkSI start none 1, "$", ?_, hdolT, rfl⟩
      rw [hse]
      exact hjtg
    exact (lr1Closure_spec2 g F fuel hg2 _ cls hcls (hkb t s hgs)).2.2 _ hkm
  have huniq : ∀ i s2, sts.get? i = some s2 → i ≠ t →
      mkSI start (some "$") 1 ∉ s2.closure := by
    intro i s2 hgi hne hit
    have hilt : i < sts.length := (List.get?_eq_some.mp hgi).1
    obtain ⟨s, cls, hgs, hcls, hgm⟩ := hmm i (by omega)
    have hs2e : s2 = ⟨materializeKernel s look i, cls⟩ :=
      Option.some.inj (hgi.symm.trans hgm)
    rw [hs2e] at hit
    obtain ⟨c1, _, _⟩ := lr1Closure_spec2 g F fuel hg2 _ cls hcls
      (hkb i s hgs)
    rcases c1 _ hit with hk2 | hk2
    · obtain ⟨key, kk, sym, hkk, hsymm, he⟩ :=
        (mem_materializeKernel s look i _).mp hk2
      have hhead : kk.head = "S^" := congrArg LItem.head he.symm
      have hdot : kk.dot = 1 := congrArg LItem.dot he.symm
      by_cases hi0 : i = 0
      · subst hi0
        have hseq : s = ⟨[mkSI start none 0], c0⟩ :=
          Option.some.inj (hgs.symm.trans hc0)
        rw [hseq] at hkk
        obtain ⟨hkka, _⟩ := get_singleton_eq (mkSI start none 0) kk key hkk
        rw [hkka] at hdot
        have h01 : (0 : Nat) = 1 := hdot
        omega
      · have hkka := (hGI.kernels1 i s hgs hi0 kk (List.get?_mem hkk)).2
          hhead
        have hkc : mkSI start none 1 ∈ s.closure := by
          have hm := List.get?_mem hkk
          rw [hkka] at hm
          exact (hGI.states_ok s (List.get?_mem hgs)).2.2.1 _ hm
        have hli := hGI.i1_link i s hgs hkc
        rw [hl] at hli
        exact hne (Option.some.inj hli).symm
    · exact absurd rfl hk2.2
  have haccepts := accepts_of_uniq start (some "$")
    ⟨sts, bst0.links, []⟩ t hchar hnd hex huniq
  refine ⟨t, ?_, ?_⟩
  · rw [hbst]
    exact hl
  · rw [hbst]
    exact haccepts

/-- C3: for every grammar successfully processed by the LR(1) or LALR
constructor (augmented as `S^ → start` with `S^` in no production
body), the built table contains exactly one Accept action overall; it
sits in the column of the end-of-input symbol `$`, in the state reached
by the transition on the original start symbol out of state 0. -/
theorem claim_C3 (g : NGrammar) (F : FirstSt) (fuel : Nat) (start : String)
    (haug : rulesOf g "S^" = [⟨"S^", [start]⟩])
    (hg2 : ∀ p ∈ g.prods, "S^" ∉ p.body) :
    (∀ bst, lr1BuildStates g F fuel = some bst →
      ∃ t, linkGet bst.links 0 start = some t ∧
        acceptsOf (buildTable bst) = [(t, "$", TAct.accept)]) ∧
    (∀ bst, lalrProcess g F fuel = some bst →
      ∃ t, linkGet bst.links 0 start = some t ∧
        acceptsOf (buildTable bst) = [(t, "$", TAct.accept)]) := by
  constructor
  · intro bst h
    obtain ⟨hGI, hlk⟩ := lr1Build_GInv g F fuel start bst haug hg2 h
    obtain ⟨t, h1, h2⟩ := GInv_accepts start (some "$") bst hGI hlk
    exact ⟨t, h1, h2⟩
  · intro bst h
    exact lalrAccepts g F fuel start bst haug hg2 h

theorem claim_C3_witness :
    (∃ t, linkGet b91.links 0 "S" = some t ∧
      acceptsOf (buildTable b91) = [(t, "$", TAct.accept)]) ∧
    (∃ t, linkGet b9L.links 0 "S" = some t ∧
      acceptsOf (buildTable b9L) = [(t, "$", TAct.accept)]) :=
  ⟨(claim_C3 g9 f9 60 "S" (by rfl) (by decide)).1 b91 (by rfl),
   (claim_C3 g9 f9 60 "S" (by rfl) (by decide)).2 b9L (by rfl)⟩

end LIBLR
